import Mathlib

/-!
# Erasure-code recovery helpers (`eccmaker_common.c`)

A shallow embedding of the decode-matrix builder `gf_gen_decode_matrix_simple`
and of the recovery driver `recover_data` into Lean, together with the
properties established about them.

Conventions of the embedding

* The byte type `u8` is `Fin 256`; every int-to-byte store is an explicit
  reduction modulo 256 (`Fin.ofNat`).
* A C array is a `List`; a read or write outside the list is the result
  `Stop.fault` (undefined behaviour in C), `exit(c)` is `Stop.exited c`.
* C `int` counters and sizes (`k`, `m`, `nerrs`, loop indices) are natural
  numbers; all index arithmetic in the embedded code stays far below `2^31`
  for arrays that fit in memory.
* Routines of the coding primitive library (ISA-L) that the file calls are not
  part of the source file; `gf_mul` and the encode kernels are modelled, the
  matrix inversion is a parameter of the embedding (`Env.gf_invert_matrix`).
-/

/-- The byte type of the source, `u8` (`unsigned char`): values 0..255. -/
abbrev u8 := Fin 256

/-! ## GF(2^8) multiplication of the coding primitive library -/

/-- Modelled from the spec: the exponent table behind `gf_multiply(a, b)` of the
coding primitive library (its source is not part of the repository):
`gff_base[i] = 2^i` in GF(2^8) with the field polynomial `0x11d`. -/
def gff_base : List Nat :=
  [1, 2, 4, 8, 16, 32, 64, 128, 29, 58, 116, 232, 205, 135, 19, 38,
   76, 152, 45, 90, 180, 117, 234, 201, 143, 3, 6, 12, 24, 48, 96, 192,
   157, 39, 78, 156, 37, 74, 148, 53, 106, 212, 181, 119, 238, 193, 159, 35,
   70, 140, 5, 10, 20, 40, 80, 160, 93, 186, 105, 210, 185, 111, 222, 161,
   95, 190, 97, 194, 153, 47, 94, 188, 101, 202, 137, 15, 30, 60, 120, 240,
   253, 231, 211, 187, 107, 214, 177, 127, 254, 225, 223, 163, 91, 182, 113, 226,
   217, 175, 67, 134, 17, 34, 68, 136, 13, 26, 52, 104, 208, 189, 103, 206,
   129, 31, 62, 124, 248, 237, 199, 147, 59, 118, 236, 197, 151, 51, 102, 204,
   133, 23, 46, 92, 184, 109, 218, 169, 79, 158, 33, 66, 132, 21, 42, 84,
   168, 77, 154, 41, 82, 164, 85, 170, 73, 146, 57, 114, 228, 213, 183, 115,
   230, 209, 191, 99, 198, 145, 63, 126, 252, 229, 215, 179, 123, 246, 241, 255,
   227, 219, 171, 75, 150, 49, 98, 196, 149, 55, 110, 220, 165, 87, 174, 65,
   130, 25, 50, 100, 200, 141, 7, 14, 28, 56, 112, 224, 221, 167, 83, 166,
   81, 162, 89, 178, 121, 242, 249, 239, 195, 155, 43, 86, 172, 69, 138, 9,
   18, 36, 72, 144, 61, 122, 244, 245, 247, 243, 251, 235, 203, 139, 11, 22,
   44, 88, 176, 125, 250, 233, 207, 131, 27, 54, 108, 216, 173, 71, 142, 1]

/-- Modelled from the spec: the logarithm table behind `gf_multiply(a, b)` of the
coding primitive library (its source is not part of the repository):
`gflog_base[a]` is the `i` with `gff_base[i] = a`, and `255` for `a = 0`. -/
def gflog_base : List Nat :=
  [255, 0, 1, 25, 2, 50, 26, 198, 3, 223, 51, 238, 27, 104, 199, 75,
   4, 100, 224, 14, 52, 141, 239, 129, 28, 193, 105, 248, 200, 8, 76, 113,
   5, 138, 101, 47, 225, 36, 15, 33, 53, 147, 142, 218, 240, 18, 130, 69,
   29, 181, 194, 125, 106, 39, 249, 185, 201, 154, 9, 120, 77, 228, 114, 166,
   6, 191, 139, 98, 102, 221, 48, 253, 226, 152, 37, 179, 16, 145, 34, 136,
   54, 208, 148, 206, 143, 150, 219, 189, 241, 210, 19, 92, 131, 56, 70, 64,
   30, 66, 182, 163, 195, 72, 126, 110, 107, 58, 40, 84, 250, 133, 186, 61,
   202, 94, 155, 159, 10, 21, 121, 43, 78, 212, 229, 172, 115, 243, 167, 87,
   7, 112, 192, 247, 140, 128, 99, 13, 103, 74, 222, 237, 49, 197, 254, 24,
   227, 165, 153, 119, 38, 184, 180, 124, 17, 68, 146, 217, 35, 32, 137, 46,
   55, 63, 209, 91, 149, 188, 207, 205, 144, 135, 151, 178, 220, 252, 190, 97,
   242, 86, 211, 171, 20, 42, 93, 158, 132, 60, 57, 83, 71, 109, 65, 162,
   31, 45, 67, 216, 183, 123, 164, 118, 196, 23, 73, 236, 127, 12, 111, 246,
   108, 161, 59, 82, 41, 157, 85, 170, 251, 96, 134, 177, 187, 204, 62, 90,
   203, 89, 95, 176, 156, 169, 160, 81, 11, 245, 22, 235, 122, 117, 44, 215,
   79, 174, 213, 233, 230, 231, 173, 232, 116, 214, 244, 234, 168, 80, 88, 175]

/-- Modelled from the spec: `gf_multiply(a, b) -> byte` over GF(2^8) of the coding
primitive library (its source is not part of the repository), the table
multiply `gff_base[(gflog_base[a] + gflog_base[b]) mod 255]`. -/
def gf_mul (a b : u8) : u8 :=
  if a = 0 ∨ b = 0 then 0
  else
    let i := gflog_base.getD a.val 0 + gflog_base.getD b.val 0
    Fin.ofNat (gff_base.getD (if i > 254 then i - 255 else i) 0)

/-- Modelled from the spec: the multiplicative inverse used by the matrix
inversion of the coding primitive library (not part of the repository), `gff_base[255 - gflog_base[a]]`, and `0` for `0`. -/
def gf_inv (a : u8) : u8 :=
  if a = 0 then 0 else Fin.ofNat (gff_base.getD (255 - gflog_base.getD a.val 0) 0)

/-- The table multiply on natural numbers (the arithmetic of `gf_mul` without the
byte type), used to state the field laws. -/
def gf_mulN (a b : Nat) : Nat :=
  if a = 0 ∨ b = 0 then 0
  else
    let i := gflog_base.getD a 0 + gflog_base.getD b 0
    gff_base.getD (if i > 254 then i - 255 else i) 0

/-- Multiplication by the generator 2 in GF(2^8): a shift, reduced by the field
polynomial `0x11d`. -/
def xtimeN (a : Nat) : Nat := (2 * a) % 256 ^^^ (if 128 ≤ a then 29 else 0)

/-! ## Execution model -/

/-- Ways a call can end other than by returning to its caller. -/
inductive Stop where
  /-- An access outside an array: undefined behaviour in C. -/
  | fault
  /-- The process was ended by `exit(code)`. -/
  | exited (code : Int)
  /-- An `assert` failed: the process was ended by `abort()`. -/
  | aborted
  /-- The supplied outcomes of `getrandom` are used up while the rejection loop of
  `generate_byte` is still running. -/
  | pending
deriving DecidableEq, Repr

/-- Result of running embedded code: a value, or the way the run stopped. -/
abbrev Run := Except Stop

/-- Array read `a[i]`; outside the array the run faults. -/
def rd {α : Type} (a : List α) (i : Nat) : Run α :=
  match a[i]? with
  | some v => pure v
  | none => throw Stop.fault

/-- Array write `a[i] = v`; outside the array the run faults. -/
def wr {α : Type} (a : List α) (i : Nat) (v : α) : Run (List α) :=
  if i < a.length then pure (a.set i v) else throw Stop.fault

/-- The loop `for (i = 0; i < n; i++) body`, threading the state `s`:
iterations `0, 1, ..., n-1` in this order. -/
def forLoop {σ : Type} (body : Nat → σ → Run σ) : Nat → σ → Run σ
  | 0, s => pure s
  | n + 1, s => forLoop body n s >>= body n

/-- The function-local `static` variables of `gf_gen_decode_matrix_simple`;
`none` is the `NULL` pointer. -/
structure Statics where
  first_run : Bool
  temp_matrix : Option (List u8)
  invert_matrix : Option (List u8)
deriving DecidableEq, Repr

/-- The state of the statics before the first call. -/
def Statics.initial : Statics := ⟨true, none, none⟩

/-- What the embedded code takes from outside the source file. -/
structure Env where
  /-- The constant `MMAX` of the header, the size of `frag_in_err`. -/
  MMAX : Nat
  /-- The constant `KMAX` of the header, the size of `recover_srcs`. -/
  KMAX : Nat
  /-- The first `malloc` of the builder: `none` when it returns `NULL`, else the
  (arbitrary) initial byte at each offset of the new block. -/
  malloc_temp : Nat → Option (Nat → u8)
  /-- The second `malloc` of the builder, as `malloc_temp`. -/
  malloc_invert : Nat → Option (Nat → u8)
  /-- Whether a `calloc` of the given number of bytes succeeds. -/
  calloc_ok : Nat → Bool
  /-- The library routine `gf_invert_matrix(in_mat, out_mat, n)`: from the two
  buffers and `n` to the returned `int` and the two buffers after the call (or a
  fault, when it leaves a buffer). -/
  gf_invert_matrix : List u8 → List u8 → Nat → Run (Int × List u8 × List u8)

/-- A block of `n` bytes with the given contents. -/
def block (n : Nat) (f : Nat → u8) : List u8 := (List.range n).map f

/-- Lines 26-31: on the first run the two scratch matrices are allocated. -/
def alloc_statics (E : Env) (m k : Nat) (st : Statics) : Statics :=
  if st.first_run then
    { first_run := false
      temp_matrix := (E.malloc_temp (m * k)).map (block (m * k))
      invert_matrix := (E.malloc_invert (m * k)).map (block (m * k)) }
  else st

/-- Body of the loop of lines 49-53, on the state `(nsrcerrs, frag_in_err)`. -/
def mark_body (frag_err_list : List u8) (k : Nat) (i : Nat) (s : Nat × List u8) :
    Run (Nat × List u8) := do
  let e ← rd frag_err_list i
  let nsrcerrs := if e.val < k then s.1 + 1 else s.1
  let frag_in_err ← wr s.2 e.val 1
  pure (nsrcerrs, frag_in_err)

/-- The loop `while (frag_in_err[r]) r++` of lines 57-58, returning the final `r`.
The recursion is on `fuel`; the read faults once `r` reaches the end of
`frag_in_err`, so `frag_in_err.length + 1` steps always suffice (theorem
`skip_erased_fuel`). -/
def skip_erased (frag_in_err : List u8) : Nat → Nat → Run Nat
  | 0, _ => throw Stop.fault
  | fuel + 1, r => do
    let f ← rd frag_in_err r
    if f ≠ 0 then skip_erased frag_in_err fuel (r + 1) else pure r

/-- State of the loop of lines 56-62. -/
structure GatherState where
  r : Nat
  temp_matrix : List u8
  decode_index : List u8
deriving DecidableEq, Repr

/-- Body of the loop of lines 59-60: `temp_matrix[k*i+j] = encode_matrix[k*r+j]`. -/
def copy_row (encode_matrix : List u8) (k r i : Nat) (j : Nat) (temp_matrix : List u8) :
    Run (List u8) := do
  let v ← rd encode_matrix (k * r + j)
  wr temp_matrix (k * i + j) v

/-- Body of the loop of lines 56-62 (with its increment `r++`). -/
def gather_body (encode_matrix frag_in_err : List u8) (k : Nat) (i : Nat) (s : GatherState) :
    Run GatherState := do
  let r ← skip_erased frag_in_err (frag_in_err.length + 1) s.r
  let temp_matrix ← forLoop (copy_row encode_matrix k r i) k s.temp_matrix
  let decode_index ← wr s.decode_index i (Fin.ofNat r)
  pure ⟨r + 1, temp_matrix, decode_index⟩

/-- Body of the loop of lines 71-73:
`decode_matrix[k*i+j] = invert_matrix[k*frag_err_list[i]+j]`. -/
def copy_inv_row (invert_matrix : List u8) (k e i : Nat) (j : Nat) (decode_matrix : List u8) :
    Run (List u8) := do
  let v ← rd invert_matrix (k * e + j)
  wr decode_matrix (k * i + j) v

/-- Body of the loop of lines 69-74. -/
def src_row_body (frag_err_list invert_matrix : List u8) (k : Nat) (i : Nat)
    (decode_matrix : List u8) : Run (List u8) := do
  let e ← rd frag_err_list i
  if e.val < k then forLoop (copy_inv_row invert_matrix k e.val i) k decode_matrix
  else pure decode_matrix

/-- Body of the loop of lines 81-83:
`s ^= gf_mul(invert_matrix[j*k+i], encode_matrix[k*frag_err_list[p]+j])`. -/
def parity_acc (invert_matrix encode_matrix : List u8) (k e i : Nat) (j : Nat) (s : u8) :
    Run u8 := do
  let a ← rd invert_matrix (j * k + i)
  let b ← rd encode_matrix (k * e + j)
  pure (s ^^^ gf_mul a b)

/-- Body of the loop of lines 79-85. -/
def parity_col (invert_matrix encode_matrix : List u8) (k e p : Nat) (i : Nat)
    (decode_matrix : List u8) : Run (List u8) := do
  let s ← forLoop (parity_acc invert_matrix encode_matrix k e i) k 0
  wr decode_matrix (k * p + i) s

/-- Body of the loop of lines 77-87. -/
def parity_row_body (frag_err_list invert_matrix encode_matrix : List u8) (k : Nat) (p : Nat)
    (decode_matrix : List u8) : Run (List u8) := do
  let e ← rd frag_err_list p
  if e.val ≥ k then forLoop (parity_col invert_matrix encode_matrix k e.val p) k decode_matrix
  else pure decode_matrix

/-- What a call of `gf_gen_decode_matrix_simple` leaves behind: the returned
`int`, the two output arrays and the statics. -/
structure DecodeOut where
  ret : Int
  decode_matrix : List u8
  decode_index : List u8
  statics : Statics
deriving DecidableEq, Repr

/-- Lines 41-62 of `gf_gen_decode_matrix_simple`: the erased fragments are marked
in `frag_in_err`, then the first `k` unmarked rows of the encode matrix are
gathered into `temp_matrix` and their indices into `decode_index`. The result is
the state in which `gf_invert_matrix` is called. -/
def gather_survivors (E : Env) (encode_matrix frag_err_list : List u8) (nerrs k : Nat)
    (temp_matrix decode_index : List u8) : Run GatherState := do
  let frag_in_err : List u8 := List.replicate E.MMAX 0
  let marked ← forLoop (mark_body frag_err_list k) nerrs (0, frag_in_err)
  forLoop (gather_body encode_matrix marked.2 k) k ⟨0, temp_matrix, decode_index⟩

/-- Lines 68-87 of `gf_gen_decode_matrix_simple`: the rows of the decode matrix,
first those of the erased data fragments, then those of the erased parity
fragments. -/
def fill_decode_matrix (encode_matrix frag_err_list invert_matrix : List u8) (nerrs k : Nat)
    (decode_matrix : List u8) : Run (List u8) := do
  let decode_matrix ← forLoop (src_row_body frag_err_list invert_matrix k) nerrs decode_matrix
  forLoop (parity_row_body frag_err_list invert_matrix encode_matrix k) nerrs decode_matrix

/-- The function `gf_gen_decode_matrix_simple` (lines 13-89). -/
def gf_gen_decode_matrix_simple (E : Env) (st : Statics)
    (encode_matrix frag_err_list decode_matrix decode_index : List u8)
    (nerrs k m : Nat) : Run DecodeOut :=
  let st := alloc_statics E m k st
  match st.temp_matrix, st.invert_matrix with
  | some temp_matrix, some invert_matrix => do
    let g ← gather_survivors E encode_matrix frag_err_list nerrs k temp_matrix decode_index
    let inv ← E.gf_invert_matrix g.temp_matrix invert_matrix k
    let st : Statics := ⟨st.first_run, some inv.2.1, some inv.2.2⟩
    if inv.1 < 0 then
      pure ⟨-1, decode_matrix, g.decode_index, st⟩
    else do
      let decode_matrix ←
        fill_decode_matrix encode_matrix frag_err_list inv.2.2 nerrs k decode_matrix
      pure ⟨0, decode_matrix, g.decode_index, st⟩
  | _, _ => throw (Stop.exited (-1))

/-! ## A model of the library matrix inversion -/

/-- State of the elimination: the matrix being reduced, the matrix becoming the
inverse, and whether the routine has already returned `-1`. -/
structure InvState where
  in_mat : List u8
  out_mat : List u8
  singular : Bool
deriving DecidableEq, Repr

/-- Search `for (j = i + 1; j < n; j++) if (in_mat[j*n+i]) break;`, returning `j`. -/
def find_pivot (in_mat : List u8) (n i : Nat) : Nat → Nat → Run Nat
  | 0, j => pure j
  | fuel + 1, j =>
    if j < n then do
      let v ← rd in_mat (j * n + i)
      if v ≠ 0 then pure j else find_pivot in_mat n i fuel (j + 1)
    else pure j

/-- Swap of rows `i` and `j`, column `c`, in both matrices. -/
def swap_rows (n i j : Nat) (c : Nat) (s : InvState) : Run InvState := do
  let a ← rd s.in_mat (i * n + c)
  let b ← rd s.in_mat (j * n + c)
  let in1 ← wr s.in_mat (i * n + c) b
  let in2 ← wr in1 (j * n + c) a
  let x ← rd s.out_mat (i * n + c)
  let y ← rd s.out_mat (j * n + c)
  let out1 ← wr s.out_mat (i * n + c) y
  let out2 ← wr out1 (j * n + c) x
  pure { s with in_mat := in2, out_mat := out2 }

/-- Scaling of row `i` by `temp`, column `j`, in both matrices. -/
def scale_row (n i : Nat) (temp : u8) (j : Nat) (s : InvState) : Run InvState := do
  let a ← rd s.in_mat (i * n + j)
  let in1 ← wr s.in_mat (i * n + j) (gf_mul a temp)
  let x ← rd s.out_mat (i * n + j)
  let out1 ← wr s.out_mat (i * n + j) (gf_mul x temp)
  pure { s with in_mat := in1, out_mat := out1 }

/-- Row `j` gets `temp` times row `i` added, column `c`, in both matrices. -/
def elim_entry (n i j : Nat) (temp : u8) (c : Nat) (s : InvState) : Run InvState := do
  let x ← rd s.out_mat (j * n + c)
  let xi ← rd s.out_mat (i * n + c)
  let out1 ← wr s.out_mat (j * n + c) (x ^^^ gf_mul temp xi)
  let a ← rd s.in_mat (j * n + c)
  let ai ← rd s.in_mat (i * n + c)
  let in1 ← wr s.in_mat (j * n + c) (a ^^^ gf_mul temp ai)
  pure { s with in_mat := in1, out_mat := out1 }

/-- Elimination of column `i` from row `j` (skipped for `j = i`). -/
def elim_row (n i : Nat) (j : Nat) (s : InvState) : Run InvState :=
  if j = i then pure s
  else do
    let temp ← rd s.in_mat (j * n + i)
    forLoop (elim_entry n i j temp) n s

/-- One round of the elimination, for the pivot position `i`. -/
def invert_step (n : Nat) (i : Nat) (s : InvState) : Run InvState :=
  if s.singular then pure s
  else do
    let d ← rd s.in_mat (i * n + i)
    let s1 ←
      if d = 0 then do
        let j ← find_pivot s.in_mat n i n (i + 1)
        if j = n then pure { s with singular := true }
        else forLoop (swap_rows n i j) n s
      else pure s
    if s1.singular then pure s1
    else do
      let d1 ← rd s1.in_mat (i * n + i)
      let s2 ← forLoop (scale_row n i (gf_inv d1)) n s1
      forLoop (elim_row n i) n s2

/-- Modelled from the spec: `invert_matrix(matrix, size) -> inverted | SingularMatrix`
of the coding primitive library (its source is not part of the repository), as the
in-place Gauss-Jordan elimination over GF(2^8) of `gf_invert_matrix`: `out_mat`
starts as the identity, every row operation is applied to both matrices, and the
result is `-1` when no pivot can be found. -/
def isal_gf_invert_matrix (in_mat out_mat : List u8) (n : Nat) :
    Run (Int × List u8 × List u8) := do
  let out0 ← forLoop (fun i o => wr o i 0) (n * n) out_mat
  let out1 ← forLoop (fun i o => wr o (i * n + i) 1) n out0
  let s ← forLoop (invert_step n) n ⟨in_mat, out1, false⟩
  pure (if s.singular then -1 else 0, s.in_mat, s.out_mat)

/-! ## The encode kernels of the coding primitive library and `recover_data` -/

/-- Modelled from the spec: the 32-byte table that `build_encode_tables` of the
coding primitive library (its source is not part of the repository) stores for
one coefficient `c`: the products of `c` with the 16 low nibbles `0x00..0x0f`,
then with the 16 high nibbles `0x00, 0x10, .., 0xf0`. Entry 1 is `c * 1`. -/
def gf_vect_mul_init (c : u8) (off : Nat) (t : Nat) (g_tbls : List u8) : Run (List u8) :=
  wr g_tbls (off + t) (gf_mul c (Fin.ofNat (if t < 16 then t else 16 * (t - 16))))

/-- Modelled from the spec: `build_encode_tables(k, nerrs, decode_matrix) -> tables`
of the coding primitive library (`ec_init_tables`, not part of the repository):
one 32-byte table per coefficient, in row-major order of the `rows` by `k`
matrix `a`. -/
def ec_init_tables (k rows : Nat) (a : List u8) (g_tbls : List u8) : Run (List u8) :=
  forLoop (fun i g =>
    forLoop (fun j g => do
      let c ← rd a (i * k + j)
      forLoop (gf_vect_mul_init c (32 * (i * k + j))) 32 g) k g) rows g_tbls

/-- One byte of one output of `ec_encode_data`. -/
def encode_byte (k : Nat) (v : List u8) (src : List (List u8)) (l i : Nat) (j : Nat) (s : u8) :
    Run u8 := do
  let row ← rd src j
  let x ← rd row i
  let c ← rd v (j * 32 + l * k * 32 + 1)
  pure (s ^^^ gf_mul x c)

/-- Modelled from the spec: `encode_batch(len, k, nerrs, tables, sources[k],
outputs[nerrs])` of the coding primitive library (`ec_encode_data`, not part of
the repository): output `l` is the GF(2^8) product of row `l` of the coefficient
matrix behind the tables with the `k` sources, byte by byte. -/
def ec_encode_data (len k rows : Nat) (v : List u8) (src dest : List (List u8)) :
    Run (List (List u8)) :=
  forLoop (fun l dest =>
    forLoop (fun i dest => do
      let s ← forLoop (encode_byte k v src l i) k 0
      let row ← rd dest l
      let row ← wr row i s
      wr dest l row) len dest) rows dest

/-- Modelled from the spec: `encode_update(len, k, nerrs, source_index, tables,
source, outputs[nerrs])` of the coding primitive library (`ec_encode_data_update`,
not part of the repository): the contribution of source `vec_i` is accumulated
(XOR) into every output. -/
def ec_encode_data_update (len k rows vec_i : Nat) (v : List u8) (data : List u8)
    (dest : List (List u8)) : Run (List (List u8)) :=
  forLoop (fun l dest =>
    forLoop (fun i dest => do
      let row ← rd dest l
      let s ← rd row i
      let x ← rd data i
      let c ← rd v (vec_i * 32 + l * k * 32 + 1)
      let row ← wr row i (s ^^^ gf_mul x c)
      wr dest l row) len dest) rows dest

/-- Body of the loop of lines 337-338: `recover_srcs[i] = frag_ptrs[decode_index[i]]`.
A fragment pointer is modelled by the fragment it points to; fragments are not
written during recovery. -/
def pack_src (frag_ptrs : List (List u8)) (decode_index : List u8) (i : Nat)
    (recover_srcs : List (List u8)) : Run (List (List u8)) := do
  let d ← rd decode_index i
  let f ← rd frag_ptrs d.val
  wr recover_srcs i f

/-- Body of the loop of lines 344-346. -/
def update_step (len k nerrs : Nat) (g_tbls : List u8) (recover_srcs : List (List u8))
    (i : Nat) (output_matrix : List (List u8)) : Run (List (List u8)) := do
  let src ← rd recover_srcs i
  ec_encode_data_update len k nerrs i g_tbls src output_matrix

/-- The function `recover_data` (lines 308-350); the result is the output matrix
and the statics after the call. A `NULL` entry of `recover_srcs` is the empty
fragment. -/
def recover_data (E : Env) (st : Statics) (k m p nerrs len : Nat)
    (encode_matrix : List u8) (frag_ptrs : List (List u8)) (frag_err_list : List u8)
    (output_matrix : List (List u8)) (use_progressive : Int) :
    Run (List (List u8) × Statics) :=
  if E.calloc_ok (m * k) = false ∨ E.calloc_ok (k * p * 32) = false then
    throw (Stop.exited (-1))
  else do
    let decode_matrix : List u8 := List.replicate (m * k) 0
    let g_tbls : List u8 := List.replicate (k * p * 32) 0
    let decode_index : List u8 := List.replicate E.MMAX 0
    let recover_srcs : List (List u8) := List.replicate E.KMAX []
    let d ← gf_gen_decode_matrix_simple E st encode_matrix frag_err_list
      decode_matrix decode_index nerrs k m
    if d.ret ≠ 0 then throw (Stop.exited (-1))
    else do
      let recover_srcs ← forLoop (pack_src frag_ptrs d.decode_index) k recover_srcs
      let g_tbls ← ec_init_tables k nerrs d.decode_matrix g_tbls
      let out ←
        if use_progressive ≠ 0 then
          forLoop (update_step len k nerrs g_tbls recover_srcs) k output_matrix
        else ec_encode_data len k nerrs g_tbls recover_srcs output_matrix
      pure (out, d.statics)

/-! ## Specification-level descriptions of what the builder computes -/

/-- The entry `a[i]` of a byte array, and `0` outside the array. -/
def byteAt (a : List u8) (i : Nat) : u8 := a.getD i 0

/-- The entry `a[i]` of an array of fragments, and the empty fragment outside. -/
def fragAt (a : List (List u8)) (i : Nat) : List u8 := a.getD i []

/-- The entry `L[i]` of a list of indices, and `0` outside the list. -/
def idxAt (L : List Nat) (i : Nat) : Nat := L.getD i 0

/-- The erased fragment indices: the first `nerrs` entries of `frag_err_list`. -/
def erased (frag_err_list : List u8) (nerrs : Nat) : List Nat :=
  (frag_err_list.take nerrs).map Fin.val

/-- The indices below `bound` that are not erased, in ascending order. -/
def survivors (frag_err_list : List u8) (nerrs bound : Nat) : List Nat :=
  (List.range bound).filter (fun r => r ∉ erased frag_err_list nerrs)

/-- The XOR of `f 0, ..., f (n-1)`: a sum in GF(2^8). -/
def xor_sum (f : Nat → u8) : Nat → u8
  | 0 => 0
  | n + 1 => xor_sum f n ^^^ f n

/-- The array `decode_index` with its first `k` entries replaced by the first `k`
entries of `L` (stored as bytes). -/
def decode_index_spec (L : List Nat) (k : Nat) (decode_index : List u8) : List u8 :=
  (List.range decode_index.length).map
    (fun j => if j < k then (Fin.ofNat (idxAt L j) : u8) else byteAt decode_index j)

/-- The array `temp_matrix` with its first `k * k` entries replaced by the rows
`L[0], ..., L[k-1]` of the encode matrix: the survivor matrix. -/
def survivor_matrix (encode_matrix : List u8) (L : List Nat) (k : Nat) (temp_matrix : List u8) :
    List u8 :=
  (List.range temp_matrix.length).map
    (fun x => if x < k * k then byteAt encode_matrix (k * idxAt L (x / k) + x % k)
      else byteAt temp_matrix x)

/-- The entry `decode_matrix[k*i+j]` that the builder computes for the erased
index `e = frag_err_list[i]`: row `e` of the inverse for a data index, the
product of encode-matrix row `e` with the inverse for a parity index. -/
def decode_entry (encode_matrix invert_matrix : List u8) (k e j : Nat) : u8 :=
  if e < k then byteAt invert_matrix (k * e + j)
  else xor_sum (fun c => gf_mul (byteAt invert_matrix (c * k + j))
    (byteAt encode_matrix (k * e + c))) k

/-- The array `decode_matrix` with its first `nerrs` rows replaced by the rows
that the builder computes. -/
def decode_matrix_spec (encode_matrix invert_matrix frag_err_list : List u8) (nerrs k : Nat)
    (decode_matrix : List u8) : List u8 :=
  (List.range decode_matrix.length).map
    (fun x => if x < k * nerrs then
        decode_entry encode_matrix invert_matrix k (byteAt frag_err_list (x / k)).val (x % k)
      else byteAt decode_matrix x)

/-- Where the scan stands before it looks for survivor number `i`. -/
def scan_start (L : List Nat) : Nat → Nat
  | 0 => 0
  | i + 1 => idxAt L i + 1

/-! ## Valid calls -/

/-- A call within the sizes of its arrays: `nerrs` erased indices below `m`, at
most `m - k` of them, fragment indices that fit a byte and the marker array, and
arrays of the sizes that the builder accesses. -/
structure SizedCall (E : Env) (encode_matrix frag_err_list decode_matrix decode_index : List u8)
    (nerrs k m : Nat) : Prop where
  nerrs_le : nerrs ≤ frag_err_list.length
  budget : nerrs + k ≤ m
  in_range : ∀ e, e ∈ erased frag_err_list nerrs → e < m
  m_le_MMAX : m ≤ E.MMAX
  m_le_256 : m ≤ 256
  enc_size : k * m ≤ encode_matrix.length
  dm_size : k * nerrs ≤ decode_matrix.length
  di_size : k ≤ decode_index.length

/-- A call that the builder is meant for: a call within the sizes of its arrays
whose erased indices are pairwise distinct. -/
structure ValidCall (E : Env) (encode_matrix frag_err_list decode_matrix decode_index : List u8)
    (nerrs k m : Nat) extends
    SizedCall E encode_matrix frag_err_list decode_matrix decode_index nerrs k m : Prop where
  distinct : (erased frag_err_list nerrs).Nodup

/-! ## Matrices over GF(2^8) -/

/-- The `k` by `k` matrices in the first `k * k` entries of `inv` and `T`
(row-major) satisfy `inv * T = 1` over GF(2^8). For square matrices over a
field this says that `inv` is the inverse of `T`. -/
def IsLeftInverse (inv T : List u8) (k : Nat) : Prop :=
  ∀ j, j < k → ∀ c, c < k →
    xor_sum (fun i => gf_mul (byteAt inv (k * j + i)) (byteAt T (k * i + c))) k
      = if j = c then 1 else 0

instance (inv T : List u8) (k : Nat) : Decidable (IsLeftInverse inv T k) := by
  unfold IsLeftInverse
  infer_instance

/-! ## Specification-level descriptions for `recover_data` -/

/-- Entry `t` of the 32-byte table of the coefficient `c`. -/
def tbl_entry (c : u8) (t : Nat) : u8 :=
  gf_mul c (Fin.ofNat (if t < 16 then t else 16 * (t - 16)))

/-- Entry-wise update of the first `len` bytes of the first `rows` rows of
`dest`: byte `b` of row `l` becomes `upd l b old`. -/
def map2d (upd : Nat → Nat → u8 → u8) (rows len : Nat) (dest : List (List u8)) :
    List (List u8) :=
  (List.range dest.length).map (fun l =>
    if l < rows then
      (List.range (fragAt dest l).length).map (fun b =>
        if b < len then upd l b (byteAt (fragAt dest l) b) else byteAt (fragAt dest l) b)
    else fragAt dest l)

/-- Byte `b` of fragment `i`: row `i` of the encode matrix applied to the `k` data
blocks over GF(2^8). -/
def fragment_byte (encode_matrix : List u8) (data : List (List u8)) (k i b : Nat) : u8 :=
  xor_sum (fun c => gf_mul (byteAt encode_matrix (k * i + c)) (byteAt (fragAt data c) b)) k

/-- Byte `b` of output `l` of the encode kernels: the GF(2^8) product of the
coefficients `v[j*32 + l*k*32 + 1]`, `j < k`, with byte `b` of the `k` sources. -/
def encoded_byte (k : Nat) (v : List u8) (src : List (List u8)) (l b : Nat) : u8 :=
  xor_sum (fun j => gf_mul (byteAt (fragAt src j) b) (byteAt v (j * 32 + l * k * 32 + 1))) k

/-- A call of `recover_data` that it is meant for: a valid erasure list, arrays
and fragments of the sizes that the call accesses, and allocations that succeed. -/
structure ValidRecovery (E : Env) (k m p nerrs len : Nat) (encode_matrix : List u8)
    (frag_ptrs : List (List u8)) (frag_err_list : List u8) (output_matrix : List (List u8)) :
    Prop where
  nerrs_le : nerrs ≤ frag_err_list.length
  budget : nerrs + k ≤ m
  in_range : ∀ e, e ∈ erased frag_err_list nerrs → e < m
  distinct : (erased frag_err_list nerrs).Nodup
  m_le_MMAX : m ≤ E.MMAX
  m_le_256 : m ≤ 256
  enc_size : k * m ≤ encode_matrix.length
  k_le_KMAX : k ≤ E.KMAX
  nerrs_le_p : nerrs ≤ p
  calloc_matrix : E.calloc_ok (m * k) = true
  calloc_tables : E.calloc_ok (k * p * 32) = true
  frags_len : m ≤ frag_ptrs.length
  frag_size : ∀ i, i < m → len ≤ (fragAt frag_ptrs i).length
  out_rows : nerrs ≤ output_matrix.length
  out_size : ∀ l, l < nerrs → len ≤ (fragAt output_matrix l).length

/-! ## Concrete data used to instantiate the statements -/

deriving instance DecidableEq for Except

/-- An environment with `MMAX = KMAX = 8`, allocations that succeed and return
zeroed blocks, and the modelled library inversion. -/
def demo_env : Env :=
  { MMAX := 8
    KMAX := 8
    malloc_temp := fun _ => some (fun _ => 0)
    malloc_invert := fun _ => some (fun _ => 0)
    calloc_ok := fun _ => true
    gf_invert_matrix := isal_gf_invert_matrix }

/-- A systematic encode matrix for `k = 4`, `m = 6`: the identity and the two
parity rows `1 1 1 1` and `1 2 4 8`. -/
def demo_encode_matrix : List u8 :=
  [1, 0, 0, 0,
   0, 1, 0, 0,
   0, 0, 1, 0,
   0, 0, 0, 1,
   1, 1, 1, 1,
   1, 2, 4, 8]

/-- Four data blocks of two bytes each. -/
def demo_data : List (List u8) := [[1, 2], [3, 4], [5, 6], [7, 8]]

/-- The six fragments of `demo_data` under `demo_encode_matrix`. -/
def demo_frags : List (List u8) := [[1, 2], [3, 4], [5, 6], [7, 8], [0, 8], [43, 82]]

/-- Twenty-four zero bytes: a block that `demo_env` allocates for `k = 4`, `m = 6`,
and a zeroed decode matrix. -/
def demo_zero24 : List u8 := List.replicate 24 0

/-- Eight zero bytes: a zeroed decode index of `MMAX = 8` entries. -/
def demo_zero8 : List u8 := List.replicate 8 0

/-- The scratch matrix after a successful inversion for `k = 4`: the identity. -/
def demo_reduced : List u8 :=
  [1, 0, 0, 0, 0, 1, 0, 0, 0, 0, 1, 0, 0, 0, 0, 1, 0, 0, 0, 0, 0, 0, 0, 0]

/-- The inverse of rows 0, 2, 4, 5 of `demo_encode_matrix`. -/
def demo_inverse_0245 : List u8 :=
  [1, 0, 0, 0, 123, 245, 166, 221, 0, 1, 0, 0, 122, 244, 167, 221, 0, 0, 0, 0, 0, 0, 0, 0]

/-- The inverse of rows 0, 2, 3, 4 of `demo_encode_matrix`. -/
def demo_inverse_0234 : List u8 :=
  [1, 0, 0, 0, 1, 1, 1, 1, 0, 1, 0, 0, 0, 0, 1, 0, 0, 0, 0, 0, 0, 0, 0, 0]

/-- An encode matrix for `k = 2`, `m = 3` whose parity row repeats row 0, so
that rows 0 and 2 form a singular matrix. -/
def singular_encode_matrix : List u8 := [1, 0, 0, 1, 1, 0]

/-- The array `demo_encode_matrix` followed by four more bytes `0 1 0 0`. -/
def demo_encode_longer : List u8 := demo_encode_matrix ++ [0, 1, 0, 0]

/-- The inverse of rows 0, 4, 5 of `demo_encode_matrix` and the row `0 1 0 0`. -/
def demo_inverse_0456 : List u8 :=
  [1, 0, 0, 0, 0, 0, 0, 1, 200, 245, 61, 143, 201, 244, 61, 142, 0, 0, 0, 0, 0, 0, 0, 0]

/-- The decode matrix that the builder writes for the erasure list `1, 1`. -/
def demo_decode_11 : List u8 :=
  [1, 1, 1, 1, 1, 1, 1, 1, 0, 0, 0, 0, 0, 0, 0, 0, 0, 0, 0, 0, 0, 0, 0, 0]

/-- The decode matrix that the builder writes for the erasure list `1, 2, 3` when
the encode matrix is followed by the row `0 1 0 0`. -/
def demo_decode_123 : List u8 :=
  [0, 0, 0, 1, 200, 245, 61, 143, 201, 244, 61, 142, 0, 0, 0, 0, 0, 0, 0, 0, 0, 0, 0, 0]

/-- The inverse of rows 1, 2, 3, 4 of `demo_encode_matrix`. -/
def demo_inverse_1234 : List u8 :=
  [1, 1, 1, 1, 1, 0, 0, 0, 0, 1, 0, 0, 0, 0, 1, 0, 0, 0, 0, 0, 0, 0, 0, 0]

/-- Two zeroed output buffers of two bytes each. -/
def demo_output : List (List u8) := [[0, 0], [0, 0]]

/-! ## The random sampler (`generate_byte`, `choose_without_replacement`) -/

/-- The outcomes of the successive calls `getrandom(array, 1, 0)`: the returned `int` and the
byte left in `array[0]`. -/
abbrev Entropy := List (Int × u8)

/-- A stream of random bytes: every call of `getrandom` delivers its one byte. -/
def random_bytes (bs : List u8) : Entropy := bs.map (fun b => ((1 : Int), b))

/-- The C `assert`. -/
def c_assert (c : Bool) : Run Unit := if c then pure () else throw Stop.aborted

/-- Conversion of an `int` to `unsigned char`. -/
def byte_of_int (z : Int) : u8 := Fin.ofNat (z % 256).toNat

/-- The constant `nearest_multiple` of `generate_byte`: `n - (n % range)` with `n = 256`. -/
def nearest_multiple (upper_bound : u8) : Nat := 256 - 256 % (upper_bound.val + 1)

/-- The loop `while (1)` of `generate_byte`: one random byte per round, returned modulo
`range` as soon as it is below `nearest_multiple`. -/
def generate_loop (range nearest_multiple : Nat) : Entropy → Run (u8 × Entropy)
  | [] => throw Stop.pending
  | (r, x) :: rest => do
    c_assert (decide (r = 1))
    if x.val < nearest_multiple then
      pure (byte_of_int ((x.val % range : Nat) : Int), rest)
    else
      generate_loop range nearest_multiple rest

/-- The function `generate_byte`: a number in `[0, upper_bound]`, by rejection sampling.
Returns the number and the unused rest of the random stream. -/
def generate_byte (upper_bound : u8) (stream : Entropy) : Run (u8 × Entropy) := do
  let n : Nat := 256
  c_assert (decide (upper_bound.val < n))
  let range : Nat := upper_bound.val + 1
  let nearest_multiple : Nat := n - n % range
  c_assert (decide (nearest_multiple ≥ n / 2))
  generate_loop range nearest_multiple stream

/-- The call `memcpy(dst, src, n)` on byte arrays: out of bounds when either holds fewer than
`n` bytes. -/
def memcpy (dst src : List u8) (n : Nat) : Run (List u8) :=
  if n ≤ src.length ∧ n ≤ dst.length then pure (src.take n ++ dst.drop n) else throw Stop.fault

/-- Body of the loop of `choose_without_replacement`: draw `rand_num` in `[0, m - 1 - i]` and
swap `output_array[i]` with `output_array[i + rand_num]`. -/
def choose_body (m : Nat) (i : Nat) (s : List u8 × Entropy) : Run (List u8 × Entropy) := do
  let (rand_num, stream) ← generate_byte (byte_of_int ((m : Int) - 1 - (i : Int))) s.2
  let random_index := i + rand_num.val
  let ith_element ← rd s.1 i
  let picked ← rd s.1 random_index
  let out ← wr s.1 i picked
  let out ← wr out random_index ith_element
  pure (out, stream)

/-- The function `choose_without_replacement`. Returns the output array and the unused rest of
the random stream. -/
def choose_without_replacement (input_array output_array : List u8)
    (input_array_length output_array_length m elements_to_pick : Nat) (stream : Entropy) :
    Run (List u8 × Entropy) := do
  c_assert (decide (input_array_length = output_array_length))
  c_assert (decide (elements_to_pick ≤ input_array_length))
  c_assert (decide (elements_to_pick < 256))
  let out ← memcpy output_array input_array input_array_length
  forLoop (choose_body m) elements_to_pick (out, stream)

/-! ### The shuffle computed by `choose_without_replacement`, as a function of the draws -/

/-- The array `arr` with the entries at positions `i` and `j` exchanged. -/
def swap_at (arr : List u8) (i j : Nat) : List u8 :=
  (arr.set i (byteAt arr j)).set j (byteAt arr i)

/-- The array after the swaps `i <-> i + r`, `i + 1 <-> i + 1 + r'`, ... for the draws
`r, r', ...`, starting at position `i`. -/
def shuffle : Nat → List u8 → List Nat → List u8
  | _, arr, [] => arr
  | i, arr, r :: rs => shuffle (i + 1) (swap_at arr i (i + r)) rs

/-- The draws `r_0, r_1, ...` within their ranges: `r_j` is at most `m - 1 - (i + j)`. -/
def InRange (m i : Nat) (draws : List Nat) : Prop :=
  ∀ j, j < draws.length → i + j + idxAt draws j < m

instance (m i : Nat) (draws : List Nat) : Decidable (InRange m i draws) :=
  inferInstanceAs (Decidable (∀ j, j < draws.length → i + j + idxAt draws j < m))

/-- The random stream that makes `generate_byte` return the draws one after the other: each
draw is delivered as a byte, which is accepted and returned unchanged. -/
def draw_stream (draws : List Nat) : Entropy := random_bytes (draws.map Fin.ofNat)

/-- The offset from position `i` at which `x` stands among the positions `i, ..., m - 1` of
`arr`. -/
def draw_offset (m i : Nat) (arr : List u8) (x : u8) : Nat := ((arr.take m).drop i).indexOf x

/-- The draws that make the shuffle, started at position `i` of `arr`, produce the selection
`l` at the positions `i, i + 1, ...`. -/
def draws_for (m : Nat) : Nat → List u8 → List u8 → List Nat
  | _, _, [] => []
  | i, arr, x :: l =>
    draw_offset m i arr x :: draws_for m (i + 1) (swap_at arr i (i + draw_offset m i arr x)) l

/-- The array `shard_numbers` of `test_random` after its initialisation loop:
`shard_numbers[i] = i` for `i < MMAX`. -/
def shard_numbers (MMAX : Nat) : List u8 :=
  (List.range MMAX).map (fun (i : Nat) => byte_of_int (i : Int))

/-! ## The progressive entry point and the dependence of the builder on its scratch -/

/-- Two runs stop in the same way, or both return, with results related by `R`. -/
def SameOutcome {α β : Type} (R : α → β → Prop) : Run α → Run β → Prop
  | .ok a, .ok b => R a b
  | .error e1, .error e2 => e1 = e2
  | _, _ => False

/-- The result of the inversion routine depends only on the `n` by `n` matrix it is given
(the first `n * n` bytes of `in_mat`) and on `n`: on two pairs of buffers that hold the same
input matrix, the two calls stop in the same way or return the same `int` and the same
`n * n` bytes of `out_mat`. -/
def InputDetermined (inv : List u8 → List u8 → Nat → Run (Int × List u8 × List u8)) (n : Nat) :
    Prop :=
  ∀ a1 b1 a2 b2 : List u8, n * n ≤ a1.length → n * n ≤ a2.length → n * n ≤ b1.length →
    n * n ≤ b2.length → a1.take (n * n) = a2.take (n * n) →
    SameOutcome (fun r1 r2 => r1.1 = r2.1 ∧ r1.2.2.take (n * n) = r2.2.2.take (n * n))
      (inv a1 b1 n) (inv a2 b2 n)

/-- The modelled library inversion, run on the `n * n` bytes of the input matrix only: the
bytes behind them in the two buffers are kept, and the former contents of `out_mat` are not
looked at. -/
def window_invert (in_mat out_mat : List u8) (n : Nat) : Run (Int × List u8 × List u8) :=
  match isal_gf_invert_matrix (in_mat.take (n * n)) (List.replicate (n * n) 0) n with
  | .ok (rc, a, b) =>
    if a.length = n * n ∧ b.length = n * n then
      .ok (rc, a ++ in_mat.drop (n * n), b ++ out_mat.drop (n * n))
    else .error Stop.fault
  | .error e => .error e

/-- The environment `demo_env` with the inversion run on the matrix window only. -/
def window_env : Env := { demo_env with gf_invert_matrix := window_invert }

/-- The function `recover_fragments_progressive` (lines 250-304); the result is the returned
`int`, the output buffers and the statics after the call. The local arrays `decode_index`
and `recover_srcs` are not initialised: `junk_index` and `junk_srcs` are the values that they
happen to hold at each position when the function is entered. -/
def recover_fragments_progressive (E : Env) (st : Statics) (k m p nerrs len : Nat)
    (encode_matrix : List u8) (frag_err_list : List u8) (output_buffer : List (List u8))
    (frag_ptrs : List (List u8)) (junk_index : Nat → u8) (junk_srcs : Nat → List u8) :
    Run (Int × List (List u8) × Statics) :=
  if E.calloc_ok (m * k) = false ∨ E.calloc_ok (k * p * 32) = false then
    throw (Stop.exited (-1))
  else do
    let decode_matrix : List u8 := List.replicate (m * k) 0
    let g_tbls : List u8 := List.replicate (k * p * 32) 0
    let decode_index : List u8 := block E.MMAX junk_index
    let recover_srcs : List (List u8) := (List.range E.KMAX).map junk_srcs
    let ret ← gf_gen_decode_matrix_simple E st encode_matrix frag_err_list
      decode_matrix decode_index nerrs k m
    if ret.ret ≠ 0 then throw (Stop.exited (-1))
    else do
      let recover_srcs ← forLoop (pack_src frag_ptrs ret.decode_index) k recover_srcs
      let g_tbls ← ec_init_tables k nerrs ret.decode_matrix g_tbls
      let out ← forLoop (update_step len k nerrs g_tbls recover_srcs) k output_buffer
      pure (0, out, ret.statics)

/-! ## The test drivers (`test_helper`, `test_exhaustive`, `test_random`) -/

/-- The size of a pointer (`sizeof(*matrix)` in `calloc_matrix`) on the 64-bit targets of the
library. -/
def sizeof_ptr : Nat := 8

/-- The function `calloc_matrix`: `num_rows` zeroed rows of `row_length` bytes, or `exit(-1)`
when an allocation fails. -/
def calloc_matrix (E : Env) (num_rows row_length : Nat) : Run (List (List u8)) :=
  if E.calloc_ok (num_rows * sizeof_ptr) = false then throw (Stop.exited (-1))
  else
    forLoop (fun i matrix =>
      if E.calloc_ok row_length = false then throw (Stop.exited (-1))
      else wr matrix i (List.replicate row_length 0)) num_rows (List.replicate num_rows [])

/-- The call `memcmp(a, b, n)`: whether the result is nonzero, that is whether the first `n`
bytes differ. -/
def memcmp (a b : List u8) (n : Nat) : Run Bool :=
  if n ≤ a.length ∧ n ≤ b.length then pure (decide (a.take n ≠ b.take n))
  else throw Stop.fault

/-- The reads of `print_array(name, array, num_elements)`; the printed text is not
modelled. -/
def print_array (array : List u8) (num_elements : Nat) : Run Unit :=
  forLoop (fun i _ => do
    let _ ← rd array i
    pure ()) num_elements ()

/-- The reads of `print_matrix(name, matrix, rows, cols)`. -/
def print_matrix (matrix : List (List u8)) (rows cols : Nat) : Run Unit :=
  forLoop (fun i _ => do
    let row ← rd matrix i
    print_array row cols) rows ()

/-- Body of the two checking loops of `test_helper`: `exit(-1)` when the recovered row `i`
differs from the original fragment `frag_err_list[i]`. -/
def check_row (recovered frag_ptrs : List (List u8)) (frag_err_list : List u8) (len : Nat)
    (i : Nat) (_ : Unit) : Run Unit := do
  let e ← rd frag_err_list i
  let row ← rd recovered i
  let frag ← rd frag_ptrs e.val
  let differ ← memcmp row frag len
  if differ then throw (Stop.exited (-1)) else pure ()

/-- The function `test_helper` (lines 353-412): both recoveries, the two comparisons with the
original fragments and the printing of the recovered rows. The result is the returned `int`
and the statics of the builder after the call; freeing the buffers is not modelled. -/
def test_helper (E : Env) (st : Statics) (k m p nerrs len : Nat) (encode_matrix : List u8)
    (frag_err_list : List u8) (frag_ptrs : List (List u8)) : Run (Int × Statics) := do
  let recover_outp_encode ← calloc_matrix E p len
  let recover_outp_encode_update ← calloc_matrix E p len
  let r1 ← recover_data E st k m p nerrs len encode_matrix frag_ptrs frag_err_list
    recover_outp_encode 0
  let r2 ← recover_data E r1.2 k m p nerrs len encode_matrix frag_ptrs frag_err_list
    recover_outp_encode_update 1
  forLoop (check_row r1.1 frag_ptrs frag_err_list len) nerrs ()
  forLoop (check_row r2.1 frag_ptrs frag_err_list len) nerrs ()
  print_matrix r1.1 nerrs len
  print_matrix r2.1 nerrs len
  pure (0, r2.2)

/-- The loop of `test_exhaustive` from round `i` on, with `n` rounds to go. Besides the
outcome it returns the invocations of `test_helper` it has made, in order: for each the
erasure list and the `nerrs` that were passed. -/
def exhaustive_rounds (E : Env) (k m p len : Nat) (encode_matrix : List u8)
    (frag_ptrs : List (List u8)) :
    Nat → Nat → Statics → List u8 → List (List u8 × Nat) × Run Statics
  | 0, _, st, _ => ([], .ok st)
  | n + 1, i, st, frag_err_list =>
    match wr frag_err_list 0 (byte_of_int (i : Int)) with
    | .error e => ([], .error e)
    | .ok frag_err_list =>
      match test_helper E st k m p 1 len encode_matrix frag_err_list frag_ptrs with
      | .error e => ([(frag_err_list, 1)], .error e)
      | .ok r =>
        let rest := exhaustive_rounds E k m p len encode_matrix frag_ptrs n (i + 1) r.2
          frag_err_list
        ((frag_err_list, 1) :: rest.1, rest.2)

/-- The function `test_exhaustive` (lines 210-225), with the invocations of `test_helper` it
makes. -/
def test_exhaustive (E : Env) (st : Statics) (k m p len : Nat) (encode_matrix : List u8)
    (frag_ptrs : List (List u8)) : List (List u8 × Nat) × Run Statics :=
  exhaustive_rounds E k m p len encode_matrix frag_ptrs m 0 st (List.replicate E.MMAX 0)

/-- The function `test_random` (lines 228-248); the result is the statics after the call and
the unused rest of the random stream. -/
def test_random (E : Env) (st : Statics) (k m p nerrs len : Nat) (encode_matrix : List u8)
    (frag_ptrs : List (List u8)) (stream : Entropy) : Run (Statics × Entropy) := do
  let frag_err_list : List u8 := List.replicate E.MMAX 0
  let chosen ← choose_without_replacement (shard_numbers E.MMAX) frag_err_list E.MMAX E.MMAX
    m nerrs stream
  print_array chosen.1 nerrs
  let r ← test_helper E st k m p nerrs len encode_matrix chosen.1 frag_ptrs
  pure (r.2, chosen.2)

/-- The three fragments of the data blocks `1 2` and `3 4` under `singular_encode_matrix`. -/
def singular_frags : List (List u8) := [[1, 2], [3, 4], [1, 2]]

/-- A systematic encode matrix for `k = 2`, `m = 3`: the identity and the parity row `1 1`. -/
def small_encode_matrix : List u8 := [1, 0, 0, 1, 1, 1]

/-- The three fragments of the data blocks `1 2` and `3 4` under `small_encode_matrix`. -/
def small_frags : List (List u8) := [[1, 2], [3, 4], [2, 6]]

/-! # Theorems -/

/-! ## Field laws of `gf_mul` -/

set_option maxRecDepth 100000 in
theorem gff_facts : ∀ i < 255, gff_base.getD i 0 < 256 ∧ gff_base.getD i 0 ≠ 0 ∧
    gflog_base.getD (gff_base.getD i 0) 0 = i := by decide!

set_option maxRecDepth 100000 in
theorem gflog_facts : ∀ a < 256, a ≠ 0 → gflog_base.getD a 0 < 255 ∧
    gff_base.getD (gflog_base.getD a 0) 0 = a := by decide!

set_option maxRecDepth 100000 in
theorem gf_mulN_two : ∀ b < 256, gf_mulN 2 b = xtimeN b := by decide!

set_option maxRecDepth 100000 in
theorem xtimeN_alt : ∀ a < 256, xtimeN a = (a <<< 1 ^^^ (if a.testBit 7 then 285 else 0)) := by
  decide!

theorem shl1_xor (a b : Nat) : (a ^^^ b) <<< 1 = a <<< 1 ^^^ b <<< 1 := by
  apply Nat.eq_of_testBit_eq
  intro i
  simp only [Nat.testBit_shiftLeft, Nat.testBit_xor]
  cases decide (i ≥ 1) <;> simp

theorem xtimeN_xor (a b : Nat) (ha : a < 256) (hb : b < 256) :
    xtimeN (a ^^^ b) = xtimeN a ^^^ xtimeN b := by
  have hab : a ^^^ b < 256 := Nat.xor_lt_two_pow (n := 8) ha hb
  rw [xtimeN_alt _ hab, xtimeN_alt _ ha, xtimeN_alt _ hb, Nat.testBit_xor, shl1_xor]
  generalize a <<< 1 = x
  generalize b <<< 1 = y
  cases a.testBit 7 <;> cases b.testBit 7 <;> simp
  · ac_rfl
  · ac_rfl
  · rw [Nat.xor_comm y 285, Nat.xor_assoc x, ← Nat.xor_assoc 285 285, Nat.xor_self, Nat.zero_xor]

theorem gf_mulN_lt (a b : Nat) (ha : a < 256) (hb : b < 256) : gf_mulN a b < 256 := by
  unfold gf_mulN
  split_ifs with h
  · omega
  · push_neg at h
    have h1 := gflog_facts a ha h.1
    have h2 := gflog_facts b hb h.2
    simp only
    split_ifs <;> exact (gff_facts _ (by omega)).1

theorem gf_mulN_ne_zero (a b : Nat) (ha : a < 256) (hb : b < 256) (ha0 : a ≠ 0) (hb0 : b ≠ 0) :
    gf_mulN a b ≠ 0 := by
  unfold gf_mulN
  have h1 := gflog_facts a ha ha0
  have h2 := gflog_facts b hb hb0
  simp only [ha0, hb0, or_self, if_false]
  split_ifs <;> exact (gff_facts _ (by omega)).2.1

theorem gf_mulN_comm (a b : Nat) : gf_mulN a b = gf_mulN b a := by
  unfold gf_mulN
  simp only [or_comm, Nat.add_comm]

theorem gflog_gf_mulN (a b : Nat) (ha : a < 256) (hb : b < 256) (ha0 : a ≠ 0) (hb0 : b ≠ 0) :
    gflog_base.getD (gf_mulN a b) 0 = (gflog_base.getD a 0 + gflog_base.getD b 0) % 255 := by
  unfold gf_mulN
  have h1 := gflog_facts a ha ha0
  have h2 := gflog_facts b hb hb0
  simp only [ha0, hb0, or_self, if_false]
  split_ifs
  · rw [(gff_facts _ (by omega)).2.2]; omega
  · rw [(gff_facts _ (by omega)).2.2]; omega

theorem gf_mulN_eq (a b : Nat) (ha : a < 256) (hb : b < 256) (ha0 : a ≠ 0) (hb0 : b ≠ 0) :
    gf_mulN a b = gff_base.getD ((gflog_base.getD a 0 + gflog_base.getD b 0) % 255) 0 := by
  unfold gf_mulN
  have h1 := gflog_facts a ha ha0
  have h2 := gflog_facts b hb hb0
  simp only [ha0, hb0, or_self, if_false]
  congr 1
  split_ifs <;> omega

theorem gf_mulN_zero_left (b : Nat) : gf_mulN 0 b = 0 := by simp [gf_mulN]

theorem gf_mulN_zero_right (a : Nat) : gf_mulN a 0 = 0 := by simp [gf_mulN]

theorem gf_mulN_assoc (a b c : Nat) (ha : a < 256) (hb : b < 256) (hc : c < 256) :
    gf_mulN (gf_mulN a b) c = gf_mulN a (gf_mulN b c) := by
  by_cases ha0 : a = 0
  · subst ha0; simp [gf_mulN_zero_left]
  by_cases hb0 : b = 0
  · subst hb0; simp [gf_mulN_zero_left, gf_mulN_zero_right]
  by_cases hc0 : c = 0
  · subst hc0; simp [gf_mulN_zero_right]
  rw [gf_mulN_eq _ c (gf_mulN_lt a b ha hb) hc (gf_mulN_ne_zero a b ha hb ha0 hb0) hc0,
    gf_mulN_eq a _ ha (gf_mulN_lt b c hb hc) ha0 (gf_mulN_ne_zero b c hb hc hb0 hc0),
    gflog_gf_mulN a b ha hb ha0 hb0, gflog_gf_mulN b c hb hc hb0 hc0]
  congr 1
  omega

theorem gf_mulN_one_left (a : Nat) (ha : a < 256) : gf_mulN 1 a = a := by
  by_cases ha0 : a = 0
  · subst ha0; rfl
  rw [gf_mulN_eq 1 a (by omega) ha (by omega) ha0]
  have h := gflog_facts a ha ha0
  have h1 : gflog_base.getD 1 0 = 0 := rfl
  rw [h1, Nat.zero_add, Nat.mod_eq_of_lt h.1, h.2]

theorem gf_mulN_xor (a b c : Nat) (ha : a < 256) (hb : b < 256) (hc : c < 256) :
    gf_mulN a (b ^^^ c) = gf_mulN a b ^^^ gf_mulN a c := by
  by_cases ha0 : a = 0
  · subst ha0; simp [gf_mulN_zero_left]
  have key : ∀ i, i < 255 → ∀ b c, b < 256 → c < 256 →
      gf_mulN (gff_base.getD i 0) (b ^^^ c)
        = gf_mulN (gff_base.getD i 0) b ^^^ gf_mulN (gff_base.getD i 0) c := by
    intro i
    induction i with
    | zero =>
      intro _ b c hb hc
      have h0 : gff_base.getD 0 0 = 1 := rfl
      rw [h0, gf_mulN_one_left _ hb, gf_mulN_one_left _ hc,
        gf_mulN_one_left _ (Nat.xor_lt_two_pow (n := 8) hb hc)]
    | succ i ih =>
      intro hi b c hb hc
      have hi' : i < 255 := by omega
      have hE := gff_facts i hi'
      have hstep : gff_base.getD (i + 1) 0 = gf_mulN 2 (gff_base.getD i 0) := by
        rw [gf_mulN_eq 2 _ (by omega) hE.1 (by omega) hE.2.1, hE.2.2]
        have h2 : gflog_base.getD 2 0 = 1 := rfl
        rw [h2, Nat.add_comm 1 i, Nat.mod_eq_of_lt hi]
      have hx : ∀ x, x < 256 → gf_mulN (gff_base.getD (i + 1) 0) x
          = xtimeN (gf_mulN (gff_base.getD i 0) x) := by
        intro x hx
        rw [hstep, gf_mulN_assoc 2 _ x (by omega) hE.1 hx,
          gf_mulN_two _ (gf_mulN_lt _ _ hE.1 hx)]
      rw [hx _ hb, hx _ hc, hx _ (Nat.xor_lt_two_pow (n := 8) hb hc), ih hi' b c hb hc,
        xtimeN_xor _ _ (gf_mulN_lt _ _ hE.1 hb) (gf_mulN_lt _ _ hE.1 hc)]
  have h := gflog_facts a ha ha0
  have := key _ h.1 b c hb hc
  rwa [h.2] at this

theorem gf_mul_val (a b : u8) : (gf_mul a b).val = gf_mulN a.val b.val := by
  unfold gf_mul gf_mulN
  have e1 : (a = 0) ↔ (a.val = 0) := by
    constructor
    · intro h; rw [h]; rfl
    · intro h; exact Fin.ext h
  have e2 : (b = 0) ↔ (b.val = 0) := by
    constructor
    · intro h; rw [h]; rfl
    · intro h; exact Fin.ext h
  simp only [e1, e2]
  by_cases h : a.val = 0 ∨ b.val = 0
  · rw [if_pos h, if_pos h]; rfl
  · rw [if_neg h, if_neg h]
    have hlt := gf_mulN_lt a.val b.val a.isLt b.isLt
    unfold gf_mulN at hlt
    rw [if_neg h] at hlt
    exact Nat.mod_eq_of_lt hlt

theorem u8_xor_val (a b : u8) : (a ^^^ b).val = a.val ^^^ b.val := by
  have h : a.val ^^^ b.val < 256 := Nat.xor_lt_two_pow (n := 8) a.isLt b.isLt
  show (a.val ^^^ b.val) % 256 = _
  exact Nat.mod_eq_of_lt h

/-! ## Basic facts about reads, writes and loops -/

theorem rd_ok {α : Type} {a : List α} {i : Nat} (h : i < a.length) : rd a i = .ok a[i] := by
  simp [rd, List.getElem?_eq_getElem h, pure, Except.pure]

theorem rd_ok_byteAt {a : List u8} {i : Nat} (h : i < a.length) :
    rd a i = .ok (byteAt a i) := by
  rw [rd_ok h]; simp [byteAt, List.getD, List.getElem?_eq_getElem h]

theorem rd_ok_fragAt {a : List (List u8)} {i : Nat} (h : i < a.length) :
    rd a i = .ok (fragAt a i) := by
  rw [rd_ok h]; simp [fragAt, List.getD, List.getElem?_eq_getElem h]

theorem wr_ok {α : Type} {a : List α} {i : Nat} (h : i < a.length) (v : α) :
    wr a i v = .ok (a.set i v) := by
  simp [wr, h, pure, Except.pure]

theorem forLoop_succ {σ : Type} (body : Nat → σ → Run σ) (n : Nat) (s : σ) :
    forLoop body (n + 1) s = forLoop body n s >>= body n := rfl

/-- Loop invariant rule: an invariant that every iteration re-establishes while
returning holds after the loop, and the loop returns. -/
theorem forLoop_inv {σ : Type} (body : Nat → σ → Run σ) (P : Nat → σ → Prop) (n : Nat) (s0 : σ)
    (h0 : P 0 s0)
    (hstep : ∀ i s, i < n → P i s → ∃ s', body i s = .ok s' ∧ P (i + 1) s') :
    ∃ s', forLoop body n s0 = .ok s' ∧ P n s' := by
  induction n with
  | zero => exact ⟨s0, rfl, h0⟩
  | succ n ih =>
    obtain ⟨s1, h1, hP1⟩ := ih (fun i s hi hP => hstep i s (Nat.lt_succ_of_lt hi) hP)
    obtain ⟨s2, h2, hP2⟩ := hstep n s1 (Nat.lt_succ_self n) hP1
    exact ⟨s2, by rw [forLoop_succ, h1]; exact h2, hP2⟩

theorem ok_bind {α β : Type} (a : α) (f : α → Run β) : ((Except.ok a : Run α) >>= f) = f a := rfl

/-- Two byte arrays of the same length with the same entries are equal. -/
theorem list_ext_byteAt (a b : List u8) (hl : a.length = b.length)
    (h : ∀ i, i < a.length → byteAt a i = byteAt b i) : a = b := by
  apply List.ext_getElem hl
  intro i h1 h2
  have := h i h1
  simpa [byteAt, List.getD, List.getElem?_eq_getElem h1, List.getElem?_eq_getElem h2] using this

theorem byteAt_set (a : List u8) (i j : Nat) (v : u8) :
    byteAt (a.set i v) j = if i = j ∧ i < a.length then v else byteAt a j := by
  unfold byteAt
  rw [List.getD_eq_getElem?_getD, List.getD_eq_getElem?_getD, List.getElem?_set]
  by_cases hij : i = j
  · subst hij
    by_cases hi : i < a.length
    · simp [hi]
    · simp [hi, List.getElem?_eq_none (Nat.le_of_not_lt hi)]
  · simp [hij]

theorem byteAt_map_range (n : Nat) (f : Nat → u8) (i : Nat) (h : i < n) :
    byteAt ((List.range n).map f) i = f i := by
  simp [byteAt, List.getD, h]

theorem byteAt_replicate (n : Nat) (v : u8) (i : Nat) (h : i < n) :
    byteAt (List.replicate n v) i = v := by
  simp [byteAt, List.getD, h]

theorem row_idx_lt (k n i j : Nat) (hi : i < n) (hj : j < k) : k * i + j < k * n := by
  have h : k * (i + 1) ≤ k * n := Nat.mul_le_mul_left k hi
  rw [Nat.mul_succ] at h
  omega

theorem div_mod_row (k i c : Nat) (hc : c < k) : (k * i + c) / k = i ∧ (k * i + c) % k = c := by
  have hk : 0 < k := by omega
  constructor
  · rw [Nat.mul_add_div hk, Nat.div_eq_of_lt hc, Nat.add_zero]
  · rw [Nat.mul_add_mod, Nat.mod_eq_of_lt hc]

theorem row_of_lt (k n x : Nat) (hx : x < k * n) : x / k < n ∧ x % k < k ∧ k * (x / k) + x % k = x := by
  have hk : 0 < k := by
    rcases Nat.eq_zero_or_pos k with h | h
    · subst h; simp at hx
    · exact h
  refine ⟨?_, Nat.mod_lt _ hk, Nat.div_add_mod x k⟩
  exact Nat.div_lt_of_lt_mul hx


/-! ## The marking loop (lines 49-53) -/

theorem erased_succ (fel : List u8) (i : Nat) (h : i < fel.length) :
    erased fel (i + 1) = erased fel i ++ [(byteAt fel i).val] := by
  unfold erased
  rw [List.take_succ, List.map_append]
  simp [byteAt, List.getElem?_eq_getElem h]

theorem mem_erased_of_lt (fel : List u8) (i n : Nat) (hi : i < n) (h : i < fel.length) :
    (byteAt fel i).val ∈ erased fel n := by
  unfold erased
  apply List.mem_map_of_mem
  have hlen : i < (fel.take n).length := by simp [List.length_take]; omega
  have : (fel.take n)[i] = byteAt fel i := by
    simp [byteAt, List.getElem?_eq_getElem h]
  rw [← this]
  exact List.getElem_mem hlen

theorem mem_erased_iff (fel : List u8) (n x : Nat) (hn : n ≤ fel.length) :
    x ∈ erased fel n ↔ ∃ i, i < n ∧ (byteAt fel i).val = x := by
  induction n with
  | zero => simp [erased]
  | succ n ih =>
    rw [erased_succ fel n (by omega), List.mem_append, ih (by omega)]
    constructor
    · rintro (⟨i, hi, he⟩ | h)
      · exact ⟨i, by omega, he⟩
      · simp at h; exact ⟨n, by omega, h.symm⟩
    · rintro ⟨i, hi, he⟩
      by_cases hin : i = n
      · subst hin; right; simp [he]
      · left; exact ⟨i, by omega, he⟩

theorem mark_loop (fel : List u8) (k nerrs N : Nat) (hn : nerrs ≤ fel.length)
    (hr : ∀ e ∈ erased fel nerrs, e < N) :
    ∃ s, forLoop (mark_body fel k) nerrs (0, List.replicate N 0) = .ok s ∧ s.2.length = N ∧
      ∀ x, x < N → byteAt s.2 x = if x ∈ erased fel nerrs then 1 else 0 := by
  have h := forLoop_inv (mark_body fel k)
    (fun i s => s.2.length = N ∧ ∀ x, x < N → byteAt s.2 x = if x ∈ erased fel i then 1 else 0)
    nerrs (0, List.replicate N 0) ?_ ?_
  · exact h
  · refine ⟨by simp, ?_⟩
    intro x hx
    simp [erased, byteAt_replicate N 0 x hx]
  · rintro i ⟨c, fie⟩ hi ⟨hlen, hP⟩
    have hil : i < fel.length := by omega
    have he : (byteAt fel i).val < N := hr _ (mem_erased_of_lt fel i nerrs hi hil)
    simp only at hlen hP
    refine ⟨(if (byteAt fel i).val < k then c + 1 else c, fie.set (byteAt fel i).val 1), ?_, ?_, ?_⟩
    · simp only [mark_body, rd_ok_byteAt hil, ok_bind, wr_ok (hlen ▸ he)]
      rfl
    · simp [hlen]
    · intro x hx
      simp only [byteAt_set, hP x hx, erased_succ fel i hil, List.mem_append, List.mem_singleton]
      by_cases hxe : (byteAt fel i).val = x
      · simp [hxe, hlen, hx]
      · have : ¬ x = (byteAt fel i).val := fun h => hxe h.symm
        simp [hxe, this]

/-! ## Loops that fill rows of a matrix -/

/-- A loop whose iteration `j` stores `val j` at `k * i + j` fills row `i`. -/
theorem row_write_loop (body : Nat → List u8 → Run (List u8)) (val : Nat → u8) (k i : Nat)
    (dm : List u8) (hw : k * i + k ≤ dm.length)
    (hbody : ∀ j d, j < k → d.length = dm.length → body j d = .ok (d.set (k * i + j) (val j))) :
    ∃ dm', forLoop body k dm = .ok dm' ∧ dm'.length = dm.length ∧
      ∀ x, byteAt dm' x =
        if k * i ≤ x ∧ x < k * i + k then val (x - k * i) else byteAt dm x := by
  have h := forLoop_inv body
    (fun j d => d.length = dm.length ∧ ∀ x, byteAt d x =
        if k * i ≤ x ∧ x < k * i + j then val (x - k * i) else byteAt dm x)
    k dm ?_ ?_
  · exact h
  · refine ⟨rfl, ?_⟩
    intro x
    have : ¬ (k * i ≤ x ∧ x < k * i + 0) := by omega
    rw [if_neg this]
  · rintro j d hj ⟨hlen, hP⟩
    have h2 : k * i + j < d.length := by omega
    refine ⟨d.set (k * i + j) (val j), hbody j d hj hlen, by simp [hlen], ?_⟩
    intro x
    rw [byteAt_set, hP x]
    by_cases hx : k * i + j = x
    · subst hx
      have e : k * i + j - k * i = j := by omega
      simp [h2, e]
    · have hx' : ¬ (k * i + j = x ∧ k * i + j < d.length) := fun h => hx h.1
      rw [if_neg hx']
      by_cases hc : k * i ≤ x ∧ x < k * i + j
      · have hc' : k * i ≤ x ∧ x < k * i + (j + 1) := ⟨hc.1, by omega⟩
        rw [if_pos hc, if_pos hc']
      · have hc' : ¬ (k * i ≤ x ∧ x < k * i + (j + 1)) := by omega
        rw [if_neg hc, if_neg hc']

/-- A loop whose iteration `i` fills row `i` with `val i` when `sel i` holds, and
changes nothing otherwise, fills the selected ones among the first `n` rows. -/
theorem rows_loop (body : Nat → List u8 → Run (List u8)) (sel : Nat → Prop)
    [DecidablePred sel] (val : Nat → Nat → u8) (k n : Nat) (dm : List u8)
    (hbody : ∀ i d, i < n → d.length = dm.length →
      ∃ d', body i d = .ok d' ∧ d'.length = d.length ∧
        ∀ x, byteAt d' x =
          if sel i ∧ k * i ≤ x ∧ x < k * i + k then val i (x - k * i) else byteAt d x) :
    ∃ dm', forLoop body n dm = .ok dm' ∧ dm'.length = dm.length ∧
      ∀ x, byteAt dm' x =
        if x < k * n ∧ sel (x / k) then val (x / k) (x % k) else byteAt dm x := by
  have h := forLoop_inv body
    (fun i d => d.length = dm.length ∧ ∀ x, byteAt d x =
        if x < k * i ∧ sel (x / k) then val (x / k) (x % k) else byteAt dm x)
    n dm ?_ ?_
  · exact h
  · refine ⟨rfl, ?_⟩
    intro x
    have : ¬ (x < k * 0 ∧ sel (x / k)) := by simp
    rw [if_neg this]
  · rintro i d hi ⟨hlen, hP⟩
    obtain ⟨d', hd', hlen', hP'⟩ := hbody i d hi hlen
    refine ⟨d', hd', by rw [hlen', hlen], ?_⟩
    intro x
    rw [hP' x, hP x]
    by_cases hrow : k * i ≤ x ∧ x < k * i + k
    · have hdm := div_mod_row k i (x - k * i) (by omega)
      have e : k * i + (x - k * i) = x := by omega
      rw [e] at hdm
      have hlt : x < k * (i + 1) := by rw [Nat.mul_succ]; exact hrow.2
      have hnlt : ¬ x < k * i := by omega
      by_cases hs : sel i
      · have h1 : sel i ∧ k * i ≤ x ∧ x < k * i + k := ⟨hs, hrow⟩
        have h2 : x < k * (i + 1) ∧ sel (x / k) := ⟨hlt, by rw [hdm.1]; exact hs⟩
        rw [if_pos h1, if_pos h2, hdm.1, hdm.2]
      · have h1 : ¬ (sel i ∧ k * i ≤ x ∧ x < k * i + k) := fun h => hs h.1
        have h2 : ¬ (x < k * (i + 1) ∧ sel (x / k)) := fun h => hs (by rw [← hdm.1]; exact h.2)
        have h3 : ¬ (x < k * i ∧ sel (x / k)) := fun h => hnlt h.1
        rw [if_neg h1, if_neg h2, if_neg h3]
    · have h1 : ¬ (sel i ∧ k * i ≤ x ∧ x < k * i + k) := fun h => hrow h.2
      rw [if_neg h1]
      by_cases hlt : x < k * i
      · have hlt' : x < k * (i + 1) := by rw [Nat.mul_succ]; omega
        by_cases hs : sel (x / k)
        · rw [if_pos ⟨hlt, hs⟩, if_pos ⟨hlt', hs⟩]
        · rw [if_neg (fun h => hs h.2), if_neg (fun h => hs h.2)]
      · have hlt' : ¬ x < k * (i + 1) := by rw [Nat.mul_succ]; omega
        rw [if_neg (fun h => hlt h.1), if_neg (fun h => hlt' h.1)]

theorem src_rows_loop (fel inv : List u8) (k nerrs : Nat) (dm : List u8)
    (hn : nerrs ≤ fel.length) (hdm : k * nerrs ≤ dm.length) (hinv : k * k ≤ inv.length) :
    ∃ dm', forLoop (src_row_body fel inv k) nerrs dm = .ok dm' ∧ dm'.length = dm.length ∧
      ∀ x, byteAt dm' x =
        if x < k * nerrs ∧ (byteAt fel (x / k)).val < k then
          byteAt inv (k * (byteAt fel (x / k)).val + x % k)
        else byteAt dm x := by
  apply rows_loop (src_row_body fel inv k) (fun i => (byteAt fel i).val < k)
    (fun i j => byteAt inv (k * (byteAt fel i).val + j)) k nerrs dm
  intro i d hi hlen
  have hil : i < fel.length := by omega
  have hrow : k * i + k ≤ d.length := by
    have h := Nat.mul_le_mul_left k (show i + 1 ≤ nerrs from hi)
    rw [Nat.mul_succ] at h
    omega
  by_cases he : (byteAt fel i).val < k
  · obtain ⟨d', hd', hl', hP'⟩ := row_write_loop (copy_inv_row inv k (byteAt fel i).val i)
      (fun j => byteAt inv (k * (byteAt fel i).val + j)) k i d hrow (by
        intro j d2 hj hl2
        have h1 : k * (byteAt fel i).val + j < inv.length := by
          have := row_idx_lt k k _ j he hj
          omega
        have h2 : k * i + j < d2.length := by omega
        simp only [copy_inv_row, rd_ok_byteAt h1, ok_bind, wr_ok h2])
    refine ⟨d', ?_, hl', ?_⟩
    · simp only [src_row_body, rd_ok_byteAt hil, ok_bind, he, if_true]
      exact hd'
    · intro x
      rw [hP' x]
      simp only [he, true_and]
  · refine ⟨d, ?_, rfl, ?_⟩
    · simp only [src_row_body, rd_ok_byteAt hil, ok_bind, he, if_false]
      rfl
    · intro x
      simp only [he, false_and, if_false]

theorem parity_acc_loop (inv enc : List u8) (k e i : Nat) (hi : i < k)
    (hinv : k * k ≤ inv.length) (henc : k * e + k ≤ enc.length) :
    forLoop (parity_acc inv enc k e i) k 0 =
      .ok (xor_sum (fun c => gf_mul (byteAt inv (c * k + i)) (byteAt enc (k * e + c))) k) := by
  have h := forLoop_inv (parity_acc inv enc k e i)
    (fun j s => s = xor_sum (fun c => gf_mul (byteAt inv (c * k + i)) (byteAt enc (k * e + c))) j)
    k 0 rfl ?_
  · obtain ⟨s, hs, hP⟩ := h
    rw [hs, hP]
  · intro j s hj hP
    have h1 : j * k + i < inv.length := by
      have := row_idx_lt k k j i hj hi
      rw [Nat.mul_comm k j] at this
      omega
    have h2 : k * e + j < enc.length := by omega
    refine ⟨_, ?_, rfl⟩
    simp only [parity_acc, rd_ok_byteAt h1, rd_ok_byteAt h2, ok_bind, hP, xor_sum]
    rfl

theorem parity_rows_loop (fel inv enc : List u8) (k nerrs : Nat) (dm : List u8)
    (hn : nerrs ≤ fel.length) (hdm : k * nerrs ≤ dm.length) (hinv : k * k ≤ inv.length)
    (henc : ∀ i, i < nerrs → k ≤ (byteAt fel i).val →
      k * (byteAt fel i).val + k ≤ enc.length) :
    ∃ dm', forLoop (parity_row_body fel inv enc k) nerrs dm = .ok dm' ∧
      dm'.length = dm.length ∧
      ∀ x, byteAt dm' x =
        if x < k * nerrs ∧ k ≤ (byteAt fel (x / k)).val then
          xor_sum (fun c => gf_mul (byteAt inv (c * k + x % k))
            (byteAt enc (k * (byteAt fel (x / k)).val + c))) k
        else byteAt dm x := by
  apply rows_loop (parity_row_body fel inv enc k) (fun i => k ≤ (byteAt fel i).val)
    (fun i j => xor_sum (fun c => gf_mul (byteAt inv (c * k + j))
      (byteAt enc (k * (byteAt fel i).val + c))) k) k nerrs dm
  intro i d hi hlen
  have hil : i < fel.length := by omega
  have hrow : k * i + k ≤ d.length := by
    have h := Nat.mul_le_mul_left k (show i + 1 ≤ nerrs from hi)
    rw [Nat.mul_succ] at h
    omega
  by_cases he : k ≤ (byteAt fel i).val
  · obtain ⟨d', hd', hl', hP'⟩ := row_write_loop (parity_col inv enc k (byteAt fel i).val i)
      (fun j => xor_sum (fun c => gf_mul (byteAt inv (c * k + j))
        (byteAt enc (k * (byteAt fel i).val + c))) k) k i d hrow (by
        intro j d2 hj hl2
        have h2 : k * i + j < d2.length := by omega
        simp only [parity_col, parity_acc_loop inv enc k _ j hj hinv (henc i hi he), ok_bind,
          wr_ok h2])
    refine ⟨d', ?_, hl', ?_⟩
    · simp only [parity_row_body, rd_ok_byteAt hil, ok_bind, ge_iff_le, he, if_true]
      exact hd'
    · intro x
      rw [hP' x]
      simp only [he, true_and]
  · refine ⟨d, ?_, rfl, ?_⟩
    · simp only [parity_row_body, rd_ok_byteAt hil, ok_bind, ge_iff_le, he, if_false]
      rfl
    · intro x
      simp only [he, false_and, if_false]

/-! ## The survivor scan (lines 56-62) -/

theorem idxAt_eq {L : List Nat} {i : Nat} (h : i < L.length) : idxAt L i = L[i] := by
  simp [idxAt, List.getD, List.getElem?_eq_getElem h]

theorem idxAt_mem {L : List Nat} {i : Nat} (h : i < L.length) : idxAt L i ∈ L := by
  rw [idxAt_eq h]; exact List.getElem_mem h

theorem mem_survivors (fel : List u8) (nerrs N x : Nat) :
    x ∈ survivors fel nerrs N ↔ x < N ∧ x ∉ erased fel nerrs := by
  simp [survivors, List.mem_filter]

theorem survivors_pairwise (fel : List u8) (nerrs N : Nat) :
    (survivors fel nerrs N).Pairwise (· < ·) :=
  List.Pairwise.filter _ (List.pairwise_lt_range N)

theorem pairwise_idxAt_lt {L : List Nat} (hL : L.Pairwise (· < ·)) {i j : Nat} (hij : i < j)
    (hj : j < L.length) : idxAt L i < idxAt L j := by
  rw [idxAt_eq hj, idxAt_eq (Nat.lt_trans hij hj)]
  exact (List.pairwise_iff_getElem.mp hL) i j (Nat.lt_trans hij hj) hj hij

theorem scan_gap {L : List Nat} (hL : L.Pairwise (· < ·)) (i : Nat) (hi : i < L.length) :
    scan_start L i ≤ idxAt L i ∧ ∀ x, scan_start L i ≤ x → x < idxAt L i → x ∉ L := by
  constructor
  · cases i with
    | zero => simp [scan_start]
    | succ i =>
      have := pairwise_idxAt_lt hL (show i < i + 1 by omega) hi
      simp only [scan_start]; omega
  · intro x hx1 hx2 hmem
    obtain ⟨j, hj, hjx⟩ := List.getElem_of_mem hmem
    rw [← idxAt_eq hj] at hjx
    have hji : j < i := by
      by_contra hcon
      rcases Nat.lt_or_ge i j with h | h
      · have := pairwise_idxAt_lt hL h hj; omega
      · have : i = j := by omega
        subst this; omega
    cases i with
    | zero => omega
    | succ i =>
      simp only [scan_start] at hx1
      rcases Nat.lt_or_ge j i with h | h
      · have := pairwise_idxAt_lt hL h (by omega : i < L.length); omega
      · have : j = i := by omega
        subst this; omega

/-- The fuel of `skip_erased` is not a restriction: any two amounts of fuel that
exceed the distance to the end of `frag_in_err` give the same result, so with
`frag_in_err.length + 1` the recursion never stops for lack of fuel. -/
theorem skip_erased_fuel (fie : List u8) :
    ∀ fuel1 fuel2 r, fie.length < r + fuel1 → fie.length < r + fuel2 →
      skip_erased fie fuel1 r = skip_erased fie fuel2 r := by
  intro fuel1
  induction fuel1 with
  | zero =>
    intro fuel2 r h1 _
    cases fuel2 with
    | zero => rfl
    | succ f2 =>
      have hr : rd fie r = .error Stop.fault := by
        simp [rd, List.getElem?_eq_none (show fie.length ≤ r by omega), throw, throwThe,
          MonadExceptOf.throw]
      simp only [skip_erased, hr]
      rfl
  | succ f1 ih =>
    intro fuel2 r h1 h2
    cases fuel2 with
    | zero =>
      have hr : rd fie r = .error Stop.fault := by
        simp [rd, List.getElem?_eq_none (show fie.length ≤ r by omega), throw, throwThe,
          MonadExceptOf.throw]
      simp only [skip_erased, hr]
      rfl
    | succ f2 =>
      simp only [skip_erased]
      cases hrd : rd fie r with
      | error e => rfl
      | ok f =>
        simp only [ok_bind]
        by_cases hf : f ≠ 0
        · rw [if_pos hf, if_pos hf]
          exact ih f2 (r + 1) (by omega) (by omega)
        · rw [if_neg hf, if_neg hf]

theorem skip_erased_spec (fie : List u8) (r' : Nat) (hr' : r' < fie.length)
    (h0 : byteAt fie r' = 0) :
    ∀ fuel r, r ≤ r' → (∀ x, r ≤ x → x < r' → byteAt fie x ≠ 0) → r' - r < fuel →
      skip_erased fie fuel r = .ok r' := by
  intro fuel
  induction fuel with
  | zero => intro r _ _ h; omega
  | succ fuel ih =>
    intro r hr hgap hfuel
    have hrl : r < fie.length := by omega
    simp only [skip_erased, rd_ok_byteAt hrl, ok_bind]
    by_cases hrr : r = r'
    · subst hrr; simp [h0, pure, Except.pure]
    · have hne := hgap r (Nat.le_refl r) (by omega)
      simp only [hne, ne_eq, not_false_eq_true, if_true]
      exact ih (r + 1) (by omega) (fun x hx1 hx2 => hgap x (by omega) hx2) (by omega)

theorem copy_row_loop (enc : List u8) (k r i : Nat) (tm : List u8)
    (hr : k * r + k ≤ enc.length) (hw : k * i + k ≤ tm.length) :
    ∃ tm', forLoop (copy_row enc k r i) k tm = .ok tm' ∧ tm'.length = tm.length ∧
      ∀ x, byteAt tm' x =
        if k * i ≤ x ∧ x < k * i + k then byteAt enc (k * r + (x - k * i)) else byteAt tm x := by
  apply row_write_loop (copy_row enc k r i) (fun j => byteAt enc (k * r + j)) k i tm hw
  intro j d hj hl
  have h1 : k * r + j < enc.length := by omega
  have h2 : k * i + j < d.length := by omega
  simp only [copy_row, rd_ok_byteAt h1, ok_bind, wr_ok h2]

theorem gather_loop (enc fie : List u8) (k : Nat) (L : List Nat) (t di : List u8)
    (hL : L.Pairwise (· < ·))
    (hmem : ∀ x, x ∈ L ↔ x < fie.length ∧ byteAt fie x = 0)
    (hk : k ≤ L.length) (hdi : k ≤ di.length) (ht : k * k ≤ t.length)
    (henc : ∀ i, i < k → k * idxAt L i + k ≤ enc.length) :
    ∃ g, forLoop (gather_body enc fie k) k ⟨0, t, di⟩ = .ok g ∧
      g.temp_matrix = survivor_matrix enc L k t ∧
      g.decode_index = decode_index_spec L k di := by
  have h := forLoop_inv (gather_body enc fie k)
    (fun i g => g.r = scan_start L i ∧ g.temp_matrix.length = t.length ∧
      g.decode_index.length = di.length ∧
      (∀ x, byteAt g.temp_matrix x =
        if x < k * i then byteAt enc (k * idxAt L (x / k) + x % k) else byteAt t x) ∧
      (∀ j, byteAt g.decode_index j =
        if j < i then (Fin.ofNat (idxAt L j) : u8) else byteAt di j))
    k ⟨0, t, di⟩ ?_ ?_
  · obtain ⟨g, hg, _, hl1, hl2, hT, hD⟩ := h
    refine ⟨g, hg, ?_, ?_⟩
    · apply list_ext_byteAt
      · simp [survivor_matrix, hl1]
      · intro x hx
        rw [hT x, survivor_matrix, byteAt_map_range _ _ _ (hl1 ▸ hx)]
    · apply list_ext_byteAt
      · simp [decode_index_spec, hl2]
      · intro x hx
        rw [hD x, decode_index_spec, byteAt_map_range _ _ _ (hl2 ▸ hx)]
  · refine ⟨rfl, rfl, rfl, ?_, ?_⟩
    · intro x; simp
    · intro j; simp
  · rintro i ⟨r, tm, dx⟩ hi ⟨hr, hl1, hl2, hT, hD⟩
    simp only at hr hl1 hl2 hT hD
    have hiL : i < L.length := by omega
    have hin := (hmem _).mp (idxAt_mem hiL)
    have hgap := scan_gap hL i hiL
    have hskip : skip_erased fie (fie.length + 1) r = .ok (idxAt L i) := by
      apply skip_erased_spec fie _ hin.1 hin.2
      · rw [hr]; exact hgap.1
      · intro x hx1 hx2 hzero
        exact hgap.2 x (hr ▸ hx1) hx2 ((hmem x).mpr ⟨by omega, hzero⟩)
      · omega
    have hrow : k * i + k ≤ tm.length := by
      have := row_idx_lt k k i 0 hi (by omega)
      have h := Nat.mul_le_mul_left k (show i + 1 ≤ k from hi)
      rw [Nat.mul_succ] at h
      omega
    obtain ⟨tm', hcopy, hl1', hT'⟩ := copy_row_loop enc k (idxAt L i) i tm (henc i hi) hrow
    have hw : i < dx.length := by omega
    refine ⟨⟨idxAt L i + 1, tm', dx.set i (Fin.ofNat (idxAt L i))⟩, ?_, rfl, ?_, ?_, ?_, ?_⟩
    · simp only [gather_body, hskip, ok_bind, hcopy, wr_ok hw]
      rfl
    · simp only [hl1', hl1]
    · simp [hl2]
    · intro x
      simp only
      rw [hT' x, hT x]
      by_cases hc : k * i ≤ x ∧ x < k * i + k
      · rw [if_pos hc]
        have hlt : x < k * (i + 1) := by rw [Nat.mul_succ]; exact hc.2
        rw [if_pos hlt]
        have hdm := div_mod_row k i (x - k * i) (by omega)
        have e : k * i + (x - k * i) = x := by omega
        rw [e] at hdm
        rw [hdm.1, hdm.2]
      · rw [if_neg hc]
        by_cases hlt : x < k * i
        · have hlt' : x < k * (i + 1) := by rw [Nat.mul_succ]; omega
          rw [if_pos hlt, if_pos hlt']
        · have hlt' : ¬ x < k * (i + 1) := by rw [Nat.mul_succ]; omega
          rw [if_neg hlt, if_neg hlt']
    · intro j
      simp only
      rw [byteAt_set, hD j]
      by_cases hij : i = j
      · subst hij; simp [hw]
      · have h1 : ¬ (i = j ∧ i < dx.length) := fun h => hij h.1
        rw [if_neg h1]
        by_cases hji : j < i
        · rw [if_pos hji, if_pos (by omega : j < i + 1)]
        · rw [if_neg hji, if_neg (by omega : ¬ j < i + 1)]

/-! ## The whole builder -/

theorem decode_matrix_spec_of (enc inv fel : List u8) (nerrs k : Nat) (dm d1 d2 : List u8)
    (hl1 : d1.length = dm.length) (hl2 : d2.length = d1.length)
    (h1 : ∀ x, byteAt d1 x =
        if x < k * nerrs ∧ (byteAt fel (x / k)).val < k then
          byteAt inv (k * (byteAt fel (x / k)).val + x % k)
        else byteAt dm x)
    (h2 : ∀ x, byteAt d2 x =
        if x < k * nerrs ∧ k ≤ (byteAt fel (x / k)).val then
          xor_sum (fun c => gf_mul (byteAt inv (c * k + x % k))
            (byteAt enc (k * (byteAt fel (x / k)).val + c))) k
        else byteAt d1 x) :
    d2 = decode_matrix_spec enc inv fel nerrs k dm := by
  apply list_ext_byteAt
  · simp [decode_matrix_spec, hl1, hl2]
  · intro x hx
    have hx' : x < dm.length := by rw [← hl1, ← hl2]; exact hx
    rw [decode_matrix_spec, byteAt_map_range _ _ _ hx', h2 x, h1 x, decode_entry]
    by_cases hlt : x < k * nerrs
    · by_cases he : (byteAt fel (x / k)).val < k
      · have hne : ¬ k ≤ (byteAt fel (x / k)).val := by omega
        rw [if_neg (fun h => hne h.2), if_pos ⟨hlt, he⟩, if_pos hlt, if_pos he]
      · have hge : k ≤ (byteAt fel (x / k)).val := by omega
        rw [if_pos ⟨hlt, hge⟩, if_pos hlt, if_neg he]
    · rw [if_neg (fun h => hlt h.1), if_neg (fun h => hlt h.1), if_neg hlt]

/-- The state in which the inversion routine is called, in terms of the survivor
list `L`: the indices below `MMAX` that are not erased. -/
theorem gather_survivors_run (E : Env) (enc fel : List u8) (nerrs k : Nat) (t di : List u8)
    (hn : nerrs ≤ fel.length)
    (hrange : ∀ e, e ∈ erased fel nerrs → e < E.MMAX)
    (hk : k ≤ (survivors fel nerrs E.MMAX).length)
    (hdi : k ≤ di.length) (ht : k * k ≤ t.length)
    (henc : ∀ i, i < k → k * idxAt (survivors fel nerrs E.MMAX) i + k ≤ enc.length) :
    ∃ r, gather_survivors E enc fel nerrs k t di =
      .ok ⟨r, survivor_matrix enc (survivors fel nerrs E.MMAX) k t,
        decode_index_spec (survivors fel nerrs E.MMAX) k di⟩ := by
  obtain ⟨s, hs, hslen, hsP⟩ := mark_loop fel k nerrs E.MMAX hn hrange
  have hmem : ∀ x, x ∈ survivors fel nerrs E.MMAX ↔ x < s.2.length ∧ byteAt s.2 x = 0 := by
    intro x
    rw [mem_survivors, hslen]
    constructor
    · rintro ⟨h1, h2⟩
      exact ⟨h1, by rw [hsP x h1, if_neg h2]⟩
    · rintro ⟨h1, h2⟩
      refine ⟨h1, ?_⟩
      intro hx
      rw [hsP x h1, if_pos hx] at h2
      exact absurd h2 (by decide)
  obtain ⟨g, hg, hgT, hgD⟩ := gather_loop enc s.2 k (survivors fel nerrs E.MMAX) t di
    (survivors_pairwise fel nerrs E.MMAX) hmem hk hdi ht henc
  refine ⟨g.r, ?_⟩
  simp only [gather_survivors, hs, ok_bind, hg]
  rw [← hgT, ← hgD]

theorem fill_decode_matrix_run (enc fel inv : List u8) (nerrs k : Nat) (dm : List u8)
    (hn : nerrs ≤ fel.length) (hdm : k * nerrs ≤ dm.length) (hv : k * k ≤ inv.length)
    (henc : ∀ i, i < nerrs → k ≤ (byteAt fel i).val →
      k * (byteAt fel i).val + k ≤ enc.length) :
    fill_decode_matrix enc fel inv nerrs k dm =
      .ok (decode_matrix_spec enc inv fel nerrs k dm) := by
  obtain ⟨d1, hd1, hl1, hP1⟩ := src_rows_loop fel inv k nerrs dm hn hdm hv
  obtain ⟨d2, hd2, hl2, hP2⟩ := parity_rows_loop fel inv enc k nerrs d1 hn (hl1 ▸ hdm) hv henc
  simp only [fill_decode_matrix, hd1, ok_bind, hd2]
  rw [decode_matrix_spec_of enc inv fel nerrs k dm d1 d2 hl1 hl2 hP1 hP2]

/-- The builder is the inversion routine applied to the gathered state, followed
by the filling of the decode matrix. -/
theorem gf_gen_factor (E : Env) (st : Statics) (enc fel dm di : List u8) (nerrs k m : Nat)
    (t v : List u8) (g : GatherState)
    (hst : alloc_statics E m k st = ⟨false, some t, some v⟩)
    (hg : gather_survivors E enc fel nerrs k t di = .ok g) :
    gf_gen_decode_matrix_simple E st enc fel dm di nerrs k m =
      E.gf_invert_matrix g.temp_matrix v k >>= fun inv =>
        if inv.1 < 0 then
          pure ⟨-1, dm, g.decode_index, ⟨false, some inv.2.1, some inv.2.2⟩⟩
        else
          fill_decode_matrix enc fel inv.2.2 nerrs k dm >>= fun d =>
            pure ⟨0, d, g.decode_index, ⟨false, some inv.2.1, some inv.2.2⟩⟩ := by
  simp only [gf_gen_decode_matrix_simple, hst, hg, ok_bind]

/-- What a call of the builder does, in terms of the survivor list `L` (the
indices below `MMAX` that are not erased), the survivor matrix handed to the
inversion routine, and the result `(rc, t', v')` of that routine. -/
theorem gf_gen_run (E : Env) (st : Statics) (enc fel dm di : List u8) (nerrs k m : Nat)
    (t v : List u8) (rc : Int) (t' v' : List u8)
    (hst : alloc_statics E m k st = ⟨false, some t, some v⟩)
    (hn : nerrs ≤ fel.length)
    (hrange : ∀ e, e ∈ erased fel nerrs → e < E.MMAX)
    (hk : k ≤ (survivors fel nerrs E.MMAX).length)
    (hdi : k ≤ di.length) (ht : k * k ≤ t.length)
    (henc : ∀ i, i < k → k * idxAt (survivors fel nerrs E.MMAX) i + k ≤ enc.length)
    (hinv : E.gf_invert_matrix (survivor_matrix enc (survivors fel nerrs E.MMAX) k t) v k
      = .ok (rc, t', v')) :
    (rc < 0 → gf_gen_decode_matrix_simple E st enc fel dm di nerrs k m =
      .ok ⟨-1, dm, decode_index_spec (survivors fel nerrs E.MMAX) k di,
        ⟨false, some t', some v'⟩⟩) ∧
    (¬ rc < 0 → k * nerrs ≤ dm.length → k * k ≤ v'.length →
      (∀ i, i < nerrs → k ≤ (byteAt fel i).val → k * (byteAt fel i).val + k ≤ enc.length) →
      gf_gen_decode_matrix_simple E st enc fel dm di nerrs k m =
      .ok ⟨0, decode_matrix_spec enc v' fel nerrs k dm,
        decode_index_spec (survivors fel nerrs E.MMAX) k di, ⟨false, some t', some v'⟩⟩) := by
  obtain ⟨r, hg⟩ := gather_survivors_run E enc fel nerrs k t di hn hrange hk hdi ht henc
  have hrun := gf_gen_factor E st enc fel dm di nerrs k m t v _ hst hg
  simp only [hinv, ok_bind] at hrun
  constructor
  · intro hrc
    rw [hrun, if_pos hrc]
    rfl
  · intro hrc hdm hv henc2
    rw [hrun, if_neg hrc, fill_decode_matrix_run enc fel v' nerrs k dm hn hdm hv henc2]
    rfl

/-! ## Calls within the sizes of their arrays -/

theorem erased_length_le (fel : List u8) (nerrs : Nat) : (erased fel nerrs).length ≤ nerrs := by
  simp [erased, List.length_take]

theorem survivors_length_ge (fel : List u8) (nerrs m : Nat) :
    m ≤ (survivors fel nerrs m).length + nerrs := by
  have h1 := List.length_eq_length_filter_add (l := List.range m)
    (fun r => decide (r ∉ erased fel nerrs))
  have h2 : ((List.range m).filter (fun r => !decide (r ∉ erased fel nerrs))).length
      ≤ (erased fel nerrs).length := by
    apply List.Subperm.length_le
    apply List.subperm_of_subset
    · exact List.Nodup.filter _ (List.nodup_range m)
    · intro x hx
      simpa using (List.mem_filter.mp hx).2
  have h3 := erased_length_le fel nerrs
  simp only [List.length_range] at h1
  unfold survivors
  omega

theorem survivors_add (fel : List u8) (nerrs a b : Nat) :
    survivors fel nerrs (a + b) = survivors fel nerrs a ++
      ((List.range b).map (a + ·)).filter (fun r => r ∉ erased fel nerrs) := by
  unfold survivors
  rw [List.range_add, List.filter_append]

theorem idxAt_append_left (A B : List Nat) (i : Nat) (h : i < A.length) :
    idxAt (A ++ B) i = idxAt A i := by
  simp [idxAt, List.getD, List.getElem?_append_left h]

theorem idxAt_survivors_lt (fel : List u8) (nerrs m i : Nat)
    (h : i < (survivors fel nerrs m).length) : idxAt (survivors fel nerrs m) i < m :=
  ((mem_survivors fel nerrs m _).mp (idxAt_mem h)).1

theorem idxAt_survivors_not_erased (fel : List u8) (nerrs m i : Nat)
    (h : i < (survivors fel nerrs m).length) :
    idxAt (survivors fel nerrs m) i ∉ erased fel nerrs :=
  ((mem_survivors fel nerrs m _).mp (idxAt_mem h)).2

theorem idxAt_survivors_mono (fel : List u8) (nerrs m M i : Nat) (hm : m ≤ M)
    (h : i < (survivors fel nerrs m).length) :
    idxAt (survivors fel nerrs M) i = idxAt (survivors fel nerrs m) i := by
  obtain ⟨b, rfl⟩ := Nat.exists_eq_add_of_le hm
  rw [survivors_add, idxAt_append_left _ _ _ h]

theorem survivors_length_mono (fel : List u8) (nerrs m M : Nat) (hm : m ≤ M) :
    (survivors fel nerrs m).length ≤ (survivors fel nerrs M).length := by
  obtain ⟨b, rfl⟩ := Nat.exists_eq_add_of_le hm
  rw [survivors_add, List.length_append]
  omega

theorem byteAt_decode_index_spec (L : List Nat) (k : Nat) (di : List u8) (j : Nat)
    (hj : j < di.length) :
    byteAt (decode_index_spec L k di) j =
      if j < k then (Fin.ofNat (idxAt L j) : u8) else byteAt di j := by
  rw [decode_index_spec, byteAt_map_range _ _ _ hj]

theorem byteAt_survivor_matrix (enc : List u8) (L : List Nat) (k : Nat) (t : List u8)
    (i j : Nat) (hi : i < k) (hj : j < k) (ht : k * k ≤ t.length) :
    byteAt (survivor_matrix enc L k t) (k * i + j) = byteAt enc (k * idxAt L i + j) := by
  have hlt := row_idx_lt k k i j hi hj
  rw [survivor_matrix, byteAt_map_range _ _ _ (by omega), if_pos hlt,
    (div_mod_row k i j hj).1, (div_mod_row k i j hj).2]

theorem byteAt_decode_matrix_spec (enc inv fel : List u8) (nerrs k : Nat) (dm : List u8)
    (i j : Nat) (hi : i < nerrs) (hj : j < k) (hdm : k * nerrs ≤ dm.length) :
    byteAt (decode_matrix_spec enc inv fel nerrs k dm) (k * i + j) =
      decode_entry enc inv k (byteAt fel i).val j := by
  have hlt := row_idx_lt k nerrs i j hi hj
  rw [decode_matrix_spec, byteAt_map_range _ _ _ (by omega), if_pos hlt,
    (div_mod_row k i j hj).1, (div_mod_row k i j hj).2]

/-- What a valid call provides for the survivor scan. -/
theorem SizedCall.scan {E : Env} {enc fel dm di : List u8} {nerrs k m : Nat}
    (h : SizedCall E enc fel dm di nerrs k m) :
    k ≤ (survivors fel nerrs m).length ∧
    k ≤ (survivors fel nerrs E.MMAX).length ∧
    (∀ i, i < k → idxAt (survivors fel nerrs E.MMAX) i = idxAt (survivors fel nerrs m) i) ∧
    (∀ i, i < k → idxAt (survivors fel nerrs m) i < m) ∧
    (∀ i, i < k → k * idxAt (survivors fel nerrs E.MMAX) i + k ≤ enc.length) ∧
    (∀ e, e ∈ erased fel nerrs → e < E.MMAX) := by
  have h1 : k ≤ (survivors fel nerrs m).length := by
    have := survivors_length_ge fel nerrs m
    have := h.budget
    omega
  have h2 := survivors_length_mono fel nerrs m E.MMAX h.m_le_MMAX
  have h3 : ∀ i, i < k → idxAt (survivors fel nerrs E.MMAX) i = idxAt (survivors fel nerrs m) i :=
    fun i hi => idxAt_survivors_mono fel nerrs m E.MMAX i h.m_le_MMAX (by omega)
  have h4 : ∀ i, i < k → idxAt (survivors fel nerrs m) i < m :=
    fun i hi => idxAt_survivors_lt fel nerrs m i (by omega)
  refine ⟨h1, by omega, h3, h4, ?_, ?_⟩
  · intro i hi
    rw [h3 i hi]
    have := row_idx_lt k m _ 0 (h4 i hi) (by omega)
    have h5 := Nat.mul_le_mul_left k (show idxAt (survivors fel nerrs m) i + 1 ≤ m from h4 i hi)
    rw [Nat.mul_succ] at h5
    have := h.enc_size
    omega
  · intro e he
    have := h.in_range e he
    have := h.m_le_MMAX
    omega

theorem survivor_matrix_congr (enc : List u8) (L L' : List Nat) (k : Nat) (t : List u8)
    (h : ∀ i, i < k → idxAt L i = idxAt L' i) :
    survivor_matrix enc L k t = survivor_matrix enc L' k t := by
  unfold survivor_matrix
  apply List.map_congr_left
  intro x _
  by_cases hx : x < k * k
  · rw [if_pos hx, if_pos hx, h _ (row_of_lt k k x hx).1]
  · rw [if_neg hx, if_neg hx]

theorem decode_index_spec_congr (L L' : List Nat) (k : Nat) (di : List u8)
    (h : ∀ i, i < k → idxAt L i = idxAt L' i) :
    decode_index_spec L k di = decode_index_spec L' k di := by
  unfold decode_index_spec
  apply List.map_congr_left
  intro x _
  by_cases hx : x < k
  · rw [if_pos hx, if_pos hx, h _ hx]
  · rw [if_neg hx, if_neg hx]

/-- The survivor scan of a call within its sizes returns, with the survivor
matrix and the decode index of the survivors below `m`. -/
theorem sized_gather {E : Env} {enc fel dm di : List u8} {nerrs k m : Nat}
    (h : SizedCall E enc fel dm di nerrs k m) (t : List u8) (ht : k * k ≤ t.length) :
    ∃ r, gather_survivors E enc fel nerrs k t di =
      .ok ⟨r, survivor_matrix enc (survivors fel nerrs m) k t,
        decode_index_spec (survivors fel nerrs m) k di⟩ := by
  obtain ⟨_, h2, h3, _, h5, h6⟩ := h.scan
  obtain ⟨r, hr⟩ := gather_survivors_run E enc fel nerrs k t di h.nerrs_le h6 h2 h.di_size ht h5
  exact ⟨r, by rw [hr, survivor_matrix_congr enc _ _ k t h3, decode_index_spec_congr _ _ k di h3]⟩

theorem sized_parity_rows {E : Env} {enc fel dm di : List u8} {nerrs k m : Nat}
    (h : SizedCall E enc fel dm di nerrs k m) :
    ∀ i, i < nerrs → k ≤ (byteAt fel i).val → k * (byteAt fel i).val + k ≤ enc.length := by
  intro i hi _
  have hlt : (byteAt fel i).val < m :=
    h.in_range _ (mem_erased_of_lt fel i nerrs hi (by have := h.nerrs_le; omega))
  have h5 := Nat.mul_le_mul_left k (show (byteAt fel i).val + 1 ≤ m from hlt)
  rw [Nat.mul_succ] at h5
  have := h.enc_size
  omega

/-- The result of a call within its sizes, given the result `(rc, t', v')` of the
inversion routine on the survivor matrix. -/
theorem sized_run {E : Env} {st : Statics} {enc fel dm di : List u8} {nerrs k m : Nat}
    (h : SizedCall E enc fel dm di nerrs k m) (t v : List u8) (rc : Int) (t' v' : List u8)
    (hst : alloc_statics E m k st = ⟨false, some t, some v⟩) (ht : k * k ≤ t.length)
    (hinv : E.gf_invert_matrix (survivor_matrix enc (survivors fel nerrs m) k t) v k
      = .ok (rc, t', v'))
    (hv : ¬ rc < 0 → k * k ≤ v'.length) :
    gf_gen_decode_matrix_simple E st enc fel dm di nerrs k m =
      .ok ⟨if rc < 0 then -1 else 0,
        if rc < 0 then dm else decode_matrix_spec enc v' fel nerrs k dm,
        decode_index_spec (survivors fel nerrs m) k di, ⟨false, some t', some v'⟩⟩ := by
  obtain ⟨r, hg⟩ := sized_gather h t ht
  have hrun := gf_gen_factor E st enc fel dm di nerrs k m t v _ hst hg
  simp only [hinv, ok_bind] at hrun
  rw [hrun]
  by_cases hrc : rc < 0
  · simp only [hrc, if_true]
    rfl
  · simp only [hrc, if_false]
    rw [fill_decode_matrix_run enc fel v' nerrs k dm h.nerrs_le h.dm_size (hv hrc)
      (sized_parity_rows h)]
    rfl


/-! ## Properties of the decode-matrix builder -/

theorem u8_ofNat_val (a : Nat) (h : a < 256) : ((Fin.ofNat a : u8)).val = a :=
  Nat.mod_eq_of_lt h

theorem list_ext_idxAt (a b : List Nat) (hl : a.length = b.length)
    (h : ∀ i, i < a.length → idxAt a i = idxAt b i) : a = b := by
  apply List.ext_getElem hl
  intro i h1 h2
  have := h i h1
  rwa [idxAt_eq h1, idxAt_eq h2] at this

theorem idxAt_take (L : List Nat) (k i : Nat) (hi : i < k) :
    idxAt (L.take k) i = idxAt L i := by
  simp [idxAt, List.getD, List.getElem?_take, hi]

theorem idxAt_map_val_take (d : List u8) (k i : Nat) (hi : i < k) (hd : i < d.length) :
    idxAt ((d.take k).map Fin.val) i = (byteAt d i).val := by
  simp [idxAt, byteAt, List.getD, List.getElem?_take, hi, List.getElem?_eq_getElem hd]

theorem decode_index_spec_length (L : List Nat) (k : Nat) (di : List u8) :
    (decode_index_spec L k di).length = di.length := by
  simp [decode_index_spec]

/-- The decode index written by a call within its sizes: entry `i < k` is the
`i`-th survivor below `m`. -/
theorem sized_index_val {E : Env} {enc fel dm di : List u8} {nerrs k m : Nat}
    (h : SizedCall E enc fel dm di nerrs k m) (i : Nat) (hi : i < k) :
    (byteAt (decode_index_spec (survivors fel nerrs m) k di) i).val
      = idxAt (survivors fel nerrs m) i := by
  obtain ⟨_, _, _, h4, _, _⟩ := h.scan
  rw [byteAt_decode_index_spec _ _ _ _ (by have := h.di_size; omega), if_pos hi]
  exact u8_ofNat_val _ (by have := h4 i hi; have := h.m_le_256; omega)

/-- C4 (data-erasure rows). On a valid call on which the inversion routine
succeeds (returns `rc >= 0` and the inverse `v'`), the builder returns 0, and for
every erased data fragment (`frag_err_list[i] < k`) and every column `j < k` the
entry `decode_matrix[k*i+j]` of the returned decode matrix is
`invert_matrix[k*frag_err_list[i]+j]`; the entry already has this value after the
first pass (lines 69-74), so the parity pass does not alter it. -/
theorem data_erasure_rows (E : Env) (st : Statics) (enc fel dm di : List u8) (nerrs k m : Nat)
    (t v : List u8) (rc : Int) (t' v' : List u8)
    (h : ValidCall E enc fel dm di nerrs k m)
    (hst : alloc_statics E m k st = ⟨false, some t, some v⟩) (ht : k * k ≤ t.length)
    (hinv : E.gf_invert_matrix (survivor_matrix enc (survivors fel nerrs m) k t) v k
      = .ok (rc, t', v'))
    (hrc : ¬ rc < 0) (hv : k * k ≤ v'.length) :
    ∃ out d1, gf_gen_decode_matrix_simple E st enc fel dm di nerrs k m = .ok out ∧
      out.ret = 0 ∧ out.statics.invert_matrix = some v' ∧
      forLoop (src_row_body fel v' k) nerrs dm = .ok d1 ∧
      ∀ i j, i < nerrs → (byteAt fel i).val < k → j < k →
        byteAt out.decode_matrix (k * i + j) = byteAt v' (k * (byteAt fel i).val + j) ∧
        byteAt d1 (k * i + j) = byteAt v' (k * (byteAt fel i).val + j) := by
  have hrun := sized_run h.toSizedCall t v rc t' v' hst ht hinv (fun _ => hv)
  obtain ⟨d1, hd1, _, hP1⟩ := src_rows_loop fel v' k nerrs dm h.nerrs_le h.dm_size hv
  refine ⟨_, d1, hrun, by simp [hrc], rfl, hd1, ?_⟩
  intro i j hi he hj
  constructor
  · simp only [hrc, if_false]
    rw [byteAt_decode_matrix_spec enc v' fel nerrs k dm i j hi hj h.dm_size, decode_entry,
      if_pos he]
  · have hlt := row_idx_lt k nerrs i j hi hj
    rw [hP1, (div_mod_row k i j hj).1, (div_mod_row k i j hj).2, if_pos ⟨hlt, he⟩]

/-- C5 (decode index increasing and disjoint from the erasures). On a valid call
on which the inversion routine returns (with any result `rc`), the builder
returns, the decode index it has written is strictly increasing on its first `k`
entries (`decode_index[i] < decode_index[i+1]` for `i + 1 < k`), and none of these
entries is an erased index `frag_err_list[j]`, `j < nerrs`. -/
theorem decode_index_increasing (E : Env) (st : Statics) (enc fel dm di : List u8)
    (nerrs k m : Nat) (t v : List u8) (rc : Int) (t' v' : List u8)
    (h : ValidCall E enc fel dm di nerrs k m)
    (hst : alloc_statics E m k st = ⟨false, some t, some v⟩) (ht : k * k ≤ t.length)
    (hinv : E.gf_invert_matrix (survivor_matrix enc (survivors fel nerrs m) k t) v k
      = .ok (rc, t', v'))
    (hv : ¬ rc < 0 → k * k ≤ v'.length) :
    ∃ out, gf_gen_decode_matrix_simple E st enc fel dm di nerrs k m = .ok out ∧
      (∀ i, i + 1 < k →
        (byteAt out.decode_index i).val < (byteAt out.decode_index (i + 1)).val) ∧
      (∀ i j, i < k → j < nerrs → byteAt out.decode_index i ≠ byteAt fel j) := by
  have hrun := sized_run h.toSizedCall t v rc t' v' hst ht hinv hv
  obtain ⟨h1, _, _, _, _, _⟩ := h.toSizedCall.scan
  refine ⟨_, hrun, ?_, ?_⟩
  · intro i hi
    simp only
    rw [sized_index_val h.toSizedCall i (by omega), sized_index_val h.toSizedCall (i + 1) hi]
    exact pairwise_idxAt_lt (survivors_pairwise fel nerrs m) (by omega) (by omega)
  · intro i j hi hj heq
    simp only at heq
    have hval := sized_index_val h.toSizedCall i hi
    rw [heq] at hval
    have hmem := mem_erased_of_lt fel j nerrs hj (by have := h.nerrs_le; omega)
    rw [hval] at hmem
    exact idxAt_survivors_not_erased fel nerrs m i (by omega) hmem

/-- C6 (survivor selection). On a valid call on which the inversion routine
returns (with any result `rc`), the survivor scan and the builder return; the
first `k` entries of the decode index that the builder hands back are the `k`
smallest indices below `m` that are not erased, in ascending order; and row `i`
of the temporary matrix `g.temp_matrix` with which the inversion routine is
called is row `decode_index[i]` of the encode matrix. -/
theorem survivor_selection (E : Env) (st : Statics) (enc fel dm di : List u8)
    (nerrs k m : Nat) (t v : List u8) (rc : Int) (t' v' : List u8)
    (h : ValidCall E enc fel dm di nerrs k m)
    (hst : alloc_statics E m k st = ⟨false, some t, some v⟩) (ht : k * k ≤ t.length)
    (hinv : E.gf_invert_matrix (survivor_matrix enc (survivors fel nerrs m) k t) v k
      = .ok (rc, t', v'))
    (hv : ¬ rc < 0 → k * k ≤ v'.length) :
    ∃ out g, gf_gen_decode_matrix_simple E st enc fel dm di nerrs k m = .ok out ∧
      gather_survivors E enc fel nerrs k t di = .ok g ∧
      out.decode_index = g.decode_index ∧
      (out.decode_index.take k).map Fin.val = (survivors fel nerrs m).take k ∧
      (∀ i j, i < k → j < k → byteAt g.temp_matrix (k * i + j)
        = byteAt enc (k * (byteAt out.decode_index i).val + j)) := by
  have hrun := sized_run h.toSizedCall t v rc t' v' hst ht hinv hv
  obtain ⟨r, hg⟩ := sized_gather h.toSizedCall t ht
  obtain ⟨h1, _, _, _, _, _⟩ := h.toSizedCall.scan
  refine ⟨_, _, hrun, hg, rfl, ?_, ?_⟩
  · simp only
    have hdl := decode_index_spec_length (survivors fel nerrs m) k di
    have hk := h.di_size
    apply list_ext_idxAt
    · simp [List.length_take, hdl]; omega
    · intro i hi
      have hik : i < k := by
        simp [List.length_take, hdl] at hi; omega
      rw [idxAt_map_val_take _ k i hik (by omega), idxAt_take _ k i hik,
        sized_index_val h.toSizedCall i hik]
  · intro i j hi hj
    simp only
    rw [byteAt_survivor_matrix enc _ k t i j hi hj ht, sized_index_val h.toSizedCall i hi]

/-- C9 (inversion failure is propagated). On a valid call on which the inversion
routine returns `rc`, the builder returns; it returns -1 exactly when `rc < 0`
and 0 otherwise, and when it returns -1 the decode matrix is the one it was
given: no entry has been written. -/
theorem inversion_failure_propagated (E : Env) (st : Statics) (enc fel dm di : List u8)
    (nerrs k m : Nat) (t v : List u8) (rc : Int) (t' v' : List u8)
    (h : ValidCall E enc fel dm di nerrs k m)
    (hst : alloc_statics E m k st = ⟨false, some t, some v⟩) (ht : k * k ≤ t.length)
    (hinv : E.gf_invert_matrix (survivor_matrix enc (survivors fel nerrs m) k t) v k
      = .ok (rc, t', v'))
    (hv : ¬ rc < 0 → k * k ≤ v'.length) :
    ∃ out, gf_gen_decode_matrix_simple E st enc fel dm di nerrs k m = .ok out ∧
      (out.ret = -1 ↔ rc < 0) ∧ (¬ rc < 0 → out.ret = 0) ∧
      (out.ret = -1 → out.decode_matrix = dm) := by
  have hrun := sized_run h.toSizedCall t v rc t' v' hst ht hinv hv
  refine ⟨_, hrun, ?_, ?_, ?_⟩
  · by_cases hrc : rc < 0 <;> simp [hrc]
  · intro hrc; simp [hrc]
  · by_cases hrc : rc < 0 <;> simp [hrc]

theorem demo_statics :
    alloc_statics demo_env 6 4 Statics.initial = ⟨false, some demo_zero24, some demo_zero24⟩ := by
  decide

theorem demo_valid_13 :
    ValidCall demo_env demo_encode_matrix [1, 3] demo_zero24 demo_zero8 2 4 6 :=
  ⟨⟨by decide, by decide, by decide, by decide, by decide, by decide, by decide, by decide⟩,
    by decide⟩

set_option maxRecDepth 100000 in
theorem demo_invert_13 :
    demo_env.gf_invert_matrix
      (survivor_matrix demo_encode_matrix (survivors [1, 3] 2 6) 4 demo_zero24) demo_zero24 4
      = .ok (0, demo_reduced, demo_inverse_0245) := by
  decide!

/-- Instance of C4: fragments 1 and 3 of six erased, `k = 4`. -/
theorem data_erasure_rows_witness :
    ∃ out d1, gf_gen_decode_matrix_simple demo_env Statics.initial demo_encode_matrix [1, 3]
        demo_zero24 demo_zero8 2 4 6 = .ok out ∧
      out.ret = 0 ∧ out.statics.invert_matrix = some demo_inverse_0245 ∧
      forLoop (src_row_body [1, 3] demo_inverse_0245 4) 2 demo_zero24 = .ok d1 ∧
      ∀ i j, i < 2 → (byteAt [1, 3] i).val < 4 → j < 4 →
        byteAt out.decode_matrix (4 * i + j)
          = byteAt demo_inverse_0245 (4 * (byteAt [1, 3] i).val + j) ∧
        byteAt d1 (4 * i + j) = byteAt demo_inverse_0245 (4 * (byteAt [1, 3] i).val + j) :=
  data_erasure_rows demo_env Statics.initial demo_encode_matrix [1, 3] demo_zero24 demo_zero8
    2 4 6 demo_zero24 demo_zero24 0 demo_reduced demo_inverse_0245
    demo_valid_13 demo_statics (by decide) demo_invert_13 (by decide) (by decide)

/-- Instance of C5: fragments 1 and 3 of six erased, `k = 4`. -/
theorem decode_index_increasing_witness :
    ∃ out, gf_gen_decode_matrix_simple demo_env Statics.initial demo_encode_matrix [1, 3]
        demo_zero24 demo_zero8 2 4 6 = .ok out ∧
      (∀ i, i + 1 < 4 →
        (byteAt out.decode_index i).val < (byteAt out.decode_index (i + 1)).val) ∧
      (∀ i j, i < 4 → j < 2 → byteAt out.decode_index i ≠ byteAt [1, 3] j) :=
  decode_index_increasing demo_env Statics.initial demo_encode_matrix [1, 3] demo_zero24
    demo_zero8 2 4 6 demo_zero24 demo_zero24 0 demo_reduced demo_inverse_0245
    demo_valid_13 demo_statics (by decide) demo_invert_13 (by decide)

/-- Instance of C6: for `k = 4`, `m = 6` and the erasures 1 and 3 the decode index
is 0, 2, 4, 5. -/
theorem survivor_selection_witness :
    (survivors [1, 3] 2 6).take 4 = [0, 2, 4, 5] ∧
    ∃ out g, gf_gen_decode_matrix_simple demo_env Statics.initial demo_encode_matrix [1, 3]
        demo_zero24 demo_zero8 2 4 6 = .ok out ∧
      gather_survivors demo_env demo_encode_matrix [1, 3] 2 4 demo_zero24 demo_zero8 = .ok g ∧
      out.decode_index = g.decode_index ∧
      (out.decode_index.take 4).map Fin.val = (survivors [1, 3] 2 6).take 4 ∧
      (∀ i j, i < 4 → j < 4 → byteAt g.temp_matrix (4 * i + j)
        = byteAt demo_encode_matrix (4 * (byteAt out.decode_index i).val + j)) :=
  ⟨by decide,
    survivor_selection demo_env Statics.initial demo_encode_matrix [1, 3] demo_zero24
      demo_zero8 2 4 6 demo_zero24 demo_zero24 0 demo_reduced demo_inverse_0245
      demo_valid_13 demo_statics (by decide) demo_invert_13 (by decide)⟩

/-- Instance of C9: a singular survivor matrix (`k = 2`, `m = 3`, fragment 1
erased, rows 0 and 2 equal); the builder returns -1 and leaves the decode matrix
`7 7 7 7` as it was. -/
theorem inversion_failure_propagated_witness :
    ∃ out, gf_gen_decode_matrix_simple demo_env Statics.initial singular_encode_matrix [1]
        [7, 7, 7, 7] [9, 9] 1 2 3 = .ok out ∧
      (out.ret = -1 ↔ (-1 : Int) < 0) ∧ (¬ (-1 : Int) < 0 → out.ret = 0) ∧
      (out.ret = -1 → out.decode_matrix = [7, 7, 7, 7]) :=
  inversion_failure_propagated demo_env Statics.initial singular_encode_matrix [1]
    [7, 7, 7, 7] [9, 9] 1 2 3 (List.replicate 6 0) (List.replicate 6 0) (-1)
    [1, 0, 0, 0, 0, 0] [1, 0, 1, 1, 0, 0]
    ⟨⟨by decide, by decide, by decide, by decide, by decide, by decide, by decide, by decide⟩,
      by decide⟩
    (by decide) (by decide) (by decide) (by decide)

theorem erased_perm_mem (fel fel' : List u8) (nerrs : Nat) (σ : Equiv.Perm (Fin nerrs))
    (hl : nerrs ≤ fel.length) (hl' : nerrs ≤ fel'.length)
    (hperm : ∀ i : Fin nerrs, byteAt fel' i.val = byteAt fel (σ i).val) (x : Nat) :
    x ∈ erased fel' nerrs ↔ x ∈ erased fel nerrs := by
  rw [mem_erased_iff fel' nerrs x hl', mem_erased_iff fel nerrs x hl]
  constructor
  · rintro ⟨i, hi, he⟩
    refine ⟨(σ ⟨i, hi⟩).val, (σ ⟨i, hi⟩).isLt, ?_⟩
    rw [← hperm ⟨i, hi⟩]
    exact he
  · rintro ⟨i, hi, he⟩
    refine ⟨(σ.symm ⟨i, hi⟩).val, (σ.symm ⟨i, hi⟩).isLt, ?_⟩
    rw [hperm (σ.symm ⟨i, hi⟩), Equiv.apply_symm_apply]
    exact he

theorem survivors_congr (fel fel' : List u8) (nerrs m : Nat)
    (h : ∀ x, x ∈ erased fel' nerrs ↔ x ∈ erased fel nerrs) :
    survivors fel' nerrs m = survivors fel nerrs m := by
  unfold survivors
  apply List.filter_congr
  intro x _
  simp only [h x]

/-- C10 (order equivariance). For a valid call and the same call with the first
`nerrs` entries of the erasure list permuted by `σ` (entry `i` of the permuted
list is entry `σ i` of the original one), given the result of the inversion
routine on the survivor matrix of the original list: both calls return, with the
same return code and the same decode index; when they return 0, row `i` of the
decode matrix of the permuted call is row `σ i` of the decode matrix of the
original call; when they return -1, both decode matrices are the untouched
input. -/
theorem order_equivariance (E : Env) (st : Statics) (enc fel fel' dm di : List u8)
    (nerrs k m : Nat) (t v : List u8) (rc : Int) (t' v' : List u8)
    (σ : Equiv.Perm (Fin nerrs))
    (h : ValidCall E enc fel dm di nerrs k m)
    (hl' : nerrs ≤ fel'.length)
    (hperm : ∀ i : Fin nerrs, byteAt fel' i.val = byteAt fel (σ i).val)
    (hst : alloc_statics E m k st = ⟨false, some t, some v⟩) (ht : k * k ≤ t.length)
    (hinv : E.gf_invert_matrix (survivor_matrix enc (survivors fel nerrs m) k t) v k
      = .ok (rc, t', v'))
    (hv : ¬ rc < 0 → k * k ≤ v'.length) :
    ∃ out out', gf_gen_decode_matrix_simple E st enc fel dm di nerrs k m = .ok out ∧
      gf_gen_decode_matrix_simple E st enc fel' dm di nerrs k m = .ok out' ∧
      out'.ret = out.ret ∧ out'.decode_index = out.decode_index ∧
      (out.ret = 0 → ∀ (i : Fin nerrs) (j : Nat), j < k →
        byteAt out'.decode_matrix (k * i.val + j)
          = byteAt out.decode_matrix (k * (σ i).val + j)) ∧
      (out.ret = -1 → out'.decode_matrix = dm ∧ out.decode_matrix = dm) := by
  have hmem := erased_perm_mem fel fel' nerrs σ h.nerrs_le hl' hperm
  have hsurv := survivors_congr fel fel' nerrs m hmem
  have h' : SizedCall E enc fel' dm di nerrs k m :=
    { nerrs_le := hl'
      budget := h.budget
      in_range := fun e he => h.in_range e ((hmem e).mp he)
      m_le_MMAX := h.m_le_MMAX
      m_le_256 := h.m_le_256
      enc_size := h.enc_size
      dm_size := h.dm_size
      di_size := h.di_size }
  have hrun := sized_run h.toSizedCall t v rc t' v' hst ht hinv hv
  have hrun' := sized_run h' t v rc t' v' hst ht (by rw [hsurv]; exact hinv) hv
  refine ⟨_, _, hrun, hrun', rfl, by rw [hsurv], ?_, ?_⟩
  · intro hret i j hj
    have hrc : ¬ rc < 0 := by
      intro hrc
      simp [hrc] at hret
    simp only [hrc, if_false]
    rw [byteAt_decode_matrix_spec enc v' fel' nerrs k dm i.val j i.isLt hj h.dm_size,
      byteAt_decode_matrix_spec enc v' fel nerrs k dm (σ i).val j (σ i).isLt hj h.dm_size,
      hperm i]
  · intro hret
    have hrc : rc < 0 := by
      by_contra hrc
      simp [hrc] at hret
    simp [hrc]

set_option maxRecDepth 100000 in
/-- Instance of C10: the erasure list `1, 3` and its reversal `3, 1`. -/
theorem order_equivariance_witness :
    ∃ out out', gf_gen_decode_matrix_simple demo_env Statics.initial demo_encode_matrix [1, 3]
        demo_zero24 demo_zero8 2 4 6 = .ok out ∧
      gf_gen_decode_matrix_simple demo_env Statics.initial demo_encode_matrix [3, 1]
        demo_zero24 demo_zero8 2 4 6 = .ok out' ∧
      out'.ret = out.ret ∧ out'.decode_index = out.decode_index ∧
      (out.ret = 0 → ∀ (i : Fin 2) (j : Nat), j < 4 →
        byteAt out'.decode_matrix (4 * i.val + j)
          = byteAt out.decode_matrix (4 * ((Equiv.swap (0 : Fin 2) 1) i).val + j)) ∧
      (out.ret = -1 → out'.decode_matrix = demo_zero24 ∧ out.decode_matrix = demo_zero24) :=
  order_equivariance demo_env Statics.initial demo_encode_matrix [1, 3] [3, 1] demo_zero24
    demo_zero8 2 4 6 demo_zero24 demo_zero24 0 demo_reduced demo_inverse_0245
    (Equiv.swap (0 : Fin 2) 1) demo_valid_13 (by decide) (by decide) demo_statics (by decide)
    demo_invert_13 (by decide)

/-! ## Erasure lists that the builder is not meant for -/

theorem erased_length (fel : List u8) (nerrs : Nat) (h : nerrs ≤ fel.length) :
    (erased fel nerrs).length = nerrs := by
  simp [erased, List.length_take, h]

/-- With pairwise distinct erased indices below `m`, exactly `m - nerrs` indices
below `m` survive. -/
theorem survivors_length_eq (fel : List u8) (nerrs m : Nat) (hn : nerrs ≤ fel.length)
    (hr : ∀ e, e ∈ erased fel nerrs → e < m) (hd : (erased fel nerrs).Nodup) :
    (survivors fel nerrs m).length + nerrs = m := by
  have h1 := List.length_eq_length_filter_add (l := List.range m)
    (fun r => decide (r ∉ erased fel nerrs))
  have h2 : ((List.range m).filter (fun r => !decide (r ∉ erased fel nerrs))).length
      = (erased fel nerrs).length := by
    apply List.Perm.length_eq
    apply (List.perm_ext_iff_of_nodup (List.Nodup.filter _ (List.nodup_range m)) hd).mpr
    intro x
    constructor
    · intro hx
      simpa using (List.mem_filter.mp hx).2
    · intro hx
      exact List.mem_filter.mpr ⟨List.mem_range.mpr (hr x hx), by simpa using hx⟩
  rw [erased_length fel nerrs hn] at h2
  simp only [List.length_range] at h1
  unfold survivors
  omega

theorem idxAt_append_right (A B : List Nat) (i : Nat) (h : A.length ≤ i) :
    idxAt (A ++ B) i = idxAt B (i - A.length) := by
  simp [idxAt, List.getD, List.getElem?_append_right h]

/-- Survivors beyond the last one below `m` are indices from `m` on. -/
theorem idxAt_survivors_ge (fel : List u8) (nerrs m M i : Nat) (hm : m ≤ M)
    (h1 : (survivors fel nerrs m).length ≤ i) (h2 : i < (survivors fel nerrs M).length) :
    m ≤ idxAt (survivors fel nerrs M) i := by
  obtain ⟨b, rfl⟩ := Nat.exists_eq_add_of_le hm
  rw [survivors_add] at h2 ⊢
  rw [idxAt_append_right _ _ _ h1]
  rw [List.length_append] at h2
  have hmem := idxAt_mem (L := ((List.range b).map (m + ·)).filter
    (fun r => r ∉ erased fel nerrs)) (i := i - (survivors fel nerrs m).length) (by omega)
  obtain ⟨x, _, hx⟩ := List.mem_map.mp (List.mem_filter.mp hmem).1
  omega

/-- C7 as the code has it (too many erasures are not refused). With
`nerrs = m - k + 1` pairwise distinct erased indices below `m` only `k - 1`
fragments survive, and the survivor scan runs on past index `m - 1`. When the scan
stays inside `frag_in_err` and the encode-matrix buffer (there are `k` unmarked
indices below `MMAX`, and their rows lie in the buffer), the call returns: -1
exactly when the inversion routine reports failure on the gathered matrix and 0
otherwise; and entry `k - 1` of the decode index it writes is an index from `m`
on, not a surviving fragment. -/
theorem too_many_erasures_scan_past_m (E : Env) (st : Statics) (enc fel dm di : List u8)
    (nerrs k m : Nat) (t v : List u8) (rc : Int) (t' v' : List u8)
    (hn : nerrs ≤ fel.length) (hcount : nerrs + k = m + 1)
    (hr : ∀ e, e ∈ erased fel nerrs → e < m) (hd : (erased fel nerrs).Nodup)
    (hm : m ≤ E.MMAX) (hM : E.MMAX ≤ 256)
    (hk : k ≤ (survivors fel nerrs E.MMAX).length)
    (henc : ∀ i, i < k → k * idxAt (survivors fel nerrs E.MMAX) i + k ≤ enc.length)
    (hencm : k * m ≤ enc.length) (hdm : k * nerrs ≤ dm.length) (hdi : k ≤ di.length)
    (hst : alloc_statics E m k st = ⟨false, some t, some v⟩) (ht : k * k ≤ t.length)
    (hinv : E.gf_invert_matrix (survivor_matrix enc (survivors fel nerrs E.MMAX) k t) v k
      = .ok (rc, t', v'))
    (hv : ¬ rc < 0 → k * k ≤ v'.length) :
    ∃ out, gf_gen_decode_matrix_simple E st enc fel dm di nerrs k m = .ok out ∧
      (out.ret = -1 ↔ rc < 0) ∧ (¬ rc < 0 → out.ret = 0) ∧
      m ≤ (byteAt out.decode_index (k - 1)).val := by
  have hlen := survivors_length_eq fel nerrs m hn hr hd
  have hk1 : 0 < k := by omega
  have hrun := gf_gen_run E st enc fel dm di nerrs k m t v rc t' v' hst hn
    (fun e he => by have := hr e he; omega) hk hdi ht henc hinv
  have hparity : ∀ i, i < nerrs → k ≤ (byteAt fel i).val →
      k * (byteAt fel i).val + k ≤ enc.length := by
    intro i hi _
    have hlt : (byteAt fel i).val < m := hr _ (mem_erased_of_lt fel i nerrs hi (by omega))
    have h5 := Nat.mul_le_mul_left k (show (byteAt fel i).val + 1 ≤ m from hlt)
    rw [Nat.mul_succ] at h5
    omega
  have hidx : m ≤ (byteAt (decode_index_spec (survivors fel nerrs E.MMAX) k di) (k - 1)).val := by
    rw [byteAt_decode_index_spec _ _ _ _ (by omega), if_pos (by omega)]
    have hlt := idxAt_survivors_lt fel nerrs E.MMAX (k - 1) (by omega)
    rw [u8_ofNat_val _ (by omega)]
    exact idxAt_survivors_ge fel nerrs m E.MMAX (k - 1) hm (by omega) (by omega)
  by_cases hrc : rc < 0
  · exact ⟨_, hrun.1 hrc, by simp [hrc], fun h => absurd hrc h, hidx⟩
  · exact ⟨_, hrun.2 hrc hdm (hv hrc) hparity, by simp [hrc], fun _ => rfl, hidx⟩

set_option maxRecDepth 100000 in
/-- C7, counterexample: `k = 4`, `m = 6` and the `m - k + 1 = 3` distinct erasures
1, 2, 3. With the encode matrix of exactly `m * k` bytes the call reads past the
end of the matrix (a fault, not a returned error code); with four more bytes
behind the matrix the call returns 0, with the decode index 0, 4, 5, 6. -/
theorem too_many_erasures_not_refused :
    gf_gen_decode_matrix_simple demo_env Statics.initial demo_encode_matrix [1, 2, 3]
        demo_zero24 demo_zero8 3 4 6 = .error Stop.fault ∧
    gf_gen_decode_matrix_simple demo_env Statics.initial demo_encode_longer [1, 2, 3]
        demo_zero24 demo_zero8 3 4 6
      = .ok ⟨0, demo_decode_123, [0, 4, 5, 6, 0, 0, 0, 0],
          ⟨false, some demo_reduced, some demo_inverse_0456⟩⟩ := by
  decide!

set_option maxRecDepth 100000 in
/-- Instance of the amended C7: `k = 4`, `m = 6`, erasures 1, 2, 3 and an encode
matrix followed by four more bytes. -/
theorem too_many_erasures_scan_past_m_witness :
    ∃ out, gf_gen_decode_matrix_simple demo_env Statics.initial demo_encode_longer [1, 2, 3]
        demo_zero24 demo_zero8 3 4 6 = .ok out ∧
      (out.ret = -1 ↔ (0 : Int) < 0) ∧ (¬ (0 : Int) < 0 → out.ret = 0) ∧
      6 ≤ (byteAt out.decode_index (4 - 1)).val :=
  too_many_erasures_scan_past_m demo_env Statics.initial demo_encode_longer [1, 2, 3]
    demo_zero24 demo_zero8 3 4 6 demo_zero24 demo_zero24 0 demo_reduced demo_inverse_0456
    (by decide) (by decide) (by decide) (by decide) (by decide) (by decide) (by decide)
    (by decide) (by decide) (by decide) (by decide) demo_statics (by decide) (by decide!)
    (by decide)

/-- C8 as the code has it (duplicate erasures are not rejected). On an erasure
list in which an index occurs twice (`frag_err_list[a] = frag_err_list[b]`,
`a < b < nerrs`; sizes and index range as for a valid call) the builder returns:
-1 exactly when the inversion routine reports failure on the matrix of the first
`k` unmarked rows and 0 otherwise, and when it returns 0 rows `a` and `b` of the
decode matrix are equal. -/
theorem duplicate_erasures_pass (E : Env) (st : Statics) (enc fel dm di : List u8)
    (nerrs k m : Nat) (t v : List u8) (rc : Int) (t' v' : List u8) (a b : Nat)
    (h : SizedCall E enc fel dm di nerrs k m)
    (hab : a < b) (hb : b < nerrs) (hdup : byteAt fel a = byteAt fel b)
    (hst : alloc_statics E m k st = ⟨false, some t, some v⟩) (ht : k * k ≤ t.length)
    (hinv : E.gf_invert_matrix (survivor_matrix enc (survivors fel nerrs m) k t) v k
      = .ok (rc, t', v'))
    (hv : ¬ rc < 0 → k * k ≤ v'.length) :
    ∃ out, gf_gen_decode_matrix_simple E st enc fel dm di nerrs k m = .ok out ∧
      (out.ret = -1 ↔ rc < 0) ∧ (¬ rc < 0 → out.ret = 0) ∧
      (out.ret = 0 → ∀ j, j < k →
        byteAt out.decode_matrix (k * a + j) = byteAt out.decode_matrix (k * b + j)) := by
  have hrun := sized_run h t v rc t' v' hst ht hinv hv
  refine ⟨_, hrun, ?_, ?_, ?_⟩
  · by_cases hrc : rc < 0 <;> simp [hrc]
  · intro hrc; simp [hrc]
  · intro hret j hj
    have hrc : ¬ rc < 0 := by
      intro hrc
      simp [hrc] at hret
    simp only [hrc, if_false]
    rw [byteAt_decode_matrix_spec enc v' fel nerrs k dm a j (by omega) hj h.dm_size,
      byteAt_decode_matrix_spec enc v' fel nerrs k dm b j hb hj h.dm_size, hdup]

set_option maxRecDepth 100000 in
/-- C8, counterexample: `k = 4`, `m = 6` and the erasure list `1, 1`, in which
index 1 occurs twice: the call returns 0 with a decode matrix. -/
theorem duplicate_erasures_not_rejected :
    byteAt [1, 1] 0 = byteAt [1, 1] 1 ∧
    gf_gen_decode_matrix_simple demo_env Statics.initial demo_encode_matrix [1, 1]
        demo_zero24 demo_zero8 2 4 6
      = .ok ⟨0, demo_decode_11, [0, 2, 3, 4, 0, 0, 0, 0],
          ⟨false, some demo_reduced, some demo_inverse_0234⟩⟩ := by
  decide!

set_option maxRecDepth 100000 in
/-- Instance of the amended C8: `k = 4`, `m = 6` and the erasure list `1, 1`. -/
theorem duplicate_erasures_pass_witness :
    ∃ out, gf_gen_decode_matrix_simple demo_env Statics.initial demo_encode_matrix [1, 1]
        demo_zero24 demo_zero8 2 4 6 = .ok out ∧
      (out.ret = -1 ↔ (0 : Int) < 0) ∧ (¬ (0 : Int) < 0 → out.ret = 0) ∧
      (out.ret = 0 → ∀ j, j < 4 →
        byteAt out.decode_matrix (4 * 0 + j) = byteAt out.decode_matrix (4 * 1 + j)) :=
  duplicate_erasures_pass demo_env Statics.initial demo_encode_matrix [1, 1]
    demo_zero24 demo_zero8 2 4 6 demo_zero24 demo_zero24 0 demo_reduced demo_inverse_0234 0 1
    ⟨by decide, by decide, by decide, by decide, by decide, by decide, by decide, by decide⟩
    (by decide) (by decide) (by decide) demo_statics (by decide) (by decide!) (by decide)

/-! ## Algebra of XOR sums over GF(2^8) -/

theorem u8_xor_comm (a b : u8) : a ^^^ b = b ^^^ a := by
  apply Fin.ext
  rw [u8_xor_val, u8_xor_val, Nat.xor_comm]

theorem u8_xor_assoc (a b c : u8) : a ^^^ b ^^^ c = a ^^^ (b ^^^ c) := by
  apply Fin.ext
  rw [u8_xor_val, u8_xor_val, u8_xor_val, u8_xor_val, Nat.xor_assoc]

theorem u8_xor_zero (a : u8) : a ^^^ 0 = a := by
  apply Fin.ext
  rw [u8_xor_val]
  exact Nat.xor_zero _

theorem u8_zero_xor (a : u8) : 0 ^^^ a = a := by
  rw [u8_xor_comm, u8_xor_zero]

theorem gf_mul_comm (a b : u8) : gf_mul a b = gf_mul b a := by
  apply Fin.ext
  rw [gf_mul_val, gf_mul_val, gf_mulN_comm]

theorem gf_mul_assoc (a b c : u8) : gf_mul (gf_mul a b) c = gf_mul a (gf_mul b c) := by
  apply Fin.ext
  rw [gf_mul_val, gf_mul_val, gf_mul_val, gf_mul_val,
    gf_mulN_assoc _ _ _ a.isLt b.isLt c.isLt]

theorem gf_mul_xor (a b c : u8) : gf_mul a (b ^^^ c) = gf_mul a b ^^^ gf_mul a c := by
  apply Fin.ext
  rw [gf_mul_val, u8_xor_val, u8_xor_val, gf_mul_val, gf_mul_val,
    gf_mulN_xor _ _ _ a.isLt b.isLt c.isLt]

theorem gf_xor_mul (a b c : u8) : gf_mul (a ^^^ b) c = gf_mul a c ^^^ gf_mul b c := by
  rw [gf_mul_comm, gf_mul_xor, gf_mul_comm c a, gf_mul_comm c b]

theorem gf_mul_zero (a : u8) : gf_mul a 0 = 0 := by
  apply Fin.ext
  rw [gf_mul_val]
  exact gf_mulN_zero_right _

theorem gf_zero_mul (a : u8) : gf_mul 0 a = 0 := by
  rw [gf_mul_comm, gf_mul_zero]

theorem gf_one_mul (a : u8) : gf_mul 1 a = a := by
  apply Fin.ext
  rw [gf_mul_val]
  exact gf_mulN_one_left _ a.isLt

theorem gf_mul_one (a : u8) : gf_mul a 1 = a := by
  rw [gf_mul_comm, gf_one_mul]

theorem xor_sum_succ (f : Nat → u8) (n : Nat) : xor_sum f (n + 1) = xor_sum f n ^^^ f n := rfl

theorem xor_sum_congr (f g : Nat → u8) (n : Nat) (h : ∀ i, i < n → f i = g i) :
    xor_sum f n = xor_sum g n := by
  induction n with
  | zero => rfl
  | succ n ih =>
    rw [xor_sum_succ, xor_sum_succ, ih (fun i hi => h i (by omega)), h n (by omega)]

theorem xor_sum_zero (n : Nat) : xor_sum (fun _ => 0) n = 0 := by
  induction n with
  | zero => rfl
  | succ n ih => rw [xor_sum_succ, ih, u8_xor_zero]

theorem xor_sum_xor (f g : Nat → u8) (n : Nat) :
    xor_sum (fun i => f i ^^^ g i) n = xor_sum f n ^^^ xor_sum g n := by
  induction n with
  | zero => rw [xor_sum, xor_sum, xor_sum, u8_xor_zero]
  | succ n ih =>
    rw [xor_sum_succ, xor_sum_succ, xor_sum_succ, ih, u8_xor_assoc, u8_xor_assoc,
      ← u8_xor_assoc (xor_sum g n), u8_xor_comm (xor_sum g n) (f n), u8_xor_assoc (f n)]

theorem mul_xor_sum (a : u8) (f : Nat → u8) (n : Nat) :
    gf_mul a (xor_sum f n) = xor_sum (fun i => gf_mul a (f i)) n := by
  induction n with
  | zero => rw [xor_sum, xor_sum, gf_mul_zero]
  | succ n ih => rw [xor_sum_succ, xor_sum_succ, gf_mul_xor, ih]

theorem xor_sum_mul (f : Nat → u8) (a : u8) (n : Nat) :
    gf_mul (xor_sum f n) a = xor_sum (fun i => gf_mul (f i) a) n := by
  induction n with
  | zero => rw [xor_sum, xor_sum, gf_zero_mul]
  | succ n ih => rw [xor_sum_succ, xor_sum_succ, gf_xor_mul, ih]

/-- Exchange of the order of summation. -/
theorem xor_sum_swap (F : Nat → Nat → u8) (n m : Nat) :
    xor_sum (fun i => xor_sum (fun j => F i j) m) n
      = xor_sum (fun j => xor_sum (fun i => F i j) n) m := by
  induction n with
  | zero =>
    simp only [xor_sum]
    rw [xor_sum_zero]
  | succ n ih =>
    rw [xor_sum_succ, ih, ← xor_sum_xor]
    rfl

/-- A sum against one row of the identity matrix picks one term. -/
theorem xor_sum_delta (a : Nat → u8) (c n : Nat) (hc : c < n) :
    xor_sum (fun j => gf_mul (a j) (if j = c then 1 else 0)) n = a c := by
  induction n with
  | zero => omega
  | succ n ih =>
    rw [xor_sum_succ]
    by_cases hcn : c = n
    · subst hcn
      have h0 : xor_sum (fun j => gf_mul (a j) (if j = c then 1 else 0)) c = 0 := by
        have e : xor_sum (fun j => gf_mul (a j) (if j = c then 1 else 0)) c
            = xor_sum (fun _ => 0) c := by
          apply xor_sum_congr
          intro i hi
          rw [if_neg (by omega), gf_mul_zero]
        rw [e, xor_sum_zero]
      rw [h0, if_pos rfl, gf_mul_one, u8_zero_xor]
    · rw [ih (by omega), if_neg (fun h => hcn h.symm), gf_mul_zero, u8_xor_zero]

/-- The row `enc_row * inv`, multiplied by `T`, is `enc_row` again when
`inv * T = 1`. -/
theorem row_times_inverse (inv T : List u8) (k : Nat) (row : Nat → u8)
    (h : IsLeftInverse inv T k) (c : Nat) (hc : c < k) :
    xor_sum (fun i => gf_mul
      (xor_sum (fun j => gf_mul (byteAt inv (j * k + i)) (row j)) k)
      (byteAt T (k * i + c))) k = row c := by
  have e1 : ∀ i, i < k → gf_mul
      (xor_sum (fun j => gf_mul (byteAt inv (j * k + i)) (row j)) k) (byteAt T (k * i + c))
      = xor_sum (fun j => gf_mul (row j)
          (gf_mul (byteAt inv (k * j + i)) (byteAt T (k * i + c)))) k := by
    intro i _
    rw [xor_sum_mul]
    apply xor_sum_congr
    intro j _
    rw [gf_mul_comm (byteAt inv (j * k + i)) (row j), gf_mul_assoc, Nat.mul_comm j k]
  rw [xor_sum_congr _ _ k e1, xor_sum_swap]
  have e2 : ∀ j, j < k →
      xor_sum (fun i => gf_mul (row j)
        (gf_mul (byteAt inv (k * j + i)) (byteAt T (k * i + c)))) k
      = gf_mul (row j) (if j = c then 1 else 0) := by
    intro j hj
    rw [← mul_xor_sum, h j hj c hc]
  rw [xor_sum_congr _ _ k e2, xor_sum_delta row c k hc]

/-! ## The parity rows of the decode matrix -/

/-- C3 (parity round trip). On a valid call on which the inversion routine
succeeds and returns in `invert_matrix` a matrix `v'` with `v' * T = 1`, where `T`
is the survivor matrix (row `i` of `T` is row `decode_index[i]` of the encode
matrix): the builder returns 0, and for every erased parity fragment
(`frag_err_list[p] >= k`) row `p` of the decode matrix is
`s_i = XOR_j gf_mul(invert_matrix[j*k+i], encode_matrix[k*frag_err_list[p]+j])`
and, multiplied by `T`, gives row `frag_err_list[p]` of the encode matrix. -/
theorem parity_round_trip (E : Env) (st : Statics) (enc fel dm di : List u8) (nerrs k m : Nat)
    (t v : List u8) (rc : Int) (t' v' : List u8)
    (h : ValidCall E enc fel dm di nerrs k m)
    (hst : alloc_statics E m k st = ⟨false, some t, some v⟩) (ht : k * k ≤ t.length)
    (hinv : E.gf_invert_matrix (survivor_matrix enc (survivors fel nerrs m) k t) v k
      = .ok (rc, t', v'))
    (hrc : ¬ rc < 0) (hv : k * k ≤ v'.length)
    (hI : IsLeftInverse v' (survivor_matrix enc (survivors fel nerrs m) k t) k) :
    ∃ out, gf_gen_decode_matrix_simple E st enc fel dm di nerrs k m = .ok out ∧
      out.ret = 0 ∧
      ∀ p, p < nerrs → k ≤ (byteAt fel p).val →
        (∀ i, i < k → byteAt out.decode_matrix (k * p + i)
          = xor_sum (fun j => gf_mul (byteAt v' (j * k + i))
              (byteAt enc (k * (byteAt fel p).val + j))) k) ∧
        (∀ c, c < k →
          xor_sum (fun i => gf_mul (byteAt out.decode_matrix (k * p + i))
            (byteAt enc (k * (byteAt out.decode_index i).val + c))) k
          = byteAt enc (k * (byteAt fel p).val + c)) := by
  have hrun := sized_run h.toSizedCall t v rc t' v' hst ht hinv (fun _ => hv)
  refine ⟨_, hrun, by simp [hrc], ?_⟩
  intro p hp he
  simp only [hrc, if_false]
  have hrow : ∀ i, i < k → byteAt (decode_matrix_spec enc v' fel nerrs k dm) (k * p + i)
      = xor_sum (fun j => gf_mul (byteAt v' (j * k + i))
          (byteAt enc (k * (byteAt fel p).val + j))) k := by
    intro i hi
    rw [byteAt_decode_matrix_spec enc v' fel nerrs k dm p i hp hi h.dm_size, decode_entry,
      if_neg (by omega)]
  refine ⟨hrow, ?_⟩
  intro c hc
  have e : ∀ i, i < k →
      gf_mul (byteAt (decode_matrix_spec enc v' fel nerrs k dm) (k * p + i))
        (byteAt enc (k * (byteAt (decode_index_spec (survivors fel nerrs m) k di) i).val + c))
      = gf_mul (xor_sum (fun j => gf_mul (byteAt v' (j * k + i))
          (byteAt enc (k * (byteAt fel p).val + j))) k)
        (byteAt (survivor_matrix enc (survivors fel nerrs m) k t) (k * i + c)) := by
    intro i hi
    rw [hrow i hi, sized_index_val h.toSizedCall i hi,
      byteAt_survivor_matrix enc _ k t i c hi hc ht]
  rw [xor_sum_congr _ _ k e]
  exact row_times_inverse v' _ k (fun j => byteAt enc (k * (byteAt fel p).val + j)) hI c hc

theorem demo_valid_50 :
    ValidCall demo_env demo_encode_matrix [5, 0] demo_zero24 demo_zero8 2 4 6 :=
  ⟨⟨by decide, by decide, by decide, by decide, by decide, by decide, by decide, by decide⟩,
    by decide⟩

set_option maxRecDepth 100000 in
theorem demo_invert_50 :
    demo_env.gf_invert_matrix
      (survivor_matrix demo_encode_matrix (survivors [5, 0] 2 6) 4 demo_zero24) demo_zero24 4
      = .ok (0, demo_reduced, demo_inverse_1234) := by
  decide!

set_option maxRecDepth 100000 in
theorem demo_left_inverse_50 :
    IsLeftInverse demo_inverse_1234
      (survivor_matrix demo_encode_matrix (survivors [5, 0] 2 6) 4 demo_zero24) 4 := by
  decide!

/-- Instance of C3: the parity fragment 5 and the data fragment 0 of six erased,
`k = 4`. -/
theorem parity_round_trip_witness :
    ∃ out, gf_gen_decode_matrix_simple demo_env Statics.initial demo_encode_matrix [5, 0]
        demo_zero24 demo_zero8 2 4 6 = .ok out ∧
      out.ret = 0 ∧
      ∀ p, p < 2 → 4 ≤ (byteAt [5, 0] p).val →
        (∀ i, i < 4 → byteAt out.decode_matrix (4 * p + i)
          = xor_sum (fun j => gf_mul (byteAt demo_inverse_1234 (j * 4 + i))
              (byteAt demo_encode_matrix (4 * (byteAt [5, 0] p).val + j))) 4) ∧
        (∀ c, c < 4 →
          xor_sum (fun i => gf_mul (byteAt out.decode_matrix (4 * p + i))
            (byteAt demo_encode_matrix (4 * (byteAt out.decode_index i).val + c))) 4
          = byteAt demo_encode_matrix (4 * (byteAt [5, 0] p).val + c)) :=
  parity_round_trip demo_env Statics.initial demo_encode_matrix [5, 0] demo_zero24 demo_zero8
    2 4 6 demo_zero24 demo_zero24 0 demo_reduced demo_inverse_1234
    demo_valid_50 demo_statics (by decide) demo_invert_50 (by decide) (by decide)
    demo_left_inverse_50

/-! ## Nested loops and loops over arrays of fragments -/

theorem forLoop_add {σ : Type} (body : Nat → σ → Run σ) (a b : Nat) (s : σ) :
    forLoop body (a + b) s = forLoop body a s >>= forLoop (fun j => body (a + j)) b := by
  induction b with
  | zero =>
    rw [Nat.add_zero]
    cases h : forLoop body a s with
    | error e => rfl
    | ok s' => rfl
  | succ b ih =>
    rw [← Nat.add_assoc, forLoop_succ, ih]
    cases h : forLoop body a s with
    | error e => rfl
    | ok s' => rfl

/-- A loop over `i < n` around a loop over `j < k` runs the body at the indices
`i * k + j` in ascending order. -/
theorem forLoop_flatten {σ : Type} (body : Nat → σ → Run σ) (k n : Nat) (s : σ) :
    forLoop (fun i s => forLoop (fun j s => body (i * k + j) s) k s) n s
      = forLoop body (n * k) s := by
  induction n with
  | zero => rw [Nat.zero_mul]; rfl
  | succ n ih =>
    rw [forLoop_succ, ih, Nat.succ_mul, forLoop_add]

theorem fragAt_set (a : List (List u8)) (i j : Nat) (v : List u8) :
    fragAt (a.set i v) j = if i = j ∧ i < a.length then v else fragAt a j := by
  unfold fragAt
  rw [List.getD_eq_getElem?_getD, List.getD_eq_getElem?_getD, List.getElem?_set]
  by_cases hij : i = j
  · subst hij
    by_cases hi : i < a.length
    · simp [hi]
    · simp [hi, List.getElem?_eq_none (Nat.le_of_not_lt hi)]
  · simp [hij]

theorem fragAt_map_range (n : Nat) (f : Nat → List u8) (i : Nat) (h : i < n) :
    fragAt ((List.range n).map f) i = f i := by
  simp [fragAt, List.getD, h]

theorem list_ext_fragAt (a b : List (List u8)) (hl : a.length = b.length)
    (h : ∀ i, i < a.length → fragAt a i = fragAt b i) : a = b := by
  apply List.ext_getElem hl
  intro i h1 h2
  have := h i h1
  simpa [fragAt, List.getD, List.getElem?_eq_getElem h1, List.getElem?_eq_getElem h2] using this

theorem map2d_length (upd : Nat → Nat → u8 → u8) (rows len : Nat) (dest : List (List u8)) :
    (map2d upd rows len dest).length = dest.length := by
  simp [map2d]

theorem fragAt_map2d (upd : Nat → Nat → u8 → u8) (rows len : Nat) (dest : List (List u8))
    (l : Nat) (hl : l < dest.length) :
    fragAt (map2d upd rows len dest) l =
      if l < rows then
        (List.range (fragAt dest l).length).map (fun b =>
          if b < len then upd l b (byteAt (fragAt dest l) b) else byteAt (fragAt dest l) b)
      else fragAt dest l := by
  rw [map2d, fragAt_map_range _ _ _ hl]

theorem byteAt_map2d (upd : Nat → Nat → u8 → u8) (rows len : Nat) (dest : List (List u8))
    (l b : Nat) (hl : l < rows) (hr : rows ≤ dest.length) (hb : b < len)
    (hlen : len ≤ (fragAt dest l).length) :
    byteAt (fragAt (map2d upd rows len dest) l) b = upd l b (byteAt (fragAt dest l) b) := by
  rw [fragAt_map2d _ _ _ _ _ (by omega), if_pos hl, byteAt_map_range _ _ _ (by omega), if_pos hb]

/-- A loop over the rows `l < rows` around a loop over the bytes `i < len`, whose
body replaces byte `i` of row `l` by `upd l i old`, computes `map2d upd`. -/
theorem entry_loop (step : Nat → Nat → List (List u8) → Run (List (List u8)))
    (upd : Nat → Nat → u8 → u8) (rows len : Nat) (dest : List (List u8))
    (hstep : ∀ l i d, l < rows → i < len → l < d.length → i < (fragAt d l).length →
      step l i d = .ok (d.set l ((fragAt d l).set i (upd l i (byteAt (fragAt d l) i)))))
    (hrows : rows ≤ dest.length) (hlen : ∀ l, l < rows → len ≤ (fragAt dest l).length) :
    forLoop (fun l d => forLoop (fun i d => step l i d) len d) rows dest
      = .ok (map2d upd rows len dest) := by
  have inner : ∀ l d0, l < rows → l < d0.length → len ≤ (fragAt d0 l).length →
      ∃ d, forLoop (fun i d => step l i d) len d0 = .ok d ∧ d.length = d0.length ∧
        (∀ l', l' ≠ l → fragAt d l' = fragAt d0 l') ∧
        (fragAt d l).length = (fragAt d0 l).length ∧
        ∀ b, byteAt (fragAt d l) b =
          if b < len then upd l b (byteAt (fragAt d0 l) b) else byteAt (fragAt d0 l) b := by
    intro l d0 hl hl0 hlen0
    apply forLoop_inv (fun i d => step l i d)
      (fun i d => d.length = d0.length ∧
        (∀ l', l' ≠ l → fragAt d l' = fragAt d0 l') ∧
        (fragAt d l).length = (fragAt d0 l).length ∧
        ∀ b, byteAt (fragAt d l) b =
          if b < i then upd l b (byteAt (fragAt d0 l) b) else byteAt (fragAt d0 l) b)
    · refine ⟨rfl, fun _ _ => rfl, rfl, ?_⟩
      intro b
      rw [if_neg (by omega)]
    · rintro i d hi ⟨h1, h2, h3, h4⟩
      have hld : l < d.length := by omega
      have hid : i < (fragAt d l).length := by omega
      refine ⟨_, hstep l i d hl hi hld hid, by simp [h1], ?_, ?_, ?_⟩
      · intro l' hl'
        rw [fragAt_set, if_neg (fun h => hl' h.1.symm), h2 l' hl']
      · rw [fragAt_set, if_pos ⟨rfl, hld⟩]
        simp [h3]
      · intro b
        rw [fragAt_set, if_pos ⟨rfl, hld⟩, byteAt_set, h4 b, h4 i]
        by_cases hib : i = b
        · subst hib
          rw [if_pos ⟨rfl, hid⟩, if_neg (by omega), if_pos (by omega)]
        · rw [if_neg (fun h => hib h.1)]
          by_cases hbi : b < i
          · rw [if_pos hbi, if_pos (by omega)]
          · rw [if_neg hbi, if_neg (by omega)]
  have outer := forLoop_inv (fun l d => forLoop (fun i d => step l i d) len d)
    (fun l d => d.length = dest.length ∧ ∀ l', l' < dest.length →
      fragAt d l' = if l' < l then fragAt (map2d upd rows len dest) l' else fragAt dest l')
    rows dest ?_ ?_
  · obtain ⟨d, hd, h1, h2⟩ := outer
    rw [hd]
    congr 1
    apply list_ext_fragAt
    · rw [h1, map2d_length]
    · intro l hl
      rw [h2 l (by omega)]
      by_cases hlr : l < rows
      · rw [if_pos hlr]
      · rw [if_neg hlr, fragAt_map2d _ _ _ _ _ (by omega), if_neg hlr]
  · refine ⟨rfl, ?_⟩
    intro l' _
    rw [if_neg (by omega)]
  · rintro l d hl ⟨h1, h2⟩
    have hl0 : l < d.length := by omega
    have hrow : fragAt d l = fragAt dest l := by
      rw [h2 l (by omega), if_neg (by omega)]
    obtain ⟨d', hd', g1, g2, g3, g4⟩ := inner l d hl hl0 (by rw [hrow]; exact hlen l hl)
    refine ⟨d', hd', by omega, ?_⟩
    intro l' hl'
    by_cases hll : l' = l
    · subst hll
      rw [if_pos (by omega), fragAt_map2d _ _ _ _ _ hl', if_pos hl]
      apply list_ext_byteAt
      · rw [g3, hrow]; simp
      · intro b hb
        rw [g4 b, hrow, byteAt_map_range _ _ _ (by rw [g3, hrow] at hb; exact hb)]
    · rw [g2 l' hll, h2 l' hl']
      by_cases hlt : l' < l
      · rw [if_pos hlt, if_pos (by omega)]
      · rw [if_neg hlt, if_neg (by omega)]

/-! ## The encode kernels -/

theorem map2d_congr (u1 u2 : Nat → Nat → u8 → u8) (rows len : Nat) (dest : List (List u8))
    (h : ∀ l b, l < rows → l < dest.length → b < len → b < (fragAt dest l).length →
      u1 l b (byteAt (fragAt dest l) b) = u2 l b (byteAt (fragAt dest l) b)) :
    map2d u1 rows len dest = map2d u2 rows len dest := by
  unfold map2d
  apply List.map_congr_left
  intro l hl
  by_cases hlr : l < rows
  · rw [if_pos hlr, if_pos hlr]
    apply List.map_congr_left
    intro b hb
    by_cases hbl : b < len
    · rw [if_pos hbl, if_pos hbl]
      exact h l b hlr (List.mem_range.mp hl) hbl (List.mem_range.mp hb)
    · rw [if_neg hbl, if_neg hbl]
  · rw [if_neg hlr, if_neg hlr]

theorem map2d_self (upd : Nat → Nat → u8 → u8) (rows len : Nat) (dest : List (List u8))
    (h : ∀ l b old, upd l b old = old) : map2d upd rows len dest = dest := by
  apply list_ext_fragAt
  · rw [map2d_length]
  · intro l hl
    rw [map2d_length] at hl
    rw [fragAt_map2d _ _ _ _ _ hl]
    by_cases hlr : l < rows
    · rw [if_pos hlr]
      apply list_ext_byteAt
      · simp
      · intro b hb
        have hb' : b < (fragAt dest l).length := by simpa using hb
        rw [byteAt_map_range _ _ _ hb', h]
        simp
    · rw [if_neg hlr]

theorem map2d_map2d (u1 u2 : Nat → Nat → u8 → u8) (rows len : Nat) (dest : List (List u8)) :
    map2d u2 rows len (map2d u1 rows len dest)
      = map2d (fun l b old => u2 l b (u1 l b old)) rows len dest := by
  apply list_ext_fragAt
  · rw [map2d_length, map2d_length, map2d_length]
  · intro l hl
    rw [map2d_length, map2d_length] at hl
    rw [fragAt_map2d _ _ _ _ _ (by rw [map2d_length]; exact hl), fragAt_map2d _ _ _ _ _ hl]
    by_cases hlr : l < rows
    · rw [if_pos hlr, if_pos hlr, fragAt_map2d _ _ _ _ _ hl, if_pos hlr]
      apply list_ext_byteAt
      · simp
      · intro b hb
        have hb' : b < (fragAt dest l).length := by simpa using hb
        rw [byteAt_map_range _ _ _ (by simpa using hb'), byteAt_map_range _ _ _ hb',
          byteAt_map_range _ _ _ hb']
        by_cases hbl : b < len
        · rw [if_pos hbl, if_pos hbl, if_pos hbl]
        · rw [if_neg hbl, if_neg hbl, if_neg hbl]
    · rw [if_neg hlr, if_neg hlr, fragAt_map2d _ _ _ _ _ hl, if_neg hlr]

theorem ec_init_tables_run (k rows : Nat) (a g : List u8)
    (ha : rows * k ≤ a.length) (hg : 32 * (rows * k) ≤ g.length) :
    ∃ g', ec_init_tables k rows a g = .ok g' ∧ g'.length = g.length ∧
      ∀ x, byteAt g' x =
        if x < 32 * (rows * k) then tbl_entry (byteAt a (x / 32)) (x % 32) else byteAt g x := by
  have hflat : ec_init_tables k rows a g =
      forLoop (fun q g => do
        let c ← rd a q
        forLoop (gf_vect_mul_init c (32 * q)) 32 g) (rows * k) g :=
    forLoop_flatten (fun q g => do
        let c ← rd a q
        forLoop (gf_vect_mul_init c (32 * q)) 32 g) k rows g
  rw [hflat]
  have h := rows_loop (fun q g => do
        let c ← rd a q
        forLoop (gf_vect_mul_init c (32 * q)) 32 g) (fun _ => True)
    (fun q t => tbl_entry (byteAt a q) t) 32 (rows * k) g ?_
  · obtain ⟨g', h1, h2, h3⟩ := h
    refine ⟨g', h1, h2, ?_⟩
    intro x
    rw [h3 x]
    simp only [and_true]
  · intro q d hq hd
    have hqa : q < a.length := by omega
    obtain ⟨d', hd', hl', hP'⟩ := row_write_loop (gf_vect_mul_init (byteAt a q) (32 * q))
      (fun t => tbl_entry (byteAt a q) t) 32 q d (by omega) (by
        intro t d2 ht hl2
        have h2 : 32 * q + t < d2.length := by omega
        simp only [gf_vect_mul_init, wr_ok h2, tbl_entry])
    refine ⟨d', ?_, hl', ?_⟩
    · simp only [rd_ok_byteAt hqa, ok_bind]
      exact hd'
    · intro x
      rw [hP' x]
      simp only [true_and]

/-- The coefficient that the encode kernels read for output `l` and source `j` is
entry `l * k + j` of the matrix from which the tables were built. -/
theorem tables_coefficient (k rows : Nat) (a g g' : List u8)
    (hg : 32 * (rows * k) ≤ g.length) (hlen : g'.length = g.length)
    (h : ∀ x, byteAt g' x =
        if x < 32 * (rows * k) then tbl_entry (byteAt a (x / 32)) (x % 32) else byteAt g x)
    (l j : Nat) (hl : l < rows) (hj : j < k) :
    j * 32 + l * k * 32 + 1 < g'.length ∧
    byteAt g' (j * 32 + l * k * 32 + 1) = byteAt a (l * k + j) := by
  have hq : k * l + j < k * rows := row_idx_lt k rows l j hl hj
  have e : j * 32 + l * k * 32 + 1 = 32 * (l * k + j) + 1 := by
    rw [Nat.mul_add]; omega
  have hq' : l * k + j < rows * k := by
    rw [Nat.mul_comm l k, Nat.mul_comm rows k]; exact hq
  have hx : 32 * (l * k + j) + 1 < 32 * (rows * k) := by omega
  rw [e]
  refine ⟨by omega, ?_⟩
  rw [h, if_pos hx, (div_mod_row 32 (l * k + j) 1 (by omega)).1,
    (div_mod_row 32 (l * k + j) 1 (by omega)).2, tbl_entry]
  exact gf_mul_one _

theorem pack_loop (frags : List (List u8)) (di : List u8) (k n : Nat)
    (hk : k ≤ n) (hdi : k ≤ di.length)
    (hidx : ∀ i, i < k → (byteAt di i).val < frags.length) :
    ∃ srcs, forLoop (pack_src frags di) k (List.replicate n []) = .ok srcs ∧
      srcs.length = n ∧ ∀ i, i < k → fragAt srcs i = fragAt frags (byteAt di i).val := by
  have h := forLoop_inv (pack_src frags di)
    (fun i s => s.length = n ∧ ∀ j, j < i → fragAt s j = fragAt frags (byteAt di j).val)
    k (List.replicate n []) ?_ ?_
  · exact h
  · exact ⟨by simp, fun j hj => by omega⟩
  · rintro i s hi ⟨h1, h2⟩
    have hw : i < s.length := by omega
    refine ⟨s.set i (fragAt frags (byteAt di i).val), ?_, by simp [h1], ?_⟩
    · simp only [pack_src, rd_ok_byteAt (show i < di.length by omega), ok_bind,
        rd_ok_fragAt (hidx i hi), wr_ok hw]
    · intro j hj
      rw [fragAt_set]
      by_cases hij : i = j
      · subst hij; rw [if_pos ⟨rfl, hw⟩]
      · rw [if_neg (fun h => hij h.1)]
        exact h2 j (by omega)

theorem encode_byte_loop (k : Nat) (v : List u8) (src : List (List u8)) (l i : Nat)
    (hsrc : ∀ j, j < k → j < src.length ∧ i < (fragAt src j).length)
    (hv : ∀ j, j < k → j * 32 + l * k * 32 + 1 < v.length) :
    forLoop (encode_byte k v src l i) k 0 = .ok (encoded_byte k v src l i) := by
  have h := forLoop_inv (encode_byte k v src l i)
    (fun n s => s = xor_sum (fun j => gf_mul (byteAt (fragAt src j) i)
      (byteAt v (j * 32 + l * k * 32 + 1))) n) k 0 rfl ?_
  · obtain ⟨s, hs, hP⟩ := h
    rw [hs, hP, encoded_byte]
  · intro j s hj hP
    refine ⟨_, ?_, rfl⟩
    simp only [encode_byte, rd_ok_fragAt (hsrc j hj).1, ok_bind, rd_ok_byteAt (hsrc j hj).2,
      rd_ok_byteAt (hv j hj), hP, xor_sum]
    rfl

theorem ec_encode_data_run (len k rows : Nat) (v : List u8) (src dest : List (List u8))
    (hsrc : ∀ j, j < k → j < src.length ∧ len ≤ (fragAt src j).length)
    (hv : ∀ l j, l < rows → j < k → j * 32 + l * k * 32 + 1 < v.length)
    (hrows : rows ≤ dest.length) (hlen : ∀ l, l < rows → len ≤ (fragAt dest l).length) :
    ec_encode_data len k rows v src dest
      = .ok (map2d (fun l b _ => encoded_byte k v src l b) rows len dest) := by
  apply entry_loop (fun l i dest => do
      let s ← forLoop (encode_byte k v src l i) k 0
      let row ← rd dest l
      let row ← wr row i s
      wr dest l row) (fun l b _ => encoded_byte k v src l b) rows len dest ?_ hrows hlen
  intro l i d hl hi hld hid
  simp only [encode_byte_loop k v src l i
      (fun j hj => ⟨(hsrc j hj).1, by have := (hsrc j hj).2; omega⟩) (fun j hj => hv l j hl hj),
    ok_bind, rd_ok_fragAt hld, wr_ok hid, wr_ok hld]

theorem ec_encode_data_update_run (len k rows vec_i : Nat) (v data : List u8)
    (dest : List (List u8)) (hdata : len ≤ data.length)
    (hv : ∀ l, l < rows → vec_i * 32 + l * k * 32 + 1 < v.length)
    (hrows : rows ≤ dest.length) (hlen : ∀ l, l < rows → len ≤ (fragAt dest l).length) :
    ec_encode_data_update len k rows vec_i v data dest
      = .ok (map2d (fun l b old => old ^^^ gf_mul (byteAt data b)
          (byteAt v (vec_i * 32 + l * k * 32 + 1))) rows len dest) := by
  apply entry_loop (fun l i dest => do
      let row ← rd dest l
      let s ← rd row i
      let x ← rd data i
      let c ← rd v (vec_i * 32 + l * k * 32 + 1)
      let row ← wr row i (s ^^^ gf_mul x c)
      wr dest l row) (fun l b old => old ^^^ gf_mul (byteAt data b)
          (byteAt v (vec_i * 32 + l * k * 32 + 1))) rows len dest ?_ hrows hlen
  intro l i d hl hi hld hid
  simp only [rd_ok_fragAt hld, ok_bind, rd_ok_byteAt hid,
    rd_ok_byteAt (show i < data.length by omega), rd_ok_byteAt (hv l hl), wr_ok hid, wr_ok hld]

theorem map2d_row_length (upd : Nat → Nat → u8 → u8) (rows len : Nat) (dest : List (List u8))
    (l : Nat) (hl : l < dest.length) :
    (fragAt (map2d upd rows len dest) l).length = (fragAt dest l).length := by
  rw [fragAt_map2d _ _ _ _ _ hl]
  by_cases hlr : l < rows
  · rw [if_pos hlr]; simp
  · rw [if_neg hlr]

/-- The `k` update calls of the progressive mode accumulate, byte by byte, the
same sum that the batch kernel computes. -/
theorem progressive_loop (len k nerrs : Nat) (g : List u8) (srcs out : List (List u8))
    (hsrc : ∀ j, j < k → j < srcs.length ∧ len ≤ (fragAt srcs j).length)
    (hv : ∀ l j, l < nerrs → j < k → j * 32 + l * k * 32 + 1 < g.length)
    (hrows : nerrs ≤ out.length) (hlen : ∀ l, l < nerrs → len ≤ (fragAt out l).length) :
    forLoop (update_step len k nerrs g srcs) k out
      = .ok (map2d (fun l b old => old ^^^ encoded_byte k g srcs l b) nerrs len out) := by
  have h := forLoop_inv (update_step len k nerrs g srcs)
    (fun n d => d = map2d (fun l b old => old ^^^ xor_sum (fun j =>
      gf_mul (byteAt (fragAt srcs j) b) (byteAt g (j * 32 + l * k * 32 + 1))) n) nerrs len out)
    k out ?_ ?_
  · obtain ⟨d, hd, hP⟩ := h
    rw [hd, hP]
    rfl
  · show out = map2d _ nerrs len out
    symm
    apply map2d_self
    intro l b old
    exact u8_xor_zero old
  · intro n d hn hP
    refine ⟨_, ?_, rfl⟩
    simp only [update_step, rd_ok_fragAt (hsrc n hn).1, ok_bind]
    rw [ec_encode_data_update_run len k nerrs n g (fragAt srcs n) d (hsrc n hn).2
      (fun l hl => hv l n hl hn) (by rw [hP, map2d_length]; exact hrows)
      (fun l hl => by rw [hP, map2d_row_length _ _ _ _ _ (by omega)]; exact hlen l hl),
      hP, map2d_map2d]
    congr 1
    apply map2d_congr
    intro l b _ _ _ _
    simp only [xor_sum]
    rw [u8_xor_assoc]

/-! ## Recovery -/

theorem ValidRecovery.sized {E : Env} {k m p nerrs len : Nat} {enc : List u8}
    {frags : List (List u8)} {fel : List u8} {out : List (List u8)}
    (h : ValidRecovery E k m p nerrs len enc frags fel out) :
    SizedCall E enc fel (List.replicate (m * k) 0) (List.replicate E.MMAX 0) nerrs k m :=
  { nerrs_le := h.nerrs_le
    budget := h.budget
    in_range := h.in_range
    m_le_MMAX := h.m_le_MMAX
    m_le_256 := h.m_le_256
    enc_size := h.enc_size
    dm_size := by
      have h1 : nerrs ≤ m := by have := h.budget; omega
      have h2 := Nat.mul_le_mul_left k h1
      rw [List.length_replicate, Nat.mul_comm m k]
      exact h2
    di_size := by
      rw [List.length_replicate]
      have := h.budget
      have := h.m_le_MMAX
      omega }

/-- The result of `recover_data` on a valid call on which the inversion routine
succeeds: in either mode the outputs are determined by the sums `encoded_byte` of
the tables `g` built from the decode matrix and the packed sources `srcs`. -/
theorem recover_data_run {E : Env} {k m p nerrs len : Nat} {enc : List u8}
    {frags : List (List u8)} {fel : List u8} {out : List (List u8)}
    (h : ValidRecovery E k m p nerrs len enc frags fel out)
    (st : Statics) (t v : List u8) (rc : Int) (t' v' : List u8)
    (hst : alloc_statics E m k st = ⟨false, some t, some v⟩) (ht : k * k ≤ t.length)
    (hinv : E.gf_invert_matrix (survivor_matrix enc (survivors fel nerrs m) k t) v k
      = .ok (rc, t', v'))
    (hrc : ¬ rc < 0) (hv : k * k ≤ v'.length) :
    ∃ g srcs,
      (∀ l j, l < nerrs → j < k →
        byteAt g (j * 32 + l * k * 32 + 1) = decode_entry enc v' k (byteAt fel l).val j) ∧
      (∀ j, j < k → fragAt srcs j = fragAt frags (idxAt (survivors fel nerrs m) j)) ∧
      ∀ prog : Int, recover_data E st k m p nerrs len enc frags fel out prog =
        .ok (if prog ≠ 0 then
            map2d (fun l b old => old ^^^ encoded_byte k g srcs l b) nerrs len out
          else map2d (fun l b _ => encoded_byte k g srcs l b) nerrs len out,
          ⟨false, some t', some v'⟩) := by
  have hs := h.sized
  have hrun := sized_run hs t v rc t' v' hst ht hinv (fun _ => hv)
  simp only [hrc, if_false] at hrun
  obtain ⟨_, _, _, h4, _, _⟩ := hs.scan
  obtain ⟨srcs, hsrcs, hsl, hsP⟩ := pack_loop frags
    (decode_index_spec (survivors fel nerrs m) k (List.replicate E.MMAX 0)) k E.KMAX
    h.k_le_KMAX (by rw [decode_index_spec_length]; exact hs.di_size) (by
      intro i hi
      rw [sized_index_val hs i hi]
      have := h4 i hi
      have := h.frags_len
      omega)
  have hnk : nerrs * k ≤ m * k := by
    have h1 : nerrs ≤ m := by have := h.budget; omega
    exact Nat.mul_le_mul_right k h1
  have hgl : 32 * (nerrs * k) ≤ (List.replicate (k * p * 32) (0 : u8)).length := by
    rw [List.length_replicate]
    have h2 := Nat.mul_le_mul_right k h.nerrs_le_p
    rw [Nat.mul_comm k p]
    omega
  obtain ⟨g, hg, hglen, hgP⟩ := ec_init_tables_run k nerrs
    (decode_matrix_spec enc v' fel nerrs k (List.replicate (m * k) 0))
    (List.replicate (k * p * 32) 0) (by simp [decode_matrix_spec]; exact hnk) hgl
  have hcoef := tables_coefficient k nerrs _ _ g hgl hglen hgP
  have hsrc : ∀ j, j < k → j < srcs.length ∧ len ≤ (fragAt srcs j).length := by
    intro j hj
    refine ⟨by have := h.k_le_KMAX; omega, ?_⟩
    rw [hsP j hj, sized_index_val hs j hj]
    exact h.frag_size _ (h4 j hj)
  have hvv : ∀ l j, l < nerrs → j < k → j * 32 + l * k * 32 + 1 < g.length :=
    fun l j hl hj => (hcoef l j hl hj).1
  refine ⟨g, srcs, ?_, ?_, ?_⟩
  · intro l j hl hj
    rw [(hcoef l j hl hj).2, Nat.mul_comm l k,
      byteAt_decode_matrix_spec enc v' fel nerrs k _ l j hl hj hs.dm_size]
  · intro j hj
    rw [hsP j hj, sized_index_val hs j hj]
  · intro prog
    have hc : ¬ (E.calloc_ok (m * k) = false ∨ E.calloc_ok (k * p * 32) = false) := by
      rw [h.calloc_matrix, h.calloc_tables]
      simp
    simp only [recover_data, if_neg hc, hrun, ok_bind, ne_eq, not_true_eq_false, if_false,
      hsrcs, hg]
    by_cases hp : prog = 0
    · simp only [hp, not_true_eq_false, if_false]
      rw [ec_encode_data_run len k nerrs g srcs out hsrc hvv h.out_rows h.out_size]
      rfl
    · simp only [hp, not_false_eq_true, if_true]
      rw [progressive_loop len k nerrs g srcs out hsrc hvv h.out_rows h.out_size]
      rfl

/-- C2 (batch and progressive modes agree). On a valid call of `recover_data` on
which the inversion routine succeeds, with output buffers whose first `len` bytes
in the first `nerrs` rows are zero, both modes return, and they return the same
output matrix (every row, byte for byte) and the same statics. -/
theorem batch_progressive_agree (E : Env) (st : Statics) (k m p nerrs len : Nat)
    (enc : List u8) (frags : List (List u8)) (fel : List u8) (out : List (List u8))
    (t v : List u8) (rc : Int) (t' v' : List u8)
    (h : ValidRecovery E k m p nerrs len enc frags fel out)
    (hz : ∀ l, l < nerrs → ∀ b, b < len → byteAt (fragAt out l) b = 0)
    (hst : alloc_statics E m k st = ⟨false, some t, some v⟩) (ht : k * k ≤ t.length)
    (hinv : E.gf_invert_matrix (survivor_matrix enc (survivors fel nerrs m) k t) v k
      = .ok (rc, t', v'))
    (hrc : ¬ rc < 0) (hv : k * k ≤ v'.length) :
    ∃ res, recover_data E st k m p nerrs len enc frags fel out 0 = .ok res ∧
      recover_data E st k m p nerrs len enc frags fel out 1 = .ok res := by
  obtain ⟨g, srcs, _, _, hr⟩ := recover_data_run h st t v rc t' v' hst ht hinv hrc hv
  refine ⟨_, hr 0, ?_⟩
  rw [hr 1]
  simp only [ne_eq, one_ne_zero, not_false_eq_true, if_true, not_true_eq_false, if_false]
  congr 2
  apply map2d_congr
  intro l b hl _ hb _
  rw [hz l hl b hb, u8_zero_xor]

/-- Every row of the decode matrix, multiplied by the survivor matrix `T`, gives
the row of the encode matrix of the erased fragment, when `v' * T = 1` and the
encode matrix is systematic. -/
theorem decode_row_times_T (enc v' T : List u8) (k e : Nat)
    (hI : IsLeftInverse v' T k)
    (hsys : ∀ i, i < k → ∀ c, c < k → byteAt enc (k * i + c) = if i = c then 1 else 0)
    (c : Nat) (hc : c < k) :
    xor_sum (fun j => gf_mul (decode_entry enc v' k e j) (byteAt T (k * j + c))) k
      = byteAt enc (k * e + c) := by
  by_cases he : e < k
  · have e1 : ∀ j, j < k → gf_mul (decode_entry enc v' k e j) (byteAt T (k * j + c))
        = gf_mul (byteAt v' (k * e + j)) (byteAt T (k * j + c)) := by
      intro j _
      rw [decode_entry, if_pos he]
    rw [xor_sum_congr _ _ k e1, hI e he c hc, hsys e he c hc]
  · have e1 : ∀ j, j < k → gf_mul (decode_entry enc v' k e j) (byteAt T (k * j + c))
        = gf_mul (xor_sum (fun c' => gf_mul (byteAt v' (c' * k + j))
            (byteAt enc (k * e + c'))) k) (byteAt T (k * j + c)) := by
      intro j _
      rw [decode_entry, if_neg he]
    rw [xor_sum_congr _ _ k e1]
    exact row_times_inverse v' T k (fun j => byteAt enc (k * e + j)) hI c hc

/-- C1 (batch recovery is correct). On a valid call of `recover_data` with
`use_progressive = 0`, a systematic encode matrix, fragments that are the rows of
the encode matrix applied to the data blocks over GF(2^8), and an inversion
routine that succeeds with `invert_matrix * T = 1` on the survivor matrix `T`:
the call returns, and the first `len` bytes of output row `l` are the bytes of
the original fragment `frag_err_list[l]`, for every `l < nerrs`. -/
theorem batch_recovery_correct (E : Env) (st : Statics) (k m p nerrs len : Nat)
    (enc : List u8) (frags data : List (List u8)) (fel : List u8) (out : List (List u8))
    (t v : List u8) (rc : Int) (t' v' : List u8)
    (h : ValidRecovery E k m p nerrs len enc frags fel out)
    (hsys : ∀ i, i < k → ∀ c, c < k → byteAt enc (k * i + c) = if i = c then 1 else 0)
    (hfrag : ∀ i, i < m → ∀ b, b < len →
      byteAt (fragAt frags i) b = fragment_byte enc data k i b)
    (hst : alloc_statics E m k st = ⟨false, some t, some v⟩) (ht : k * k ≤ t.length)
    (hinv : E.gf_invert_matrix (survivor_matrix enc (survivors fel nerrs m) k t) v k
      = .ok (rc, t', v'))
    (hrc : ¬ rc < 0) (hv : k * k ≤ v'.length)
    (hI : IsLeftInverse v' (survivor_matrix enc (survivors fel nerrs m) k t) k) :
    ∃ res, recover_data E st k m p nerrs len enc frags fel out 0 = .ok res ∧
      ∀ l, l < nerrs → ∀ b, b < len →
        byteAt (fragAt res.1 l) b = byteAt (fragAt frags (byteAt fel l).val) b := by
  obtain ⟨g, srcs, hg, hsrcs, hr⟩ := recover_data_run h st t v rc t' v' hst ht hinv hrc hv
  refine ⟨_, hr 0, ?_⟩
  intro l hl b hb
  have hs := h.sized
  obtain ⟨_, _, _, h4, _, _⟩ := hs.scan
  have hem : (byteAt fel l).val < m :=
    h.in_range _ (mem_erased_of_lt fel l nerrs hl (by have := h.nerrs_le; omega))
  simp only [ne_eq, not_true_eq_false, if_false]
  rw [byteAt_map2d _ _ _ _ l b hl h.out_rows hb (h.out_size l hl), encoded_byte,
    hfrag _ hem b hb, fragment_byte]
  have e1 : ∀ j, j < k →
      gf_mul (byteAt (fragAt srcs j) b) (byteAt g (j * 32 + l * k * 32 + 1))
      = xor_sum (fun c => gf_mul (byteAt (fragAt data c) b)
          (gf_mul (decode_entry enc v' k (byteAt fel l).val j)
            (byteAt (survivor_matrix enc (survivors fel nerrs m) k t) (k * j + c)))) k := by
    intro j hj
    rw [hsrcs j hj, hg l j hl hj, hfrag _ (h4 j hj) b hb, fragment_byte, xor_sum_mul]
    apply xor_sum_congr
    intro c hc
    rw [byteAt_survivor_matrix enc _ k t j c hj hc ht,
      gf_mul_comm (byteAt enc _) (byteAt (fragAt data c) b), gf_mul_assoc,
      gf_mul_comm (byteAt enc _) (decode_entry enc v' k (byteAt fel l).val j)]
  rw [xor_sum_congr _ _ k e1, xor_sum_swap]
  apply xor_sum_congr
  intro c hc
  rw [← mul_xor_sum, decode_row_times_T enc v' _ k _ hI hsys c hc, gf_mul_comm]

theorem demo_recovery_5 :
    ValidRecovery demo_env 4 6 2 1 2 demo_encode_matrix demo_frags [5] demo_output :=
  ⟨by decide, by decide, by decide, by decide, by decide, by decide, by decide, by decide,
    by decide, by decide, by decide, by decide, by decide, by decide, by decide⟩

theorem demo_recovery_13 :
    ValidRecovery demo_env 4 6 2 2 2 demo_encode_matrix demo_frags [1, 3] demo_output :=
  ⟨by decide, by decide, by decide, by decide, by decide, by decide, by decide, by decide,
    by decide, by decide, by decide, by decide, by decide, by decide, by decide⟩

set_option maxRecDepth 100000 in
theorem demo_invert_5 :
    demo_env.gf_invert_matrix
      (survivor_matrix demo_encode_matrix (survivors [5] 1 6) 4 demo_zero24) demo_zero24 4
      = .ok (0, demo_reduced, demo_reduced) := by
  decide!

set_option maxRecDepth 100000 in
theorem demo_left_inverse_5 :
    IsLeftInverse demo_reduced
      (survivor_matrix demo_encode_matrix (survivors [5] 1 6) 4 demo_zero24) 4 := by
  decide!

set_option maxRecDepth 100000 in
theorem demo_frags_encoded :
    ∀ i, i < 6 → ∀ b, b < 2 →
      byteAt (fragAt demo_frags i) b = fragment_byte demo_encode_matrix demo_data 4 i b := by
  decide!

/-- Instance of C1: `k = 4`, `m = 6`, a single erasure at the parity index 5. -/
theorem batch_recovery_correct_witness :
    ∃ res, recover_data demo_env Statics.initial 4 6 2 1 2 demo_encode_matrix demo_frags [5]
        demo_output 0 = .ok res ∧
      ∀ l, l < 1 → ∀ b, b < 2 →
        byteAt (fragAt res.1 l) b = byteAt (fragAt demo_frags (byteAt [5] l).val) b :=
  batch_recovery_correct demo_env Statics.initial 4 6 2 1 2 demo_encode_matrix demo_frags
    demo_data [5] demo_output demo_zero24 demo_zero24 0 demo_reduced demo_reduced
    demo_recovery_5 (by decide) demo_frags_encoded demo_statics (by decide) demo_invert_5
    (by decide) (by decide) demo_left_inverse_5

/-- Instance of C2: `k = 4`, `m = 6`, the data fragments 1 and 3 erased. -/
theorem batch_progressive_agree_witness :
    ∃ res, recover_data demo_env Statics.initial 4 6 2 2 2 demo_encode_matrix demo_frags [1, 3]
        demo_output 0 = .ok res ∧
      recover_data demo_env Statics.initial 4 6 2 2 2 demo_encode_matrix demo_frags [1, 3]
        demo_output 1 = .ok res :=
  batch_progressive_agree demo_env Statics.initial 4 6 2 2 2 demo_encode_matrix demo_frags
    [1, 3] demo_output demo_zero24 demo_zero24 0 demo_reduced demo_inverse_0245
    demo_recovery_13 (by decide) demo_statics (by decide) demo_invert_13 (by decide) (by decide)

/-! ## The rejection sampler `generate_byte` -/

theorem byte_of_int_val (n : Nat) (h : n < 256) : (byte_of_int (n : Int)).val = n := by
  unfold byte_of_int
  have : ((n : Int) % 256).toNat = n := by omega
  rw [this]
  exact Nat.mod_eq_of_lt h

theorem nearest_multiple_eq (u : u8) :
    nearest_multiple u = (u.val + 1) * (256 / (u.val + 1)) := by
  unfold nearest_multiple
  have := Nat.div_add_mod 256 (u.val + 1)
  omega

theorem nearest_multiple_le (u : u8) : nearest_multiple u ≤ 256 := by
  unfold nearest_multiple
  omega

theorem nearest_multiple_ge (u : u8) : 129 ≤ nearest_multiple u := by
  unfold nearest_multiple
  have hu := u.isLt
  have h1 : 256 % (u.val + 1) < u.val + 1 := Nat.mod_lt _ (by omega)
  by_cases h : u.val + 1 ≤ 128
  · omega
  · have h2 : 256 % (u.val + 1) = 256 - (u.val + 1) := by
      rw [Nat.mod_eq_sub_mod (by omega)]
      exact Nat.mod_eq_of_lt (by omega)
    omega

theorem range_le_nearest_multiple (u : u8) : u.val + 1 ≤ nearest_multiple u := by
  rw [nearest_multiple_eq]
  have hu := u.isLt
  have : 1 ≤ 256 / (u.val + 1) := (Nat.one_le_div_iff (by omega)).mpr (by omega)
  calc u.val + 1 = (u.val + 1) * 1 := by omega
    _ ≤ (u.val + 1) * (256 / (u.val + 1)) := Nat.mul_le_mul_left _ this

theorem generate_byte_eq (u : u8) (stream : Entropy) :
    generate_byte u stream = generate_loop (u.val + 1) (nearest_multiple u) stream := by
  have hu := u.isLt
  have h2 := nearest_multiple_ge u
  unfold generate_byte c_assert
  unfold nearest_multiple at h2
  simp only [hu, decide_True, if_true, pure_bind, ge_iff_le]
  rw [if_pos (by simp; omega)]
  rfl

theorem generate_loop_first (range nm : Nat) (pre : List u8) (x : u8) (post : List u8)
    (hpre : ∀ y ∈ pre, nm ≤ y.val) (hx : x.val < nm) :
    generate_loop range nm (random_bytes (pre ++ x :: post)) =
      .ok (byte_of_int ((x.val % range : Nat) : Int), random_bytes post) := by
  induction pre with
  | nil =>
    simp only [random_bytes, List.nil_append, List.map_cons, generate_loop, c_assert,
      decide_True, if_true, pure_bind, hx]
    rfl
  | cons y pre ih =>
    have hy : ¬ y.val < nm := by have := hpre y (List.mem_cons_self _ _); omega
    have ih' := ih (fun z hz => hpre z (List.mem_cons_of_mem _ hz))
    simp only [random_bytes, List.cons_append, List.map_cons, generate_loop, c_assert,
      decide_True, if_true, pure_bind, hy, if_false]
    exact ih'

theorem generate_loop_le (range nm : Nat) (hr : 0 < range) (hr2 : range ≤ 256)
    (stream : Entropy) (v : u8) (rest : Entropy)
    (h : generate_loop range nm stream = .ok (v, rest)) : v.val < range := by
  induction stream with
  | nil => simp [generate_loop, throw, throwThe, MonadExceptOf.throw] at h
  | cons a stream ih =>
    obtain ⟨r, x⟩ := a
    simp only [generate_loop, c_assert] at h
    by_cases hr1 : r = 1
    · simp only [hr1, decide_True, if_true, pure_bind] at h
      by_cases hx : x.val < nm
      · rw [if_pos hx] at h
        have e : byte_of_int ((x.val % range : Nat) : Int) = v := by
          have := Except.ok.inj h
          exact (Prod.mk.inj this).1
        have hlt : x.val % range < range := Nat.mod_lt _ hr
        rw [← e, byte_of_int_val _ (by omega)]
        exact hlt
      · rw [if_neg hx] at h
        exact ih h
    · simp [hr1, throw, throwThe, MonadExceptOf.throw, bind, Except.bind] at h

theorem count_congr_lt (p q : Nat → Prop) [DecidablePred p] [DecidablePred q] (n : Nat)
    (h : ∀ x, x < n → (p x ↔ q x)) : Nat.count p n = Nat.count q n := by
  induction n with
  | zero => simp
  | succ n ih =>
    rw [Nat.count_succ, Nat.count_succ, ih (fun x hx => h x (by omega))]
    have := h n (by omega)
    by_cases hp : p n
    · rw [if_pos hp, if_pos (this.mp hp)]
    · rw [if_neg hp, if_neg (fun hq => hp (this.mpr hq))]

theorem count_below (q : Nat → Prop) [DecidablePred q] (c n : Nat) (h : c ≤ n) :
    Nat.count (fun x => x < c ∧ q x) n = Nat.count q c := by
  induction n with
  | zero =>
    have : c = 0 := by omega
    subst this
    simp
  | succ n ih =>
    by_cases hc : c = n + 1
    · subst hc
      exact count_congr_lt _ _ _ (fun x hx => ⟨fun hh => hh.2, fun hh => ⟨hx, hh⟩⟩)
    · rw [Nat.count_succ, ih (by omega)]
      have : ¬ (n < c ∧ q n) := by omega
      rw [if_neg this, Nat.add_zero]

theorem count_residue (r q v : Nat) (hv : v < r) :
    Nat.count (fun x => x % r = v) (r * q) = q := by
  have hr : 0 < r := by omega
  have h := Nat.count_modEq_card hr v (b := r * q)
  rw [Nat.mul_mod_right, Nat.mul_div_cancel_left _ hr] at h
  simp only [Nat.not_lt_zero, if_false, Nat.add_zero] at h
  refine Eq.trans ?_ h
  refine count_congr_lt (fun x => x % r = v) (fun x => x ≡ v [MOD r]) _ (fun x _ => ?_)
  unfold Nat.ModEq
  rw [Nat.mod_eq_of_lt hv]

theorem count_ge (c n : Nat) (h : c ≤ n) : Nat.count (fun x => c ≤ x) n = n - c := by
  induction n with
  | zero => simp
  | succ n ih =>
    rw [Nat.count_succ]
    by_cases hc : c = n + 1
    · subst hc
      have : Nat.count (fun x => n + 1 ≤ x) n = 0 :=
        Nat.count_iff_forall_not.mpr (fun m hm => by omega)
      rw [this, if_neg (by omega)]
      omega
    · rw [ih (by omega), if_pos (by omega)]
      omega

theorem generate_byte_single (u : u8) (x : Nat) (hx : x < 256) :
    generate_byte u (random_bytes [Fin.ofNat x]) =
      if x < nearest_multiple u then .ok (byte_of_int ((x % (u.val + 1) : Nat) : Int), [])
      else .error Stop.pending := by
  have hval : (Fin.ofNat x : u8).val = x := Nat.mod_eq_of_lt hx
  rw [generate_byte_eq]
  simp only [random_bytes, List.map_cons, List.map_nil, generate_loop, c_assert, decide_True,
    if_true, pure_bind, hval]
  by_cases h : x < nearest_multiple u
  · rw [if_pos h, if_pos h]; rfl
  · rw [if_neg h, if_neg h]; rfl

/-- C11 (range of `generate_byte`). For every upper bound `u` and every stream of
random bytes in which `x` is the first byte below
`nearest_multiple = 256 - 256 mod (u + 1)` (the bytes `pre` before it are all
rejected), `generate_byte u` returns `x mod (u + 1)` and leaves the bytes after
`x` unread; and on any outcomes of `getrandom` whatsoever a returned value is
never greater than `u`. -/
theorem generate_byte_first_accepted (u : u8) (pre : List u8) (x : u8) (post : List u8)
    (hpre : ∀ y ∈ pre, nearest_multiple u ≤ y.val) (hx : x.val < nearest_multiple u) :
    (∃ v : u8, generate_byte u (random_bytes (pre ++ x :: post)) = .ok (v, random_bytes post) ∧
      v.val = x.val % (u.val + 1)) ∧
    ∀ (stream : Entropy) (v : u8) (rest : Entropy),
      generate_byte u stream = .ok (v, rest) → v.val ≤ u.val := by
  have hu := u.isLt
  constructor
  · refine ⟨byte_of_int ((x.val % (u.val + 1) : Nat) : Int), ?_, ?_⟩
    · rw [generate_byte_eq]
      exact generate_loop_first _ _ pre x post hpre hx
    · have : x.val % (u.val + 1) < u.val + 1 := Nat.mod_lt _ (by omega)
      exact byte_of_int_val _ (by omega)
  · intro stream v rest h
    rw [generate_byte_eq] at h
    have := generate_loop_le (u.val + 1) _ (by omega) (by omega) stream v rest h
    omega

set_option maxRecDepth 100000 in
/-- Instance of C11: with `u = 2` the byte 255 is rejected (`nearest_multiple` is
255) and the byte 7 is returned as `7 mod 3 = 1`. -/
theorem generate_byte_first_accepted_witness :
    (∃ v : u8, generate_byte 2 (random_bytes ([255] ++ 7 :: [9])) = .ok (v, random_bytes [9]) ∧
      v.val = (7 : u8).val % ((2 : u8).val + 1)) ∧
    ∀ (stream : Entropy) (v : u8) (rest : Entropy),
      generate_byte 2 stream = .ok (v, rest) → v.val ≤ (2 : u8).val :=
  generate_byte_first_accepted 2 [255] 7 [9] (by decide) (by decide)

/-- C12 (no modulo bias). For every upper bound `u` and every value `v` in
`[0, u]`, the number of byte values `x` in `[0, 255]` on which `generate_byte u`
returns `v` (these are the `x` below `256 - 256 mod (u + 1)` with
`x mod (u + 1) = v`) is `floor(256 / (u + 1))`, the same for every `v`. -/
theorem generate_byte_unbiased (u v : u8) (hv : v.val ≤ u.val) :
    Nat.count (fun x => generate_byte u (random_bytes [Fin.ofNat x]) = .ok (v, [])) 256
        = 256 / (u.val + 1) ∧
    Nat.count (fun x => x < 256 - 256 % (u.val + 1) ∧ x % (u.val + 1) = v.val) 256
        = 256 / (u.val + 1) := by
  have hu := u.isLt
  have hcount : Nat.count (fun x => x < nearest_multiple u ∧ x % (u.val + 1) = v.val) 256
      = 256 / (u.val + 1) := by
    rw [count_below (fun x => x % (u.val + 1) = v.val) _ 256 (nearest_multiple_le u),
      nearest_multiple_eq]
    exact count_residue _ _ _ (by omega)
  refine ⟨?_, hcount⟩
  rw [← hcount]
  refine count_congr_lt _ _ _ (fun x hx => ?_)
  rw [generate_byte_single u x hx]
  have hm : x % (u.val + 1) < u.val + 1 := Nat.mod_lt _ (by omega)
  by_cases h : x < nearest_multiple u
  · rw [if_pos h]
    constructor
    · intro e
      have e1 : byte_of_int ((x % (u.val + 1) : Nat) : Int) = v :=
        (Prod.mk.inj (Except.ok.inj e)).1
      refine ⟨h, ?_⟩
      rw [← e1, byte_of_int_val _ (by omega)]
    · rintro ⟨_, e⟩
      have : byte_of_int ((x % (u.val + 1) : Nat) : Int) = v :=
        Fin.ext (by rw [byte_of_int_val _ (by omega)]; exact e)
      rw [this]
  · rw [if_neg h]
    constructor
    · intro e; cases e
    · rintro ⟨h', _⟩; exact absurd h' h

/-- Instance of C12: with `u = 2` each of the values 0, 1, 2 (here 2) is returned
on 85 of the 256 byte values. -/
theorem generate_byte_unbiased_witness :
    Nat.count (fun x => generate_byte 2 (random_bytes [Fin.ofNat x]) = .ok ((2 : u8), [])) 256
        = 256 / ((2 : u8).val + 1) ∧
    Nat.count (fun x => x < 256 - 256 % ((2 : u8).val + 1) ∧ x % ((2 : u8).val + 1)
        = (2 : u8).val) 256 = 256 / ((2 : u8).val + 1) :=
  generate_byte_unbiased 2 2 (by decide)

/-- C15 (the assertions of `generate_byte` hold and the rejection loop is
efficient). For every upper bound `u`: `u < 256` and `nearest_multiple >= 128`,
so that `generate_byte u` is never ended by an assertion on a stream of random
bytes; fewer than 128 of the 256 byte values are rejected (the rejected ones are
exactly the 256 mod (u + 1) values from `nearest_multiple` on); hence a draw is
accepted with probability above one half and the expected number of rounds
`256 / accepted` is below 2. -/
theorem generate_byte_asserts_hold (u : u8) :
    u.val < 256 ∧ 256 / 2 ≤ nearest_multiple u ∧
    (∀ bs : List u8, generate_byte u (random_bytes bs) ≠ .error Stop.aborted) ∧
    Nat.count (fun x => generate_byte u (random_bytes [Fin.ofNat x]) = .error Stop.pending) 256
      = 256 % (u.val + 1) ∧
    256 % (u.val + 1) < 128 ∧
    (1 : ℚ) / 2 < ((256 - 256 % (u.val + 1) : Nat) : ℚ) / 256 ∧
    (256 : ℚ) / ((256 - 256 % (u.val + 1) : Nat) : ℚ) < 2 := by
  have hu := u.isLt
  have hge := nearest_multiple_ge u
  have hle := nearest_multiple_le u
  have hnm : nearest_multiple u = 256 - 256 % (u.val + 1) := rfl
  refine ⟨hu, by omega, ?_, ?_, by omega, ?_, ?_⟩
  · intro bs
    rw [generate_byte_eq]
    induction bs with
    | nil => simp [random_bytes, generate_loop, throw, throwThe, MonadExceptOf.throw]
    | cons b bs ih =>
      simp only [random_bytes, List.map_cons, generate_loop, c_assert, decide_True, if_true,
        pure_bind]
      by_cases hb : b.val < nearest_multiple u
      · rw [if_pos hb]; simp [pure, Except.pure]
      · rw [if_neg hb]; exact ih
  · have e : Nat.count (fun x => nearest_multiple u ≤ x) 256 = 256 % (u.val + 1) := by
      rw [count_ge _ _ hle]; omega
    rw [← e]
    refine count_congr_lt _ _ _ (fun x hx => ?_)
    rw [generate_byte_single u x hx]
    by_cases h : x < nearest_multiple u
    · rw [if_pos h]
      constructor
      · intro e'; cases e'
      · intro h'; omega
    · rw [if_neg h]
      constructor
      · intro _; omega
      · intro _; rfl
  · rw [← hnm]
    rw [lt_div_iff₀ (by norm_num)]
    have : ((129 : Nat) : ℚ) ≤ (nearest_multiple u : ℚ) := by exact_mod_cast hge
    push_cast at this
    linarith
  · rw [← hnm]
    have h129 : ((129 : Nat) : ℚ) ≤ (nearest_multiple u : ℚ) := by exact_mod_cast hge
    push_cast at h129
    rw [div_lt_iff₀ (by linarith)]
    linarith

/-! ## The shuffle of `choose_without_replacement` -/

theorem byteAt_drop (l : List u8) (m t : Nat) : byteAt (l.drop m) t = byteAt l (m + t) := by
  simp [byteAt, List.getD, List.getElem?_drop]

theorem byteAt_take (l : List u8) (m t : Nat) (h : t < m) : byteAt (l.take m) t = byteAt l t := by
  simp [byteAt, List.getD, List.getElem?_take, h]

theorem swap_at_length (arr : List u8) (i j : Nat) : (swap_at arr i j).length = arr.length := by
  simp [swap_at]

theorem byteAt_swap_at (arr : List u8) (i j t : Nat) (hi : i < arr.length) (hj : j < arr.length) :
    byteAt (swap_at arr i j) t =
      if t = j then byteAt arr i else if t = i then byteAt arr j else byteAt arr t := by
  unfold swap_at
  rw [byteAt_set, byteAt_set, List.length_set]
  by_cases h1 : t = j
  · subst h1
    rw [if_pos ⟨rfl, hj⟩, if_pos rfl]
  · rw [if_neg (fun h => h1 h.1.symm), if_neg h1]
    by_cases h2 : t = i
    · subst h2
      rw [if_pos ⟨rfl, hi⟩, if_pos rfl]
    · rw [if_neg (fun h => h2 h.1.symm), if_neg h2]

theorem byteAt_eq_getElem (arr : List u8) (i : Nat) (h : i < arr.length) :
    byteAt arr i = arr[i] := by
  simp [byteAt, List.getD, List.getElem?_eq_getElem h]

theorem swap_at_perm (arr : List u8) (i j : Nat) (hi : i < arr.length) (hj : j < arr.length) :
    (swap_at arr i j).Perm arr := by
  rw [List.perm_iff_count]
  intro b
  unfold swap_at
  rw [List.count_set _ _ _ _ (by rw [List.length_set]; exact hj), List.count_set _ _ _ _ hi]
  have hgi : byteAt arr i = arr[i] := byteAt_eq_getElem arr i hi
  have hgj : byteAt arr j = arr[j] := byteAt_eq_getElem arr j hj
  have hpi : arr[i] = b → 0 < arr.count b := fun h =>
    List.count_pos_iff.mpr (h ▸ List.getElem_mem hi)
  have hpj : arr[j] = b → 0 < arr.count b := fun h =>
    List.count_pos_iff.mpr (h ▸ List.getElem_mem hj)
  rw [hgi, hgj]
  by_cases hij : i = j
  · subst hij
    simp only [List.getElem_set_self, beq_iff_eq]
    by_cases h : arr[i] = b
    · have := hpi h
      simp only [h, if_true]; omega
    · simp only [h, if_false]; omega
  · rw [List.getElem_set_ne hij]
    simp only [beq_iff_eq]
    by_cases h : arr[i] = b
    · have := hpi h
      by_cases h' : arr[j] = b
      · simp only [h, h', if_true]; omega
      · simp only [h, h', if_true, if_false]; omega
    · by_cases h' : arr[j] = b
      · have := hpj h'
        simp only [h, h', if_true, if_false]; omega
      · simp only [h, h', if_false]; omega

theorem shuffle_length (i : Nat) (arr : List u8) (draws : List Nat) :
    (shuffle i arr draws).length = arr.length := by
  induction draws generalizing i arr with
  | nil => rfl
  | cons r rs ih => rw [shuffle, ih, swap_at_length]

theorem shuffle_snoc (i : Nat) (arr : List u8) (ds : List Nat) (d : Nat) :
    shuffle i arr (ds ++ [d]) =
      swap_at (shuffle i arr ds) (i + ds.length) (i + ds.length + d) := by
  induction ds generalizing i arr with
  | nil => simp [shuffle]
  | cons r rs ih =>
    rw [List.cons_append, shuffle, shuffle, ih, List.length_cons]
    have : i + 1 + rs.length = i + (rs.length + 1) := by omega
    rw [this]

theorem InRange.tail {m i r : Nat} {rs : List Nat} (h : InRange m i (r :: rs)) :
    InRange m (i + 1) rs := by
  intro j hj
  have := h (j + 1) (by simp; omega)
  simp only [idxAt, List.getD_cons_succ] at this ⊢
  omega

theorem InRange.head {m i r : Nat} {rs : List Nat} (h : InRange m i (r :: rs)) : i + r < m := by
  have := h 0 (by simp)
  simpa [idxAt] using this

theorem shuffle_perm (m i : Nat) (arr : List u8) (draws : List Nat) (hm : m ≤ arr.length)
    (hr : InRange m i draws) : (shuffle i arr draws).Perm arr := by
  induction draws generalizing i arr with
  | nil => exact List.Perm.refl _
  | cons r rs ih =>
    have h0 := hr.head
    rw [shuffle]
    exact (ih (i + 1) _ (by rw [swap_at_length]; exact hm) hr.tail).trans
      (swap_at_perm arr i (i + r) (by omega) (by omega))

theorem shuffle_outside (m i : Nat) (arr : List u8) (draws : List Nat) (hm : m ≤ arr.length)
    (hr : InRange m i draws) (t : Nat) (ht : t < i ∨ m ≤ t) :
    byteAt (shuffle i arr draws) t = byteAt arr t := by
  induction draws generalizing i arr with
  | nil => rfl
  | cons r rs ih =>
    have h0 := hr.head
    rw [shuffle, ih (i + 1) _ (by rw [swap_at_length]; exact hm) hr.tail (by omega),
      byteAt_swap_at arr i (i + r) t (by omega) (by omega), if_neg (by omega), if_neg (by omega)]

/-! ## Running `choose_without_replacement` -/

theorem byte_of_int_nat (n : Nat) : (byte_of_int (n : Int)).val = n % 256 := by
  unfold byte_of_int
  have : ((n : Int) % 256).toNat = n % 256 := by omega
  rw [this]
  exact Nat.mod_eq_of_lt (Nat.mod_lt _ (by omega))

/-- The bound passed to `generate_byte` in round `i`: `m - 1 - i` as a byte. -/
theorem draw_bound_val (m i : Nat) (hi : i < m) :
    (byte_of_int ((m : Int) - 1 - (i : Int))).val = (m - 1 - i) % 256 := by
  have : (m : Int) - 1 - (i : Int) = ((m - 1 - i : Nat) : Int) := by omega
  rw [this, byte_of_int_nat]

theorem generate_loop_bytes (range nm : Nat) (hr : 0 < range) (hr2 : range ≤ 256)
    (bs : List u8) :
    generate_loop range nm (random_bytes bs) = .error Stop.pending ∨
    ∃ v bs', generate_loop range nm (random_bytes bs) = .ok (v, random_bytes bs') ∧
      v.val < range := by
  induction bs with
  | nil => left; rfl
  | cons b bs ih =>
    simp only [random_bytes, List.map_cons, generate_loop, c_assert, decide_True, if_true,
      pure_bind]
    by_cases hb : b.val < nm
    · rw [if_pos hb]
      right
      refine ⟨_, bs, rfl, ?_⟩
      have hlt : b.val % range < range := Nat.mod_lt _ hr
      rw [byte_of_int_val _ (by omega)]
      exact hlt
    · rw [if_neg hb]
      exact ih

theorem swap_steps (arr : List u8) (i j : Nat) (hi : i < arr.length) (hj : j < arr.length)
    (stream : Entropy) :
    (do
      let ith_element ← rd arr i
      let picked ← rd arr j
      let out ← wr arr i picked
      let out ← wr out j ith_element
      (pure (out, stream) : Run (List u8 × Entropy))) = .ok (swap_at arr i j, stream) := by
  rw [rd_ok_byteAt hi, ok_bind, rd_ok_byteAt hj, ok_bind, wr_ok hi, ok_bind,
    wr_ok (by rw [List.length_set]; exact hj), ok_bind]
  rfl

theorem choose_body_bytes (m i : Nat) (arr : List u8) (bs : List u8) (hi : i < m)
    (hm : m ≤ arr.length) :
    choose_body m i (arr, random_bytes bs) = .error Stop.pending ∨
    ∃ r bs', i + r < m ∧
      choose_body m i (arr, random_bytes bs) = .ok (swap_at arr i (i + r), random_bytes bs') := by
  have hb := draw_bound_val m i hi
  have hle : (m - 1 - i) % 256 ≤ m - 1 - i := Nat.mod_le _ _
  have hlt : (m - 1 - i) % 256 < 256 := Nat.mod_lt _ (by omega)
  unfold choose_body
  simp only
  rw [generate_byte_eq]
  rcases generate_loop_bytes ((byte_of_int ((m : Int) - 1 - (i : Int))).val + 1)
      (nearest_multiple (byte_of_int ((m : Int) - 1 - (i : Int)))) (by omega) (by omega) bs with
    h | ⟨v, bs', h, hv⟩
  · left
    rw [h]; rfl
  · right
    refine ⟨v.val, bs', by omega, ?_⟩
    rw [h, ok_bind]
    exact swap_steps arr i (i + v.val) (by omega) (by omega) _

theorem draw_stream_cons (r : Nat) (rs : List Nat) :
    draw_stream (r :: rs) = ((1 : Int), (Fin.ofNat r : u8)) :: draw_stream rs := rfl

theorem draw_stream_append (ds es : List Nat) :
    draw_stream (ds ++ es) = draw_stream ds ++ draw_stream es := by
  simp [draw_stream, random_bytes]

theorem choose_body_draw (m i r : Nat) (arr : List u8) (rest : Entropy) (hr : i + r < m)
    (hm : m ≤ arr.length) (h256 : m ≤ 256) :
    choose_body m i (arr, ((1 : Int), (Fin.ofNat r : u8)) :: rest)
      = .ok (swap_at arr i (i + r), rest) := by
  have hb := draw_bound_val m i (by omega)
  rw [Nat.mod_eq_of_lt (by omega)] at hb
  have hval : (Fin.ofNat r : u8).val = r := Nat.mod_eq_of_lt (by omega)
  have hnm := range_le_nearest_multiple (byte_of_int ((m : Int) - 1 - (i : Int)))
  unfold choose_body
  simp only
  rw [generate_byte_eq]
  simp only [generate_loop, c_assert, decide_True, if_true, pure_bind, hval]
  rw [if_pos (by omega), hb, Nat.mod_eq_of_lt (by omega)]
  have hv : (byte_of_int ((r : Nat) : Int)).val = r := byte_of_int_val r (by omega)
  show (Except.ok (byte_of_int ((r : Nat) : Int), rest) : Run (u8 × Entropy)) >>= _ = _
  rw [ok_bind]
  simp only [hv]
  exact swap_steps arr i (i + r) (by omega) (by omega) _

theorem InRange.snoc {m : Nat} {ds : List Nat} {d : Nat} (h : InRange m 0 ds)
    (hd : ds.length + d < m) : InRange m 0 (ds ++ [d]) := by
  intro j hj
  simp only [List.length_append, List.length_singleton] at hj
  by_cases hjl : j < ds.length
  · have := h j hjl
    rw [idxAt_append_left _ _ _ hjl]
    exact this
  · have e : j = ds.length := by omega
    subst e
    have : idxAt (ds ++ [d]) ds.length = d := by
      simp [idxAt, List.getD]
    rw [this]; omega

theorem InRange.init {m : Nat} {ds : List Nat} {d : Nat} (h : InRange m 0 (ds ++ [d])) :
    InRange m 0 ds ∧ ds.length + d < m := by
  constructor
  · intro j hj
    have := h j (by simp; omega)
    rw [idxAt_append_left _ _ _ hj] at this
    exact this
  · have := h ds.length (by simp)
    have e : idxAt (ds ++ [d]) ds.length = d := by
      simp [idxAt, List.getD]
    rw [e] at this; omega

theorem choose_loop_bytes (m n : Nat) (arr : List u8) (bs : List u8) (hn : n ≤ m)
    (hm : m ≤ arr.length) :
    forLoop (choose_body m) n (arr, random_bytes bs) = .error Stop.pending ∨
    ∃ draws bs', draws.length = n ∧ InRange m 0 draws ∧
      forLoop (choose_body m) n (arr, random_bytes bs)
        = .ok (shuffle 0 arr draws, random_bytes bs') := by
  induction n with
  | zero =>
    right
    exact ⟨[], bs, rfl, fun j hj => by simp at hj, rfl⟩
  | succ n ih =>
    rw [forLoop_succ]
    rcases ih (by omega) with h | ⟨ds, bs', hl, hr, h⟩
    · left; rw [h]; rfl
    · rw [h, ok_bind]
      rcases choose_body_bytes m n (shuffle 0 arr ds) bs' (by omega)
          (by rw [shuffle_length]; exact hm) with h2 | ⟨r, bs2, hr2, h2⟩
      · left; exact h2
      · right
        refine ⟨ds ++ [r], bs2, by simp [hl], hr.snoc (by omega), ?_⟩
        rw [h2, shuffle_snoc, hl, Nat.zero_add]

theorem choose_loop_draws (m : Nat) (arr : List u8) (ds : List Nat) (rest : Entropy)
    (hr : InRange m 0 ds) (hn : ds.length ≤ m) (hm : m ≤ arr.length) (h256 : m ≤ 256) :
    forLoop (choose_body m) ds.length (arr, draw_stream ds ++ rest)
      = .ok (shuffle 0 arr ds, rest) := by
  induction ds using List.reverseRecOn generalizing rest with
  | nil => rfl
  | append_singleton ds d ih =>
    obtain ⟨h1, h2⟩ := hr.init
    simp only [List.length_append, List.length_singleton] at hn ⊢
    rw [forLoop_succ, draw_stream_append, List.append_assoc, ih _ h1 (by omega), ok_bind,
      draw_stream_cons]
    show choose_body m ds.length (shuffle 0 arr ds,
      ((1 : Int), (Fin.ofNat d : u8)) :: (draw_stream [] ++ rest)) = _
    rw [choose_body_draw m ds.length d _ _ h2 (by rw [shuffle_length]; exact hm) h256,
      shuffle_snoc, Nat.zero_add]
    rfl

theorem memcpy_whole (dst src : List u8) (n : Nat) (hs : src.length = n) (hd : dst.length = n) :
    memcpy dst src n = .ok src := by
  unfold memcpy
  rw [if_pos ⟨by omega, by omega⟩]
  have h1 : src.take n = src := List.take_of_length_le (by omega)
  have h2 : dst.drop n = [] := List.drop_of_length_le (by omega)
  rw [h1, h2, List.append_nil]
  rfl

theorem choose_eq_loop (inp out0 : List u8) (len m e : Nat) (stream : Entropy)
    (hin : inp.length = len) (hout : out0.length = len) (he : e ≤ len) (h256 : e < 256) :
    choose_without_replacement inp out0 len len m e stream
      = forLoop (choose_body m) e (inp, stream) := by
  unfold choose_without_replacement c_assert
  simp only [decide_True, if_true, pure_bind, he, h256]
  rw [memcpy_whole out0 inp len hin hout, ok_bind]

/-! ### Enough random bytes: every byte below 129 is accepted in every round -/

theorem generate_loop_enough (range nm : Nat) (hr : 0 < range) (hr2 : range ≤ 256)
    (hnm : 129 ≤ nm) (bs : List u8) (hc : 1 ≤ bs.countP (fun b => decide (b.val < 129))) :
    ∃ v bs', generate_loop range nm (random_bytes bs) = .ok (v, random_bytes bs') ∧
      v.val < range ∧
      bs.countP (fun b => decide (b.val < 129))
        ≤ bs'.countP (fun b => decide (b.val < 129)) + 1 := by
  induction bs with
  | nil => simp at hc
  | cons b bs ih =>
    simp only [random_bytes, List.map_cons, generate_loop, c_assert, decide_True, if_true,
      pure_bind]
    by_cases hb : b.val < nm
    · rw [if_pos hb]
      refine ⟨_, bs, rfl, ?_, ?_⟩
      · have hlt : b.val % range < range := Nat.mod_lt _ hr
        rw [byte_of_int_val _ (by omega)]
        exact hlt
      · rw [List.countP_cons]
        split <;> omega
    · rw [if_neg hb]
      have hsmall : ¬ b.val < 129 := by omega
      rw [List.countP_cons_of_neg _ _ (by simpa using hsmall)] at hc ⊢
      obtain ⟨v, bs', h1, h2, h3⟩ := ih hc
      exact ⟨v, bs', h1, h2, h3⟩

theorem choose_body_enough (m i : Nat) (arr : List u8) (bs : List u8) (hi : i < m)
    (hm : m ≤ arr.length) (hc : 1 ≤ bs.countP (fun b => decide (b.val < 129))) :
    ∃ r bs', i + r < m ∧
      choose_body m i (arr, random_bytes bs) = .ok (swap_at arr i (i + r), random_bytes bs') ∧
      bs.countP (fun b => decide (b.val < 129))
        ≤ bs'.countP (fun b => decide (b.val < 129)) + 1 := by
  have hb := draw_bound_val m i hi
  have hle : (m - 1 - i) % 256 ≤ m - 1 - i := Nat.mod_le _ _
  have hlt : (m - 1 - i) % 256 < 256 := Nat.mod_lt _ (by omega)
  obtain ⟨v, bs', h, hv, hcount⟩ := generate_loop_enough
    ((byte_of_int ((m : Int) - 1 - (i : Int))).val + 1)
    (nearest_multiple (byte_of_int ((m : Int) - 1 - (i : Int)))) (by omega) (by omega)
    (nearest_multiple_ge _) bs hc
  refine ⟨v.val, bs', by omega, ?_, hcount⟩
  unfold choose_body
  simp only
  rw [generate_byte_eq, h, ok_bind]
  exact swap_steps arr i (i + v.val) (by omega) (by omega) _

/-- With at least `n` bytes below 129 in the stream the `n` rounds all find their accepted
byte: the loop returns. -/
theorem choose_loop_enough (m n : Nat) (arr : List u8) (bs : List u8) (hn : n ≤ m)
    (hm : m ≤ arr.length) (hc : n ≤ bs.countP (fun b => decide (b.val < 129))) :
    ∃ draws bs', draws.length = n ∧ InRange m 0 draws ∧
      forLoop (choose_body m) n (arr, random_bytes bs)
        = .ok (shuffle 0 arr draws, random_bytes bs') ∧
      bs.countP (fun b => decide (b.val < 129))
        ≤ bs'.countP (fun b => decide (b.val < 129)) + n := by
  induction n with
  | zero => exact ⟨[], bs, rfl, fun j hj => by simp at hj, rfl, Nat.le_refl _⟩
  | succ n ih =>
    obtain ⟨ds, bs', hl, hr, h, hcount⟩ := ih (by omega) (by omega)
    obtain ⟨r, bs2, hr2, h2, hcount2⟩ := choose_body_enough m n (shuffle 0 arr ds) bs'
      (by omega) (by rw [shuffle_length]; exact hm) (by omega)
    refine ⟨ds ++ [r], bs2, by simp [hl], hr.snoc (by omega), ?_, by omega⟩
    rw [forLoop_succ, h, ok_bind, h2, shuffle_snoc, hl, Nat.zero_add]

/-! ## Draw sequences and ordered selections -/

theorem getElem?_eq_some_byteAt (l : List u8) (t : Nat) (h : t < l.length) :
    l[t]? = some (byteAt l t) := by
  rw [List.getElem?_eq_getElem h, byteAt_eq_getElem l t h]

theorem window_length (arr : List u8) (m i : Nat) (hm : m ≤ arr.length) :
    ((arr.take m).drop i).length = m - i := by
  rw [List.length_drop, List.length_take]; omega

theorem byteAt_window (arr : List u8) (m i t : Nat) (h : i + t < m) :
    byteAt ((arr.take m).drop i) t = byteAt arr (i + t) := by
  rw [byteAt_drop, byteAt_take _ _ _ h]

theorem window_nodup_iff (arr : List u8) (m i : Nat) (hm : m ≤ arr.length) :
    ((arr.take m).drop i).Nodup ↔
      ∀ s t, i ≤ s → s < t → t < m → byteAt arr s ≠ byteAt arr t := by
  have hl := window_length arr m i hm
  rw [List.nodup_iff_getElem?_ne_getElem?]
  constructor
  · intro h s t his hst htm heq
    have := h (s - i) (t - i) (by omega) (by omega)
    rw [getElem?_eq_some_byteAt _ _ (by omega), getElem?_eq_some_byteAt _ _ (by omega),
      byteAt_window _ _ _ _ (by omega), byteAt_window _ _ _ _ (by omega)] at this
    apply this
    have e1 : i + (s - i) = s := by omega
    have e2 : i + (t - i) = t := by omega
    rw [e1, e2, heq]
  · intro h a b hab hb heq
    rw [getElem?_eq_some_byteAt _ _ (by omega), getElem?_eq_some_byteAt _ _ (by omega),
      byteAt_window _ _ _ _ (by omega), byteAt_window _ _ _ _ (by omega)] at heq
    exact h (i + a) (i + b) (by omega) (by omega) (by omega) (Option.some.inj heq)

theorem window_mem_iff (arr : List u8) (m i : Nat) (hm : m ≤ arr.length) (y : u8) :
    y ∈ (arr.take m).drop i ↔ ∃ s, i ≤ s ∧ s < m ∧ byteAt arr s = y := by
  have hl := window_length arr m i hm
  rw [List.mem_iff_getElem?]
  constructor
  · rintro ⟨n, hn⟩
    have hlt : n < ((arr.take m).drop i).length := by
      by_contra hc
      rw [List.getElem?_eq_none (by omega)] at hn
      cases hn
    rw [getElem?_eq_some_byteAt _ _ hlt, byteAt_window _ _ _ _ (by omega)] at hn
    exact ⟨i + n, by omega, by omega, Option.some.inj hn⟩
  · rintro ⟨s, h1, h2, h3⟩
    refine ⟨s - i, ?_⟩
    rw [getElem?_eq_some_byteAt _ _ (by omega), byteAt_window _ _ _ _ (by omega)]
    have : i + (s - i) = s := by omega
    rw [this, h3]

theorem window_ne (arr : List u8) (m i : Nat) (hm : m ≤ arr.length)
    (hd : ((arr.take m).drop i).Nodup) (s t : Nat) (hs : i ≤ s) (ht : i ≤ t) (hsm : s < m)
    (htm : t < m) (hne : s ≠ t) : byteAt arr s ≠ byteAt arr t := by
  have h := (window_nodup_iff arr m i hm).mp hd
  rcases Nat.lt_or_gt_of_ne hne with h1 | h1
  · exact h s t hs h1 htm
  · exact fun e => h t s ht h1 hsm e.symm

/-- After the swap of round `i` the positions `i + 1, ..., m - 1` still hold distinct
entries. -/
theorem window_nodup_swap (arr : List u8) (m i r : Nat) (hm : m ≤ arr.length) (hr : i + r < m)
    (hd : ((arr.take m).drop i).Nodup) :
    (((swap_at arr i (i + r)).take m).drop (i + 1)).Nodup := by
  rw [window_nodup_iff _ _ _ (by rw [swap_at_length]; exact hm)]
  intro s t hs hst htm
  rw [byteAt_swap_at arr i (i + r) s (by omega) (by omega),
    byteAt_swap_at arr i (i + r) t (by omega) (by omega)]
  rw [if_neg (show ¬ s = i by omega), if_neg (show ¬ t = i by omega)]
  by_cases h1 : s = i + r
  · rw [if_pos h1, if_neg (show ¬ t = i + r by omega)]
    exact window_ne arr m i hm hd i t (by omega) (by omega) (by omega) htm (by omega)
  · rw [if_neg h1]
    by_cases h2 : t = i + r
    · rw [if_pos h2]
      exact window_ne arr m i hm hd s i (by omega) (by omega) (by omega) (by omega) (by omega)
    · rw [if_neg h2]
      exact window_ne arr m i hm hd s t (by omega) (by omega) (by omega) htm (by omega)

/-- After the swap of round `i` the positions `i + 1, ..., m - 1` hold the entries of the
positions `i, ..., m - 1` other than the one picked. -/
theorem window_mem_swap (arr : List u8) (m i r : Nat) (hm : m ≤ arr.length) (hr : i + r < m)
    (y : u8) (hy : y ∈ (arr.take m).drop i) (hne : y ≠ byteAt arr (i + r)) :
    y ∈ ((swap_at arr i (i + r)).take m).drop (i + 1) := by
  rw [window_mem_iff _ _ _ hm] at hy
  rw [window_mem_iff _ _ _ (by rw [swap_at_length]; exact hm)]
  obtain ⟨s, h1, h2, h3⟩ := hy
  have hsr : s ≠ i + r := fun e => hne (by rw [← h3, e])
  by_cases hs : s = i
  · refine ⟨i + r, by omega, hr, ?_⟩
    rw [byteAt_swap_at arr i (i + r) (i + r) (by omega) (by omega), if_pos rfl, ← hs, h3]
  · refine ⟨s, by omega, h2, ?_⟩
    rw [byteAt_swap_at arr i (i + r) s (by omega) (by omega), if_neg hsr, if_neg hs, h3]

theorem segment_cons (out : List u8) (i n : Nat) (h : i < out.length) :
    (out.drop i).take (n + 1) = byteAt out i :: (out.drop (i + 1)).take n := by
  rw [List.drop_eq_getElem_cons h, List.take_succ_cons, byteAt_eq_getElem out i h]

theorem shuffle_head (m i r : Nat) (arr : List u8) (rs : List Nat) (hm : m ≤ arr.length)
    (hr : InRange m i (r :: rs)) :
    byteAt (shuffle i arr (r :: rs)) i = byteAt arr (i + r) := by
  have h0 := hr.head
  rw [shuffle, shuffle_outside m (i + 1) _ rs (by rw [swap_at_length]; exact hm) hr.tail i
    (by omega), byteAt_swap_at arr i (i + r) i (by omega) (by omega)]
  by_cases h : i = i + r
  · rw [if_pos h, ← h]
  · rw [if_neg h, if_pos rfl]

theorem draw_offset_eq (arr : List u8) (m i r : Nat) (hm : m ≤ arr.length) (hr : i + r < m)
    (hd : ((arr.take m).drop i).Nodup) : draw_offset m i arr (byteAt arr (i + r)) = r := by
  have hl := window_length arr m i hm
  have hlt : r < ((arr.take m).drop i).length := by omega
  have e : byteAt arr (i + r) = ((arr.take m).drop i)[r] := by
    rw [← byteAt_eq_getElem _ r hlt, byteAt_window _ _ _ _ hr]
  unfold draw_offset
  rw [e]
  exact List.indexOf_getElem hd r hlt

theorem draw_offset_spec (arr : List u8) (m i : Nat) (hm : m ≤ arr.length) (x : u8)
    (hx : x ∈ (arr.take m).drop i) :
    i + draw_offset m i arr x < m ∧ byteAt arr (i + draw_offset m i arr x) = x := by
  have hl := window_length arr m i hm
  have hlt : draw_offset m i arr x < ((arr.take m).drop i).length :=
    List.indexOf_lt_length.mpr hx
  have hm' : i + draw_offset m i arr x < m := by omega
  refine ⟨hm', ?_⟩
  rw [← byteAt_window arr m i _ hm', byteAt_eq_getElem _ _ hlt]
  exact List.getElem_indexOf hlt

/-- Reading the draws back from the picks: `draws_for` inverts the shuffle on draws within
their ranges. -/
theorem draws_for_picks (m : Nat) (ds : List Nat) (i : Nat) (arr : List u8)
    (hr : InRange m i ds) (hm : m ≤ arr.length) (hd : ((arr.take m).drop i).Nodup) :
    draws_for m i arr (((shuffle i arr ds).drop i).take ds.length) = ds := by
  induction ds generalizing i arr with
  | nil => rfl
  | cons r rs ih =>
    have h0 := hr.head
    rw [List.length_cons, segment_cons _ _ _ (by rw [shuffle_length]; omega),
      shuffle_head m i r arr rs hm hr, draws_for, draw_offset_eq arr m i r hm h0 hd]
    congr 1
    exact ih (i + 1) _ hr.tail (by rw [swap_at_length]; exact hm)
      (window_nodup_swap arr m i r hm h0 hd)

theorem InRange.cons {m i r : Nat} {rs : List Nat} (h0 : i + r < m)
    (h : InRange m (i + 1) rs) : InRange m i (r :: rs) := by
  intro j hj
  cases j with
  | zero => simpa [idxAt] using h0
  | succ j =>
    have := h j (by simpa using hj)
    simp only [idxAt, List.getD_cons_succ] at this ⊢
    omega

/-- The draws computed by `draws_for` are within their ranges and make the shuffle produce
the wanted selection. -/
theorem picks_draws_for (m : Nat) (l : List u8) (i : Nat) (arr : List u8) (hl : l.Nodup)
    (hsub : ∀ x ∈ l, x ∈ (arr.take m).drop i) (hm : m ≤ arr.length)
    (hd : ((arr.take m).drop i).Nodup) :
    InRange m i (draws_for m i arr l) ∧ (draws_for m i arr l).length = l.length ∧
    ((shuffle i arr (draws_for m i arr l)).drop i).take l.length = l := by
  induction l generalizing i arr with
  | nil => exact ⟨fun j hj => by simp [draws_for] at hj, rfl, rfl⟩
  | cons x l ih =>
    obtain ⟨h0, hx⟩ := draw_offset_spec arr m i hm x (hsub x (List.mem_cons_self _ _))
    have hnd := List.nodup_cons.mp hl
    have hsub' : ∀ y ∈ l, y ∈ ((swap_at arr i (i + draw_offset m i arr x)).take m).drop (i + 1) := by
      intro y hy
      refine window_mem_swap arr m i _ hm h0 y (hsub y (List.mem_cons_of_mem _ hy)) ?_
      rw [hx]
      exact fun e => hnd.1 (e ▸ hy)
    obtain ⟨ih1, ih2, ih3⟩ := ih (i + 1) _ hnd.2 hsub' (by rw [swap_at_length]; exact hm)
      (window_nodup_swap arr m i _ hm h0 hd)
    have hrange : InRange m i (draws_for m i arr (x :: l)) := by
      rw [draws_for]; exact InRange.cons h0 ih1
    refine ⟨hrange, by rw [draws_for, List.length_cons, ih2, List.length_cons], ?_⟩
    rw [List.length_cons, segment_cons _ _ _ (by rw [shuffle_length]; omega)]
    have hh : byteAt (shuffle i arr (draws_for m i arr (x :: l))) i = x := by
      have := shuffle_head m i (draw_offset m i arr x) arr _ hm (by rw [draws_for] at hrange; exact hrange)
      rw [draws_for, this, hx]
    rw [hh]
    exact congrArg (List.cons x) ih3

theorem shuffle_drop (m : Nat) (arr : List u8) (draws : List Nat) (hm : m ≤ arr.length)
    (hr : InRange m 0 draws) : (shuffle 0 arr draws).drop m = arr.drop m := by
  apply list_ext_byteAt
  · simp [shuffle_length]
  · intro t _
    rw [byteAt_drop, byteAt_drop, shuffle_outside m 0 arr draws hm hr (m + t) (by omega)]

theorem shuffle_take_perm (m : Nat) (arr : List u8) (draws : List Nat) (hm : m ≤ arr.length)
    (hr : InRange m 0 draws) : ((shuffle 0 arr draws).take m).Perm (arr.take m) := by
  have hp : ((shuffle 0 arr draws).take m ++ (shuffle 0 arr draws).drop m).Perm
      (arr.take m ++ arr.drop m) := by
    rw [List.take_append_drop, List.take_append_drop]
    exact shuffle_perm m 0 arr draws hm hr
  rw [shuffle_drop m arr draws hm hr] at hp
  exact (List.perm_append_right_iff (arr.drop m)).mp hp

theorem take_take_le (l : List u8) (e m : Nat) (h : e ≤ m) : (l.take m).take e = l.take e := by
  rw [List.take_take, Nat.min_eq_left h]

/-- The picks of a shuffle with draws within their ranges: distinct entries of the first `m`
positions of the input. -/
theorem shuffle_picks (m e : Nat) (arr : List u8) (draws : List Nat) (he : e ≤ m)
    (hm : m ≤ arr.length) (hr : InRange m 0 draws) (hd : (arr.take m).Nodup) :
    ((shuffle 0 arr draws).take e).Nodup ∧
    (∀ x ∈ (shuffle 0 arr draws).take e, x ∈ arr.take m) ∧
    ((shuffle 0 arr draws).take e).length = e := by
  have hp := shuffle_take_perm m arr draws hm hr
  have hsub : ((shuffle 0 arr draws).take e).Sublist ((shuffle 0 arr draws).take m) := by
    rw [← take_take_le _ e m he]
    exact List.take_sublist _ _
  refine ⟨(hp.nodup_iff.mpr hd).sublist hsub, fun x hx => hp.mem_iff.mp (hsub.subset hx), ?_⟩
  rw [List.length_take, shuffle_length]
  omega

theorem shard_numbers_length (len : Nat) : (shard_numbers len).length = len := by
  unfold shard_numbers
  rw [List.length_map, List.length_range]

theorem mem_shard_numbers_take (len m : Nat) (x : u8) (h : x ∈ (shard_numbers len).take m) :
    x.val < m := by
  rw [List.mem_take_iff_getElem] at h
  obtain ⟨i, hi, hx⟩ := h
  have hl := shard_numbers_length len
  have hi' : i < m := by omega
  have hlen : i < len := by omega
  rw [← byteAt_eq_getElem _ i (by omega)] at hx
  unfold shard_numbers at hx
  rw [byteAt_map_range len _ i hlen] at hx
  rw [← hx, byte_of_int_nat]
  exact Nat.lt_of_le_of_lt (Nat.mod_le _ _) hi'

set_option maxRecDepth 100000 in
/-- C13, counterexample: `elements_to_pick = m = input_array_length = 256` with the
256 pairwise distinct input entries 0, ..., 255. The call is within the stated
bounds (`elements_to_pick <= m <= input_array_length`, `m <= 256`), but the
function asserts `elements_to_pick < 256`: on every random stream it is ended by
the assertion and there are no output entries. -/
theorem pick_256_aborts :
    ((shard_numbers 256).take 256).Nodup ∧ (shard_numbers 256).length = 256 ∧
    ∀ (out0 : List u8) (stream : Entropy),
      choose_without_replacement (shard_numbers 256) out0 256 256 256 256 stream
        = .error Stop.aborted := by
  refine ⟨by decide!, by decide!, fun out0 stream => ?_⟩
  unfold choose_without_replacement c_assert
  simp only [decide_True, if_true, pure_bind]
  rfl

/-- C13, amended (distinct picks): for every input array whose first `m` entries
are pairwise distinct, every `elements_to_pick <= m <= input_array_length` with
`elements_to_pick < 256` (which the function asserts), and every stream of random
bytes, `choose_without_replacement` either is still drawing when the supplied
bytes end, or returns; the first `elements_to_pick` entries of the returned
output array are then pairwise distinct and each of them is one of
`input_array[0..m-1]`; with the identity input `shard_numbers` of `test_random`
every chosen entry is an index below `m`. It does return when the stream holds
at least `elements_to_pick` bytes below 129, which no round rejects. -/
theorem chosen_entries_distinct (inp out0 : List u8) (len m e : Nat) (bs : List u8)
    (hin : inp.length = len) (hout : out0.length = len) (he : e ≤ m) (hm : m ≤ len)
    (h256 : e < 256) (hd : (inp.take m).Nodup) :
    (choose_without_replacement inp out0 len len m e (random_bytes bs) = .error Stop.pending ∨
      ∃ out bs', choose_without_replacement inp out0 len len m e (random_bytes bs)
          = .ok (out, random_bytes bs') ∧
        (out.take e).length = e ∧ (out.take e).Nodup ∧ (∀ x ∈ out.take e, x ∈ inp.take m) ∧
        (inp = shard_numbers len → ∀ x ∈ out.take e, x.val < m)) ∧
    (e ≤ bs.countP (fun b => decide (b.val < 129)) →
      ∃ out bs', choose_without_replacement inp out0 len len m e (random_bytes bs)
        = .ok (out, random_bytes bs')) := by
  rw [choose_eq_loop inp out0 len m e _ hin hout (by omega) h256]
  constructor
  · rcases choose_loop_bytes m e inp bs he (by omega) with h | ⟨ds, bs', _, hr, h⟩
    · left; exact h
    · right
      obtain ⟨h1, h2, h3⟩ := shuffle_picks m e inp ds he (by omega) hr hd
      refine ⟨_, bs', h, h3, h1, h2, ?_⟩
      intro hid x hx
      have := h2 x hx
      rw [hid] at this
      exact mem_shard_numbers_take len m x this
  · intro hc
    obtain ⟨ds, bs', _, _, h, _⟩ := choose_loop_enough m e inp bs he (by omega) hc
    exact ⟨_, bs', h⟩

set_option maxRecDepth 100000 in
/-- Instance of the amended C13: two of the three indices 0..2 are picked from the
identity array of length 6; the random byte 255 is rejected in the first round
(`nearest_multiple` is 255 for the bound 2), and the picks are 1 and 2. -/
theorem chosen_entries_distinct_witness :
    ((choose_without_replacement (shard_numbers 6) (List.replicate 6 0) 6 6 3 2
          (random_bytes [255, 7, 1]) = .error Stop.pending ∨
        ∃ out bs', choose_without_replacement (shard_numbers 6) (List.replicate 6 0) 6 6 3 2
            (random_bytes [255, 7, 1]) = .ok (out, random_bytes bs') ∧
          (out.take 2).length = 2 ∧ (out.take 2).Nodup ∧
          (∀ x ∈ out.take 2, x ∈ (shard_numbers 6).take 3) ∧
          (shard_numbers 6 = shard_numbers 6 → ∀ x ∈ out.take 2, x.val < 3)) ∧
      (2 ≤ ([255, 7, 1] : List u8).countP (fun b => decide (b.val < 129)) →
        ∃ out bs', choose_without_replacement (shard_numbers 6) (List.replicate 6 0) 6 6 3 2
          (random_bytes [255, 7, 1]) = .ok (out, random_bytes bs'))) ∧
    choose_without_replacement (shard_numbers 6) (List.replicate 6 0) 6 6 3 2
      (random_bytes [255, 7, 1]) = .ok ([1, 2, 0, 3, 4, 5], []) :=
  ⟨chosen_entries_distinct (shard_numbers 6) (List.replicate 6 0) 6 3 2 [255, 7, 1]
    (by decide) (by decide) (by decide) (by decide) (by decide) (by decide), by decide!⟩

set_option maxRecDepth 100000 in
/-- C17, counterexample: `elements_to_pick = m = input_array_length = 256` on an
array of 256 zero bytes. The call satisfies
`elements_to_pick <= m <= input_array_length`, but the function asserts
`elements_to_pick < 256` and is ended by that assertion on every random stream:
no output array is produced. -/
theorem permute_256_aborts :
    (List.replicate 256 (0 : u8)).length = 256 ∧
    ∀ (out0 : List u8) (stream : Entropy),
      choose_without_replacement (List.replicate 256 0) out0 256 256 256 256 stream
        = .error Stop.aborted := by
  refine ⟨by decide!, fun out0 stream => ?_⟩
  unfold choose_without_replacement c_assert
  simp only [decide_True, if_true, pure_bind]
  rfl

/-- C17, amended (the sampler only permutes): for every input array, every
`elements_to_pick <= m <= input_array_length` with `elements_to_pick < 256` (which
the function asserts) and every stream of random bytes,
`choose_without_replacement` either is still drawing when the supplied bytes end,
or returns; the whole returned output array is then a permutation of the input
array, every position at or beyond `m` holds the input entry of that position,
and the output is the input after the swaps `i <-> i + r_i`, `i < elements_to_pick`,
with every swap index `i + r_i` in `[i, m - 1]`. It does return when the stream
holds at least `elements_to_pick` bytes below 129, which no round rejects. -/
theorem choose_only_permutes (inp out0 : List u8) (len m e : Nat) (bs : List u8)
    (hin : inp.length = len) (hout : out0.length = len) (he : e ≤ m) (hm : m ≤ len)
    (h256 : e < 256) :
    (choose_without_replacement inp out0 len len m e (random_bytes bs) = .error Stop.pending ∨
      ∃ out bs', choose_without_replacement inp out0 len len m e (random_bytes bs)
          = .ok (out, random_bytes bs') ∧
        out.Perm inp ∧ (∀ t, m ≤ t → byteAt out t = byteAt inp t) ∧
        ∃ draws, draws.length = e ∧ (∀ i, i < e → i ≤ i + idxAt draws i ∧ i + idxAt draws i < m) ∧
          out = shuffle 0 inp draws) ∧
    (e ≤ bs.countP (fun b => decide (b.val < 129)) →
      ∃ out bs', choose_without_replacement inp out0 len len m e (random_bytes bs)
        = .ok (out, random_bytes bs')) := by
  rw [choose_eq_loop inp out0 len m e _ hin hout (by omega) h256]
  constructor
  · rcases choose_loop_bytes m e inp bs he (by omega) with h | ⟨ds, bs', hl, hr, h⟩
    · left; exact h
    · right
      refine ⟨_, bs', h, shuffle_perm m 0 inp ds (by omega) hr,
        fun t ht => shuffle_outside m 0 inp ds (by omega) hr t (Or.inr ht), ds, hl, ?_, rfl⟩
      intro i hi
      have := hr i (by omega)
      omega
  · intro hc
    obtain ⟨ds, bs', _, _, h, _⟩ := choose_loop_enough m e inp bs he (by omega) hc
    exact ⟨_, bs', h⟩

set_option maxRecDepth 100000 in
/-- Instance of the amended C17: two picks among the first three of the six bytes
`9, 9, 7, 5, 3, 1`; the random byte 255 is rejected in the first round. -/
theorem choose_only_permutes_witness :
    ((choose_without_replacement [9, 9, 7, 5, 3, 1] (List.replicate 6 0) 6 6 3 2
          (random_bytes [255, 7, 1]) = .error Stop.pending ∨
        ∃ out bs', choose_without_replacement [9, 9, 7, 5, 3, 1] (List.replicate 6 0) 6 6 3 2
            (random_bytes [255, 7, 1]) = .ok (out, random_bytes bs') ∧
          out.Perm [9, 9, 7, 5, 3, 1] ∧
          (∀ t, 3 ≤ t → byteAt out t = byteAt [9, 9, 7, 5, 3, 1] t) ∧
          ∃ draws, draws.length = 2 ∧
            (∀ i, i < 2 → i ≤ i + idxAt draws i ∧ i + idxAt draws i < 3) ∧
            out = shuffle 0 [9, 9, 7, 5, 3, 1] draws) ∧
      (2 ≤ ([255, 7, 1] : List u8).countP (fun b => decide (b.val < 129)) →
        ∃ out bs', choose_without_replacement [9, 9, 7, 5, 3, 1] (List.replicate 6 0) 6 6 3 2
          (random_bytes [255, 7, 1]) = .ok (out, random_bytes bs'))) ∧
    choose_without_replacement [9, 9, 7, 5, 3, 1] (List.replicate 6 0) 6 6 3 2
      (random_bytes [255, 7, 1]) = .ok ([9, 7, 9, 5, 3, 1], []) :=
  ⟨choose_only_permutes [9, 9, 7, 5, 3, 1] (List.replicate 6 0) 6 3 2 [255, 7, 1]
    (by decide) (by decide) (by decide) (by decide) (by decide), by decide!⟩

theorem nodup_take_le_256 (inp : List u8) (m : Nat) (hm : m ≤ inp.length)
    (hd : (inp.take m).Nodup) : m ≤ 256 := by
  have h := hd.length_le_card
  rw [List.length_take, Fintype.card_fin] at h
  omega

theorem idxAt_replicate_zero (n j : Nat) : idxAt (List.replicate n 0) j = 0 := by
  unfold idxAt
  rw [List.getD_eq_getElem?_getD, List.getElem?_replicate]
  by_cases h : j < n
  · rw [if_pos h]; rfl
  · rw [if_neg h]; rfl

/-- On the stream that delivers the draws `ds` (within their ranges) the function returns the
shuffle of the input by `ds` and has read the whole stream. -/
theorem choose_run_draws (inp out0 : List u8) (len m e : Nat) (ds : List Nat)
    (hin : inp.length = len) (hout : out0.length = len) (he : e ≤ m) (hm : m ≤ len)
    (h256 : e < 256) (hm256 : m ≤ 256) (hl : ds.length = e) (hr : InRange m 0 ds) :
    choose_without_replacement inp out0 len len m e (draw_stream ds)
      = .ok (shuffle 0 inp ds, []) := by
  rw [choose_eq_loop inp out0 len m e _ hin hout (by omega) h256]
  have := choose_loop_draws m inp ds [] hr (by omega) (by omega) hm256
  rw [List.append_nil, hl] at this
  exact this

set_option maxRecDepth 100000 in
/-- C14, counterexample: `nerrs = m = 256` on the 256 pairwise distinct input
entries 255, 254, ..., 0 and the draw sequence of 256 zeros, which is within the
ranges `r_i <= m - 1 - i`. The function asserts `elements_to_pick < 256` and is
ended by that assertion: the draw sequence has no image, so there is no map from
draw sequences to selections for `nerrs = 256`. -/
theorem draws_256_no_image :
    ((shard_numbers 256).reverse.take 256).Nodup ∧ (shard_numbers 256).reverse.length = 256 ∧
    (List.replicate 256 0).length = 256 ∧ InRange 256 0 (List.replicate 256 0) ∧
    ∀ out0 : List u8,
      choose_without_replacement (shard_numbers 256).reverse out0 256 256 256 256
        (draw_stream (List.replicate 256 0)) = .error Stop.aborted := by
  refine ⟨by decide!, by decide!, by decide!, ?_, fun out0 => ?_⟩
  · intro j hj
    rw [List.length_replicate] at hj
    have := idxAt_replicate_zero 256 j
    omega
  · unfold choose_without_replacement c_assert
    simp only [decide_True, if_true, pure_bind]
    rfl

/-- C14, amended (draw sequences and ordered selections correspond one to one).
For every `m`, every `nerrs <= m` with `nerrs < 256` (which the function asserts)
and every input whose first `m` entries are pairwise distinct: (1) on every draw
sequence `r_0, ..., r_{nerrs-1}` with `r_i <= m - 1 - i` the function returns, its
first `nerrs` output entries are an ordered selection of `nerrs` distinct entries
of `input_array[0..m-1]`, and `draws_for` reads the draw sequence back from
them, so different draw sequences give different selections; (2) every ordered
selection of `nerrs` distinct entries of `input_array[0..m-1]` is produced by the
draw sequence `draws_for` computes for it, which is within the ranges; (3) hence
for every set of `nerrs` such entries, given as a list `a`, the draw sequences
whose picks are an ordering of `a` are exactly `nerrs!` many. -/
theorem draws_selections_bijection (inp out0 : List u8) (len m nerrs : Nat)
    (hin : inp.length = len) (hout : out0.length = len) (hn : nerrs ≤ m) (hm : m ≤ len)
    (h256 : nerrs < 256) (hd : (inp.take m).Nodup) :
    (∀ ds : List Nat, ds.length = nerrs → InRange m 0 ds →
      ∃ out, choose_without_replacement inp out0 len len m nerrs (draw_stream ds)
          = .ok (out, []) ∧
        (out.take nerrs).length = nerrs ∧ (out.take nerrs).Nodup ∧
        (∀ x ∈ out.take nerrs, x ∈ inp.take m) ∧
        draws_for m 0 inp (out.take nerrs) = ds) ∧
    (∀ l : List u8, l.length = nerrs → l.Nodup → (∀ x ∈ l, x ∈ inp.take m) →
      (draws_for m 0 inp l).length = nerrs ∧ InRange m 0 (draws_for m 0 inp l) ∧
      ∃ out, choose_without_replacement inp out0 len len m nerrs
          (draw_stream (draws_for m 0 inp l)) = .ok (out, []) ∧ out.take nerrs = l) ∧
    (∀ a : List u8, a.length = nerrs → a.Nodup → (∀ x ∈ a, x ∈ inp.take m) →
      ∃ dss : List (List Nat), dss.Nodup ∧ dss.length = nerrs.factorial ∧
        ∀ ds, ds ∈ dss ↔ (ds.length = nerrs ∧ InRange m 0 ds ∧
          ∃ out, choose_without_replacement inp out0 len len m nerrs (draw_stream ds)
              = .ok (out, []) ∧ (out.take nerrs).Perm a)) := by
  have hm256 := nodup_take_le_256 inp m (by omega) hd
  have hd0 : ((inp.take m).drop 0).Nodup := by rw [List.drop_zero]; exact hd
  have fwd : ∀ ds : List Nat, ds.length = nerrs → InRange m 0 ds →
      choose_without_replacement inp out0 len len m nerrs (draw_stream ds)
          = .ok (shuffle 0 inp ds, []) ∧
        ((shuffle 0 inp ds).take nerrs).length = nerrs ∧
        ((shuffle 0 inp ds).take nerrs).Nodup ∧
        (∀ x ∈ (shuffle 0 inp ds).take nerrs, x ∈ inp.take m) ∧
        draws_for m 0 inp ((shuffle 0 inp ds).take nerrs) = ds := by
    intro ds hl hr
    obtain ⟨h1, h2, h3⟩ := shuffle_picks m nerrs inp ds hn (by omega) hr hd
    refine ⟨choose_run_draws inp out0 len m nerrs ds hin hout hn hm h256 hm256 hl hr,
      h3, h1, h2, ?_⟩
    have := draws_for_picks m ds 0 inp hr (by omega) hd0
    rw [List.drop_zero, hl] at this
    exact this
  have bwd : ∀ l : List u8, l.length = nerrs → l.Nodup → (∀ x ∈ l, x ∈ inp.take m) →
      (draws_for m 0 inp l).length = nerrs ∧ InRange m 0 (draws_for m 0 inp l) ∧
      (shuffle 0 inp (draws_for m 0 inp l)).take nerrs = l := by
    intro l hl hnd hsub
    obtain ⟨h1, h2, h3⟩ := picks_draws_for m l 0 inp hnd
      (by rw [List.drop_zero]; exact hsub) (by omega) hd0
    rw [List.drop_zero, hl] at h3
    exact ⟨by rw [h2, hl], h1, h3⟩
  refine ⟨?_, ?_, ?_⟩
  · intro ds hl hr
    exact ⟨_, fwd ds hl hr⟩
  · intro l hl hnd hsub
    obtain ⟨h1, h2, h3⟩ := bwd l hl hnd hsub
    exact ⟨h1, h2, _, (fwd _ h1 h2).1, h3⟩
  · intro a ha hnd hsub
    have hperm : ∀ l, l ∈ a.permutations → l.length = nerrs ∧ l.Nodup ∧ ∀ x ∈ l, x ∈ inp.take m := by
      intro l hl
      have hp := List.mem_permutations.mp hl
      exact ⟨by rw [hp.length_eq, ha], hp.nodup_iff.mpr hnd, fun x hx => hsub x (hp.mem_iff.mp hx)⟩
    refine ⟨a.permutations.map (draws_for m 0 inp), ?_, ?_, ?_⟩
    · refine List.Nodup.map_on ?_ (List.nodup_permutations a hnd)
      intro x hx y hy hxy
      obtain ⟨x1, x2, x3⟩ := hperm x hx
      obtain ⟨y1, y2, y3⟩ := hperm y hy
      have ex := (bwd x x1 x2 x3).2.2
      have ey := (bwd y y1 y2 y3).2.2
      rw [← ex, ← ey, hxy]
    · rw [List.length_map, List.length_permutations, ha]
    · intro ds
      rw [List.mem_map]
      constructor
      · rintro ⟨l, hl, rfl⟩
        obtain ⟨l1, l2, l3⟩ := hperm l hl
        obtain ⟨h1, h2, h3⟩ := bwd l l1 l2 l3
        refine ⟨h1, h2, _, (fwd _ h1 h2).1, ?_⟩
        rw [h3]
        exact List.mem_permutations.mp hl
      · rintro ⟨hl, hr, out, hrun, hp⟩
        obtain ⟨f1, _, _, _, f5⟩ := fwd ds hl hr
        rw [f1] at hrun
        have e : shuffle 0 inp ds = out := (Prod.mk.inj (Except.ok.inj hrun)).1
        rw [e] at f5
        exact ⟨out.take nerrs, List.mem_permutations.mpr hp, f5⟩

set_option maxRecDepth 100000 in
/-- Instance of the amended C14: two picks among the first four entries of
`7, 5, 3, 1, 9, 9`; the draws 3, 1 give the picks 1, 3, and `draws_for` reads the
draws back from these picks. -/
theorem draws_selections_bijection_witness :
    ((∀ ds : List Nat, ds.length = 2 → InRange 4 0 ds →
        ∃ out, choose_without_replacement [7, 5, 3, 1, 9, 9] (List.replicate 6 0) 6 6 4 2
            (draw_stream ds) = .ok (out, []) ∧
          (out.take 2).length = 2 ∧ (out.take 2).Nodup ∧
          (∀ x ∈ out.take 2, x ∈ ([7, 5, 3, 1, 9, 9] : List u8).take 4) ∧
          draws_for 4 0 [7, 5, 3, 1, 9, 9] (out.take 2) = ds) ∧
      (∀ l : List u8, l.length = 2 → l.Nodup →
        (∀ x ∈ l, x ∈ ([7, 5, 3, 1, 9, 9] : List u8).take 4) →
        (draws_for 4 0 [7, 5, 3, 1, 9, 9] l).length = 2 ∧
        InRange 4 0 (draws_for 4 0 [7, 5, 3, 1, 9, 9] l) ∧
        ∃ out, choose_without_replacement [7, 5, 3, 1, 9, 9] (List.replicate 6 0) 6 6 4 2
            (draw_stream (draws_for 4 0 [7, 5, 3, 1, 9, 9] l)) = .ok (out, []) ∧
          out.take 2 = l) ∧
      (∀ a : List u8, a.length = 2 → a.Nodup →
        (∀ x ∈ a, x ∈ ([7, 5, 3, 1, 9, 9] : List u8).take 4) →
        ∃ dss : List (List Nat), dss.Nodup ∧ dss.length = (2).factorial ∧
          ∀ ds, ds ∈ dss ↔ (ds.length = 2 ∧ InRange 4 0 ds ∧
            ∃ out, choose_without_replacement [7, 5, 3, 1, 9, 9] (List.replicate 6 0) 6 6 4 2
                (draw_stream ds) = .ok (out, []) ∧ (out.take 2).Perm a))) ∧
    choose_without_replacement [7, 5, 3, 1, 9, 9] (List.replicate 6 0) 6 6 4 2
      (draw_stream [3, 1]) = .ok ([1, 3, 5, 7, 9, 9], []) ∧
    draws_for 4 0 [7, 5, 3, 1, 9, 9] [1, 3] = [3, 1] :=
  ⟨draws_selections_bijection [7, 5, 3, 1, 9, 9] (List.replicate 6 0) 6 4 2
    (by decide) (by decide) (by decide) (by decide) (by decide) (by decide),
    by decide!, by decide!⟩

/-! ## The survivor scan stays below `m` -/

/-- Partial-correctness loop rule: an invariant kept by every returning iteration holds
after a returning loop. -/
theorem forLoop_post {σ : Type} (body : Nat → σ → Run σ) (P : Nat → σ → Prop) (n : Nat)
    (s0 s' : σ) (h0 : P 0 s0)
    (hstep : ∀ i s s1, i < n → P i s → body i s = .ok s1 → P (i + 1) s1)
    (hrun : forLoop body n s0 = .ok s') : P n s' := by
  induction n generalizing s' with
  | zero =>
    have : s0 = s' := Except.ok.inj hrun
    exact this ▸ h0
  | succ n ih =>
    rw [forLoop_succ] at hrun
    cases h1 : forLoop body n s0 with
    | error e => rw [h1] at hrun; cases hrun
    | ok s1 =>
      rw [h1, ok_bind] at hrun
      exact hstep n s1 s' (Nat.lt_succ_self n)
        (ih s1 (fun i s s2 hi hP hb => hstep i s s2 (Nat.lt_succ_of_lt hi) hP hb) h1) hrun

/-- Every inner `while` of the scan ends at the next survivor. -/
theorem scan_stops (fie : List u8) (L : List Nat) (hL : L.Pairwise (· < ·))
    (hmem : ∀ x, x ∈ L ↔ x < fie.length ∧ byteAt fie x = 0) (i : Nat) (hi : i < L.length) :
    skip_erased fie (fie.length + 1) (scan_start L i) = .ok (idxAt L i) := by
  have hin := (hmem _).mp (idxAt_mem hi)
  have hgap := scan_gap hL i hi
  apply skip_erased_spec fie _ hin.1 hin.2
  · exact hgap.1
  · intro x hx1 hx2 hzero
    exact hgap.2 x hx1 hx2 ((hmem x).mpr ⟨by omega, hzero⟩)
  · omega

/-- The scan position after a returning scan loop. -/
theorem gather_loop_position (enc fie : List u8) (k : Nat) (L : List Nat) (t di : List u8)
    (hL : L.Pairwise (· < ·))
    (hmem : ∀ x, x ∈ L ↔ x < fie.length ∧ byteAt fie x = 0)
    (hk : k ≤ L.length) (g : GatherState)
    (hrun : forLoop (gather_body enc fie k) k ⟨0, t, di⟩ = .ok g) :
    g.r = scan_start L k := by
  refine forLoop_post (gather_body enc fie k) (fun i g => g.r = scan_start L i) k ⟨0, t, di⟩ g
    rfl ?_ hrun
  rintro i ⟨r, tm, dx⟩ s1 hi hr hb
  simp only at hr
  have hskip := scan_stops fie L hL hmem i (by omega)
  rw [← hr] at hskip
  simp only [gather_body, hskip, ok_bind] at hb
  cases h1 : forLoop (copy_row enc k (idxAt L i) i) k tm with
  | error e => rw [h1] at hb; cases hb
  | ok tm' =>
    rw [h1, ok_bind] at hb
    cases h2 : wr dx i (Fin.ofNat (idxAt L i) : u8) with
    | error e => rw [h2] at hb; cases hb
    | ok dx' =>
      rw [h2, ok_bind] at hb
      have := Except.ok.inj hb
      rw [← this]
      rfl

theorem survivor_matrix_take (enc : List u8) (L : List Nat) (k m : Nat) (t : List u8)
    (h : ∀ i, i < k → idxAt L i < m) :
    survivor_matrix (enc.take (k * m)) L k t = survivor_matrix enc L k t := by
  unfold survivor_matrix
  apply List.map_congr_left
  intro x _
  by_cases hx : x < k * k
  · rw [if_pos hx, if_pos hx]
    obtain ⟨h1, h2⟩ := row_of_lt k k x hx
    have := h _ h1
    have h3 := Nat.mul_le_mul_left k (show idxAt L (x / k) + 1 ≤ m from this)
    rw [Nat.mul_succ] at h3
    exact byteAt_take _ _ _ (by omega)
  · rw [if_neg hx, if_neg hx]

theorem scan_start_congr (L L' : List Nat) (k : Nat) (h : ∀ i, i < k → idxAt L i = idxAt L' i) :
    scan_start L k = scan_start L' k := by
  cases k with
  | zero => rfl
  | succ k => simp only [scan_start]; rw [h k (by omega)]

/-- C16 (the survivor scan stays inside the encode matrix). On a valid call
(`nerrs <= m - k` pairwise distinct erased indices below `m`, the case
`nerrs = m - k` included) the marking loop and the survivor scan return; for
every `i < k` the inner `while` started at the scan position of round `i` ends,
at a row index `r < m` that is stored as `decode_index[i]`; the scan loop run on
the first `m` marker entries and the first `m` encode-matrix rows alone, where
any access to a row index `>= m` would be a fault, returns the same state, so
that every row index read is below `m`, and the final scan position is at most
`m`; every `decode_index[i]`, `i < k`, is below `m`; and with `nerrs = m - k` the
entries `decode_index[0..k-1]` are exactly the indices below `m` that are not
erased. -/
theorem survivor_scan_in_bounds (E : Env) (enc fel dm di : List u8) (nerrs k m : Nat)
    (t : List u8) (h : ValidCall E enc fel dm di nerrs k m) (ht : k * k ≤ t.length) :
    ∃ marked g,
      forLoop (mark_body fel k) nerrs (0, List.replicate E.MMAX 0) = .ok marked ∧
      gather_survivors E enc fel nerrs k t di = .ok g ∧
      (∀ i, i < k → ∃ r,
        skip_erased marked.2 (marked.2.length + 1) (scan_start (survivors fel nerrs m) i)
          = .ok r ∧ r < m ∧ (byteAt g.decode_index i).val = r) ∧
      forLoop (gather_body (enc.take (k * m)) (marked.2.take m) k) k ⟨0, t, di⟩ = .ok g ∧
      g.r ≤ m ∧
      (∀ i, i < k → (byteAt g.decode_index i).val < m) ∧
      (nerrs + k = m → ∀ x, x < m →
        (x ∉ erased fel nerrs ↔ ∃ i, i < k ∧ (byteAt g.decode_index i).val = x)) := by
  have hs := h.toSizedCall
  obtain ⟨h1, h2, h3, h4, h5, h6⟩ := hs.scan
  obtain ⟨s, hmark, hslen, hsP⟩ := mark_loop fel k nerrs E.MMAX h.nerrs_le h6
  have hmM := h.m_le_MMAX
  have hmemM : ∀ x, x ∈ survivors fel nerrs E.MMAX ↔ x < s.2.length ∧ byteAt s.2 x = 0 := by
    intro x
    rw [mem_survivors, hslen]
    constructor
    · rintro ⟨a, b⟩
      exact ⟨a, by rw [hsP x a, if_neg b]⟩
    · rintro ⟨a, b⟩
      refine ⟨a, fun hx => ?_⟩
      rw [hsP x a, if_pos hx] at b
      exact absurd b (by decide)
  have hmemm : ∀ x, x ∈ survivors fel nerrs m ↔
      x < (s.2.take m).length ∧ byteAt (s.2.take m) x = 0 := by
    intro x
    rw [mem_survivors, List.length_take, hslen, Nat.min_eq_left hmM]
    constructor
    · rintro ⟨a, b⟩
      exact ⟨a, by rw [byteAt_take _ _ _ a, hsP x (by omega), if_neg b]⟩
    · rintro ⟨a, b⟩
      refine ⟨a, fun hx => ?_⟩
      rw [byteAt_take _ _ _ a, hsP x (by omega), if_pos hx] at b
      exact absurd b (by decide)
  obtain ⟨g, hg, hgT, hgD⟩ := gather_loop enc s.2 k (survivors fel nerrs E.MMAX) t di
    (survivors_pairwise fel nerrs E.MMAX) hmemM h2 h.di_size ht h5
  have hgr := gather_loop_position enc s.2 k (survivors fel nerrs E.MMAX) t di
    (survivors_pairwise fel nerrs E.MMAX) hmemM h2 g hg
  have hencm : ∀ i, i < k → k * idxAt (survivors fel nerrs m) i + k ≤ (enc.take (k * m)).length := by
    intro i hi
    have := h4 i hi
    have h7 := Nat.mul_le_mul_left k (show idxAt (survivors fel nerrs m) i + 1 ≤ m from this)
    rw [Nat.mul_succ] at h7
    rw [List.length_take, Nat.min_eq_left h.enc_size]
    exact h7
  obtain ⟨g', hg', hgT', hgD'⟩ := gather_loop (enc.take (k * m)) (s.2.take m) k
    (survivors fel nerrs m) t di (survivors_pairwise fel nerrs m) hmemm h1 h.di_size ht hencm
  have hgr' := gather_loop_position (enc.take (k * m)) (s.2.take m) k (survivors fel nerrs m) t di
    (survivors_pairwise fel nerrs m) hmemm h1 g' hg'
  have hsame : g' = g := by
    cases g with
    | mk r tm dx =>
      cases g' with
      | mk r' tm' dx' =>
        simp only at hgT hgD hgr hgT' hgD' hgr'
        rw [hgT, hgD, hgr, hgT', hgD', hgr', survivor_matrix_take enc _ k m t h4,
          survivor_matrix_congr enc _ _ k t h3, decode_index_spec_congr _ _ k di h3,
          scan_start_congr _ _ k h3]
  have hval : ∀ i, i < k → (byteAt g.decode_index i).val = idxAt (survivors fel nerrs m) i := by
    intro i hi
    rw [hgD, decode_index_spec_congr _ _ k di h3]
    exact sized_index_val hs i hi
  refine ⟨s, g, hmark, ?_, ?_, hsame ▸ hg', ?_, ?_, ?_⟩
  · simp only [gather_survivors, hmark, ok_bind, hg]
  · intro i hi
    refine ⟨idxAt (survivors fel nerrs m) i, ?_, h4 i hi, hval i hi⟩
    have := scan_stops s.2 (survivors fel nerrs E.MMAX) (survivors_pairwise fel nerrs E.MMAX)
      hmemM i (by omega)
    rw [h3 i hi] at this
    rw [← this]
    congr 1
    cases i with
    | zero => rfl
    | succ j => simp only [scan_start]; rw [h3 j (by omega)]
  · rw [hgr, scan_start_congr _ _ k h3]
    cases k with
    | zero => simp [scan_start]
    | succ j =>
      simp only [scan_start]
      have := h4 j (by omega)
      omega
  · intro i hi
    rw [hval i hi]; exact h4 i hi
  · intro hfull x hx
    have hlen := survivors_length_eq fel nerrs m h.nerrs_le h.in_range h.distinct
    have hk : (survivors fel nerrs m).length = k := by omega
    constructor
    · intro hne
      have hmem : x ∈ survivors fel nerrs m := (mem_survivors fel nerrs m x).mpr ⟨hx, hne⟩
      obtain ⟨i, hi, hget⟩ := List.getElem_of_mem hmem
      refine ⟨i, by omega, ?_⟩
      rw [hval i (by omega)]
      rw [← hget]
      simp [idxAt, List.getD, List.getElem?_eq_getElem hi]
    · rintro ⟨i, hi, hget⟩
      rw [hval i hi] at hget
      rw [← hget]
      exact idxAt_survivors_not_erased fel nerrs m i (by omega)

set_option maxRecDepth 100000 in
/-- Instance of C16: `k = 4`, `m = 6` and the `m - k = 2` erasures 1 and 3. -/
theorem survivor_scan_in_bounds_witness :
    ∃ marked g,
      forLoop (mark_body [1, 3] 4) 2 (0, List.replicate demo_env.MMAX 0) = .ok marked ∧
      gather_survivors demo_env demo_encode_matrix [1, 3] 2 4 demo_zero24 demo_zero8 = .ok g ∧
      (∀ i, i < 4 → ∃ r,
        skip_erased marked.2 (marked.2.length + 1) (scan_start (survivors [1, 3] 2 6) i)
          = .ok r ∧ r < 6 ∧ (byteAt g.decode_index i).val = r) ∧
      forLoop (gather_body (demo_encode_matrix.take (4 * 6)) (marked.2.take 6) 4) 4
        ⟨0, demo_zero24, demo_zero8⟩ = .ok g ∧
      g.r ≤ 6 ∧
      (∀ i, i < 4 → (byteAt g.decode_index i).val < 6) ∧
      (2 + 4 = 6 → ∀ x, x < 6 →
        (x ∉ erased [1, 3] 2 ↔ ∃ i, i < 4 ∧ (byteAt g.decode_index i).val = x)) :=
  survivor_scan_in_bounds demo_env demo_encode_matrix [1, 3] demo_zero24 demo_zero8 2 4 6
    demo_zero24 demo_valid_13 (by decide)

/-! ## Stale contents of the static scratch matrices -/

theorem byteAt_of_take_eq (a b : List u8) (n x : Nat) (h : a.take n = b.take n) (hx : x < n) :
    byteAt a x = byteAt b x := by
  rw [← byteAt_take a n x hx, ← byteAt_take b n x hx, h]

theorem survivor_matrix_window (enc : List u8) (L : List Nat) (k : Nat) (t1 t2 : List u8)
    (h1 : k * k ≤ t1.length) (h2 : k * k ≤ t2.length) :
    (survivor_matrix enc L k t1).take (k * k) = (survivor_matrix enc L k t2).take (k * k) := by
  apply list_ext_byteAt
  · simp only [List.length_take, survivor_matrix, List.length_map, List.length_range]
    omega
  · intro x hx
    have hx' : x < k * k := by
      rw [List.length_take] at hx; omega
    rw [byteAt_take _ _ _ hx', byteAt_take _ _ _ hx', survivor_matrix, survivor_matrix,
      byteAt_map_range _ _ _ (by omega), byteAt_map_range _ _ _ (by omega), if_pos hx',
      if_pos hx']

theorem decode_entry_window (enc v1 v2 : List u8) (k e j : Nat) (hj : j < k)
    (h : v1.take (k * k) = v2.take (k * k)) :
    decode_entry enc v1 k e j = decode_entry enc v2 k e j := by
  unfold decode_entry
  by_cases he : e < k
  · rw [if_pos he, if_pos he]
    exact byteAt_of_take_eq v1 v2 _ _ h (row_idx_lt k k e j he hj)
  · rw [if_neg he, if_neg he]
    apply xor_sum_congr
    intro c hc
    have : c * k + j < k * k := by
      have := row_idx_lt k k c j hc hj
      rw [Nat.mul_comm c k]; exact this
    rw [byteAt_of_take_eq v1 v2 _ _ h this]

theorem decode_matrix_spec_window (enc v1 v2 fel : List u8) (nerrs k : Nat) (dm : List u8)
    (h : v1.take (k * k) = v2.take (k * k)) :
    decode_matrix_spec enc v1 fel nerrs k dm = decode_matrix_spec enc v2 fel nerrs k dm := by
  unfold decode_matrix_spec
  apply List.map_congr_left
  intro x _
  by_cases hx : x < k * nerrs
  · rw [if_pos hx, if_pos hx]
    exact decode_entry_window enc v1 v2 k _ _ (row_of_lt k nerrs x hx).2.1 h
  · rw [if_neg hx, if_neg hx]

theorem window_invert_determined (n : Nat) : InputDetermined window_invert n := by
  intro a1 b1 a2 b2 _ _ _ _ h
  unfold window_invert
  rw [h]
  cases hr : isal_gf_invert_matrix (a2.take (n * n)) (List.replicate (n * n) 0) n with
  | error e => exact rfl
  | ok r =>
    obtain ⟨rc, a, b⟩ := r
    simp only
    by_cases hl : a.length = n * n ∧ b.length = n * n
    · rw [if_pos hl, if_pos hl]
      refine ⟨rfl, ?_⟩
      show (b ++ b1.drop (n * n)).take (n * n) = (b ++ b2.drop (n * n)).take (n * n)
      rw [List.take_left' hl.2, List.take_left' hl.2]
    · rw [if_neg hl, if_neg hl]
      exact rfl

/-- Two calls of the builder on a valid input that differ only in what the static scratch
matrices hold on entry return the same code, decode matrix and decode index. -/
theorem scratch_pair (E : Env) (enc fel dm di : List u8) (nerrs k m : Nat)
    (t1 v1 t2 v2 : List u8) (rc : Int) (t1' v1' : List u8)
    (h : ValidCall E enc fel dm di nerrs k m)
    (ht1 : k * k ≤ t1.length) (hv1 : k * k ≤ v1.length)
    (ht2 : k * k ≤ t2.length) (hv2 : k * k ≤ v2.length)
    (hdet : InputDetermined E.gf_invert_matrix k)
    (hinv : E.gf_invert_matrix (survivor_matrix enc (survivors fel nerrs m) k t1) v1 k
      = .ok (rc, t1', v1'))
    (hv' : ¬ rc < 0 → k * k ≤ v1'.length) :
    ∃ o1 o2,
      gf_gen_decode_matrix_simple E ⟨false, some t1, some v1⟩ enc fel dm di nerrs k m = .ok o1 ∧
      gf_gen_decode_matrix_simple E ⟨false, some t2, some v2⟩ enc fel dm di nerrs k m = .ok o2 ∧
      o1.ret = o2.ret ∧ o1.decode_matrix = o2.decode_matrix ∧
      o1.decode_index = o2.decode_index ∧ o1.statics = ⟨false, some t1', some v1'⟩ := by
  have hs := h.toSizedCall
  have hrun1 := @sized_run E ⟨false, some t1, some v1⟩ enc fel dm di nerrs k m hs t1 v1 rc t1' v1'
    rfl ht1 hinv hv'
  have hT := survivor_matrix_window enc (survivors fel nerrs m) k t1 t2 ht1 ht2
  have hl1 : k * k ≤ (survivor_matrix enc (survivors fel nerrs m) k t1).length := by
    simp only [survivor_matrix, List.length_map, List.length_range]; exact ht1
  have hl2 : k * k ≤ (survivor_matrix enc (survivors fel nerrs m) k t2).length := by
    simp only [survivor_matrix, List.length_map, List.length_range]; exact ht2
  have hsame := hdet _ v1 _ v2 hl1 hl2 hv1 hv2 hT
  rw [hinv] at hsame
  cases hinv2 : E.gf_invert_matrix (survivor_matrix enc (survivors fel nerrs m) k t2) v2 k with
  | error e => rw [hinv2] at hsame; exact hsame.elim
  | ok r2 =>
    obtain ⟨rc2, t2', v2'⟩ := r2
    rw [hinv2] at hsame
    obtain ⟨hrc, htake⟩ := hsame
    simp only at hrc htake
    subst hrc
    have hv2' : ¬ rc < 0 → k * k ≤ v2'.length := by
      intro hn
      have := hv' hn
      have hlen := congrArg List.length htake
      rw [List.length_take, List.length_take] at hlen
      omega
    have hrun2 := @sized_run E ⟨false, some t2, some v2⟩ enc fel dm di nerrs k m hs t2 v2 rc
      t2' v2' rfl ht2 hinv2 hv2'
    refine ⟨_, _, hrun1, hrun2, rfl, ?_, rfl, rfl⟩
    simp only
    by_cases hneg : rc < 0
    · rw [if_pos hneg, if_pos hneg]
    · rw [if_neg hneg, if_neg hneg]
      exact decode_matrix_spec_window enc v1' v2' fel nerrs k dm htake

/-- C18 (stale scratch contents do not leak into the result). For every valid
input and any two initial contents `t1, v1` and `t2, v2` of the static buffers
`temp_matrix` and `invert_matrix` (each of at least `k * k` bytes), given that
the result of `gf_invert_matrix` depends only on its input matrix and `k`
(`InputDetermined`) and that it returns on the first call: both calls of
`gf_gen_decode_matrix_simple` return, with the same code, the same decode matrix
and the same decode index; and a repeated call with the same arguments, which
finds the scratch contents `t1', v1'` left by the first call, again returns the
same code, decode matrix and decode index. -/
theorem stale_scratch_irrelevant (E : Env) (enc fel dm di : List u8) (nerrs k m : Nat)
    (t1 v1 t2 v2 : List u8) (rc : Int) (t1' v1' : List u8)
    (h : ValidCall E enc fel dm di nerrs k m)
    (ht1 : k * k ≤ t1.length) (hv1 : k * k ≤ v1.length)
    (ht2 : k * k ≤ t2.length) (hv2 : k * k ≤ v2.length)
    (hdet : InputDetermined E.gf_invert_matrix k)
    (hinv : E.gf_invert_matrix (survivor_matrix enc (survivors fel nerrs m) k t1) v1 k
      = .ok (rc, t1', v1'))
    (hv' : ¬ rc < 0 → k * k ≤ v1'.length) :
    ∃ o1 o2,
      gf_gen_decode_matrix_simple E ⟨false, some t1, some v1⟩ enc fel dm di nerrs k m = .ok o1 ∧
      gf_gen_decode_matrix_simple E ⟨false, some t2, some v2⟩ enc fel dm di nerrs k m = .ok o2 ∧
      o1.ret = o2.ret ∧ o1.decode_matrix = o2.decode_matrix ∧
      o1.decode_index = o2.decode_index ∧
      (k * k ≤ t1'.length → k * k ≤ v1'.length →
        ∃ o3, gf_gen_decode_matrix_simple E o1.statics enc fel dm di nerrs k m = .ok o3 ∧
          o3.ret = o1.ret ∧ o3.decode_matrix = o1.decode_matrix ∧
          o3.decode_index = o1.decode_index) := by
  obtain ⟨o1, o2, r1, r2, e1, e2, e3, e4⟩ := scratch_pair E enc fel dm di nerrs k m t1 v1 t2 v2
    rc t1' v1' h ht1 hv1 ht2 hv2 hdet hinv hv'
  refine ⟨o1, o2, r1, r2, e1, e2, e3, ?_⟩
  intro ht' hvl'
  obtain ⟨p1, p3, q1, q3, f1, f2, f3, _⟩ := scratch_pair E enc fel dm di nerrs k m t1 v1 t1' v1'
    rc t1' v1' h ht1 hv1 ht' hvl' hdet hinv hv'
  rw [r1] at q1
  have : o1 = p1 := Except.ok.inj q1
  subst this
  rw [e4]
  exact ⟨p3, q3, f1.symm, f2.symm, f3.symm⟩

theorem window_valid_13 :
    ValidCall window_env demo_encode_matrix [1, 3] demo_zero24 demo_zero8 2 4 6 :=
  ⟨⟨by decide, by decide, by decide, by decide, by decide, by decide, by decide, by decide⟩,
    by decide⟩

set_option maxRecDepth 100000 in
theorem window_invert_13 :
    window_env.gf_invert_matrix
      (survivor_matrix demo_encode_matrix (survivors [1, 3] 2 6) 4 demo_zero24) demo_zero24 4
      = .ok (0, demo_reduced, demo_inverse_0245) := by
  decide!

set_option maxRecDepth 100000 in
/-- Instance of C18: `k = 4`, `m = 6`, erasures 1 and 3; zeroed scratch matrices
against scratch matrices filled with the bytes 7 and 9. -/
theorem stale_scratch_irrelevant_witness :
    ∃ o1 o2,
      gf_gen_decode_matrix_simple window_env ⟨false, some demo_zero24, some demo_zero24⟩
        demo_encode_matrix [1, 3] demo_zero24 demo_zero8 2 4 6 = .ok o1 ∧
      gf_gen_decode_matrix_simple window_env
        ⟨false, some (List.replicate 24 7), some (List.replicate 30 9)⟩
        demo_encode_matrix [1, 3] demo_zero24 demo_zero8 2 4 6 = .ok o2 ∧
      o1.ret = o2.ret ∧ o1.decode_matrix = o2.decode_matrix ∧
      o1.decode_index = o2.decode_index ∧
      (4 * 4 ≤ demo_reduced.length → 4 * 4 ≤ demo_inverse_0245.length →
        ∃ o3, gf_gen_decode_matrix_simple window_env o1.statics demo_encode_matrix [1, 3]
            demo_zero24 demo_zero8 2 4 6 = .ok o3 ∧
          o3.ret = o1.ret ∧ o3.decode_matrix = o1.decode_matrix ∧
          o3.decode_index = o1.decode_index) :=
  stale_scratch_irrelevant window_env demo_encode_matrix [1, 3] demo_zero24 demo_zero8 2 4 6
    demo_zero24 demo_zero24 (List.replicate 24 7) (List.replicate 30 9) 0 demo_reduced
    demo_inverse_0245 window_valid_13 (by decide) (by decide) (by decide) (by decide)
    (window_invert_determined 4) window_invert_13 (by decide)

/-! ## `recover_fragments_progressive` and the progressive mode of `recover_data` -/

theorem SameOutcome.bind {α β γ δ : Type} {R : α → β → Prop} {Q : γ → δ → Prop}
    {x : Run α} {y : Run β} {f : α → Run γ} {g : β → Run δ} (h : SameOutcome R x y)
    (hf : ∀ a b, R a b → SameOutcome Q (f a) (g b)) : SameOutcome Q (x >>= f) (y >>= g) := by
  cases x with
  | error e1 =>
    cases y with
    | error e2 => exact h
    | ok b => exact h.elim
  | ok a =>
    cases y with
    | error e2 => exact h.elim
    | ok b => exact hf a b h

theorem SameOutcome.refl {α : Type} (x : Run α) : SameOutcome (fun a b => a = b) x x := by
  cases x with
  | error e => exact rfl
  | ok a => exact rfl

theorem SameOutcome.map_eq {α β : Type} (f : β → α) {x : Run α} {y : Run β}
    (h : SameOutcome (fun a b => a = f b) x y) : x = y.map f := by
  cases x with
  | error e1 =>
    cases y with
    | error e2 => exact congrArg Except.error h
    | ok b => exact h.elim
  | ok a =>
    cases y with
    | error e2 => exact h.elim
    | ok b => exact congrArg Except.ok h

/-- Two loops whose bodies keep a relation between their states stop in the same way or
return related states. -/
theorem forLoop_sim {σ τ : Type} (R : Nat → σ → τ → Prop) (b1 : Nat → σ → Run σ)
    (b2 : Nat → τ → Run τ) (n : Nat) (s : σ) (t : τ) (h0 : R 0 s t)
    (hstep : ∀ i s t, i < n → R i s t → SameOutcome (R (i + 1)) (b1 i s) (b2 i t)) :
    SameOutcome (R n) (forLoop b1 n s) (forLoop b2 n t) := by
  induction n with
  | zero => exact h0
  | succ n ih =>
    rw [forLoop_succ, forLoop_succ]
    exact (ih (fun i s t hi hR => hstep i s t (Nat.lt_succ_of_lt hi) hR)).bind
      (fun a b hab => hstep n a b (Nat.lt_succ_self n) hab)

theorem rd_same (a b : List u8) (i : Nat) (hl : a.length = b.length)
    (h : i < a.length → byteAt a i = byteAt b i) :
    SameOutcome (fun x y => x = y) (rd a i) (rd b i) := by
  by_cases hi : i < a.length
  · rw [rd_ok_byteAt hi, rd_ok_byteAt (hl ▸ hi)]
    exact h hi
  · have h1 : a[i]? = none := List.getElem?_eq_none (by omega)
    have h2 : b[i]? = none := List.getElem?_eq_none (by omega)
    simp only [rd, h1, h2]
    exact rfl

theorem rd_same_frag (a b : List (List u8)) (i : Nat) (hl : a.length = b.length)
    (h : i < a.length → fragAt a i = fragAt b i) :
    SameOutcome (fun x y => x = y) (rd a i) (rd b i) := by
  by_cases hi : i < a.length
  · rw [rd_ok_fragAt hi, rd_ok_fragAt (hl ▸ hi)]
    exact h hi
  · have h1 : a[i]? = none := List.getElem?_eq_none (by omega)
    have h2 : b[i]? = none := List.getElem?_eq_none (by omega)
    simp only [rd, h1, h2]
    exact rfl

/-- One round of the survivor scan does not look at the decode index it writes. -/
theorem gather_body_sim (enc fie : List u8) (k i : Nat) (g1 g2 : GatherState)
    (hr : g1.r = g2.r) (ht : g1.temp_matrix = g2.temp_matrix)
    (hl : g1.decode_index.length = g2.decode_index.length)
    (ha : ∀ j, j < i → byteAt g1.decode_index j = byteAt g2.decode_index j) :
    SameOutcome (fun a b => a.r = b.r ∧ a.temp_matrix = b.temp_matrix ∧
        a.decode_index.length = b.decode_index.length ∧
        ∀ j, j < i + 1 → byteAt a.decode_index j = byteAt b.decode_index j)
      (gather_body enc fie k i g1) (gather_body enc fie k i g2) := by
  unfold gather_body
  rw [hr, ht]
  refine (SameOutcome.refl _).bind ?_
  rintro r _ rfl
  refine (SameOutcome.refl _).bind ?_
  rintro tm _ rfl
  by_cases hi : i < g1.decode_index.length
  · rw [wr_ok hi, wr_ok (hl ▸ hi), ok_bind, ok_bind]
    refine ⟨rfl, rfl, by simp [hl], ?_⟩
    intro j hj
    show byteAt (g1.decode_index.set i _) j = byteAt (g2.decode_index.set i _) j
    rw [byteAt_set, byteAt_set]
    by_cases hij : i = j
    · rw [if_pos ⟨hij, hi⟩, if_pos ⟨hij, hl ▸ hi⟩]
    · rw [if_neg (fun h => hij h.1), if_neg (fun h => hij h.1)]
      exact ha j (by omega)
  · have h1 : ¬ i < g2.decode_index.length := by omega
    simp only [wr, if_neg hi, if_neg h1]
    exact rfl

/-- The builder does not look at the contents of the decode index it is handed: on two
decode indices of the same length the calls stop in the same way, or return the same code,
decode matrix and statics and decode indices that agree on the first `k` entries. -/
theorem builder_index_sim (E : Env) (st : Statics) (enc fel dm di1 di2 : List u8)
    (nerrs k m : Nat) (hl : di1.length = di2.length) :
    SameOutcome (fun a b => a.ret = b.ret ∧ a.decode_matrix = b.decode_matrix ∧
        a.statics = b.statics ∧ a.decode_index.length = b.decode_index.length ∧
        ∀ j, j < k → byteAt a.decode_index j = byteAt b.decode_index j)
      (gf_gen_decode_matrix_simple E st enc fel dm di1 nerrs k m)
      (gf_gen_decode_matrix_simple E st enc fel dm di2 nerrs k m) := by
  unfold gf_gen_decode_matrix_simple
  simp only
  cases h1 : (alloc_statics E m k st).temp_matrix with
  | none => exact rfl
  | some t =>
    cases h2 : (alloc_statics E m k st).invert_matrix with
    | none => exact rfl
    | some v =>
      simp only
      have hg : SameOutcome (fun a b => a.r = b.r ∧ a.temp_matrix = b.temp_matrix ∧
          a.decode_index.length = b.decode_index.length ∧
          ∀ j, j < k → byteAt a.decode_index j = byteAt b.decode_index j)
          (gather_survivors E enc fel nerrs k t di1) (gather_survivors E enc fel nerrs k t di2) := by
        unfold gather_survivors
        refine (SameOutcome.refl _).bind ?_
        rintro marked _ rfl
        exact forLoop_sim (fun i a b => a.r = b.r ∧ a.temp_matrix = b.temp_matrix ∧
            a.decode_index.length = b.decode_index.length ∧
            ∀ j, j < i → byteAt a.decode_index j = byteAt b.decode_index j)
          (gather_body enc marked.2 k) (gather_body enc marked.2 k) k ⟨0, t, di1⟩ ⟨0, t, di2⟩
          ⟨rfl, rfl, hl, fun j hj => absurd hj (Nat.not_lt_zero j)⟩
          (fun i a b _ hR => gather_body_sim enc marked.2 k i a b hR.1 hR.2.1 hR.2.2.1 hR.2.2.2)
      refine hg.bind ?_
      rintro g1 g2 ⟨_, hT, hL, hA⟩
      rw [hT]
      refine (SameOutcome.refl _).bind ?_
      rintro inv _ rfl
      by_cases hneg : inv.1 < 0
      · simp only [hneg, if_true]
        exact ⟨rfl, rfl, rfl, hL, hA⟩
      · simp only [hneg, if_false]
        refine (SameOutcome.refl _).bind ?_
        rintro d _ rfl
        exact ⟨rfl, rfl, rfl, hL, hA⟩

/-- Packing the sources does not look at the former contents of `recover_srcs`. -/
theorem pack_src_sim (frags : List (List u8)) (d1 d2 : List u8) (k i : Nat)
    (s1 s2 : List (List u8)) (hi : i < k) (hdl : d1.length = d2.length)
    (hd : ∀ j, j < k → byteAt d1 j = byteAt d2 j) (hl : s1.length = s2.length)
    (ha : ∀ j, j < i → fragAt s1 j = fragAt s2 j) :
    SameOutcome (fun a b => a.length = b.length ∧ ∀ j, j < i + 1 → fragAt a j = fragAt b j)
      (pack_src frags d1 i s1) (pack_src frags d2 i s2) := by
  unfold pack_src
  refine (rd_same d1 d2 i hdl (fun _ => hd i hi)).bind ?_
  rintro d _ rfl
  refine (SameOutcome.refl _).bind ?_
  rintro f _ rfl
  by_cases hw : i < s1.length
  · rw [wr_ok hw, wr_ok (hl ▸ hw)]
    refine ⟨by simp [hl], ?_⟩
    intro j hj
    rw [fragAt_set, fragAt_set]
    by_cases hij : i = j
    · rw [if_pos ⟨hij, hw⟩, if_pos ⟨hij, hl ▸ hw⟩]
    · rw [if_neg (fun h => hij h.1), if_neg (fun h => hij h.1)]
      exact ha j (by omega)
  · have h1 : ¬ i < s2.length := by omega
    simp only [wr, if_neg hw, if_neg h1]
    exact rfl

/-- The function `recover_fragments_progressive` is `recover_data` with
`use_progressive = 1` followed by `return 0`, whatever the uninitialised local arrays
hold. -/
theorem progressive_is_mode_one (E : Env) (st : Statics) (k m p nerrs len : Nat)
    (enc fel : List u8) (out frags : List (List u8)) (junk_index : Nat → u8)
    (junk_srcs : Nat → List u8) :
    recover_fragments_progressive E st k m p nerrs len enc fel out frags junk_index junk_srcs
      = (recover_data E st k m p nerrs len enc frags fel out 1).map
          (fun r => ((0 : Int), r.1, r.2)) := by
  apply SameOutcome.map_eq
  unfold recover_fragments_progressive recover_data
  by_cases hc : E.calloc_ok (m * k) = false ∨ E.calloc_ok (k * p * 32) = false
  · rw [if_pos hc, if_pos hc]
    exact rfl
  · rw [if_neg hc, if_neg hc]
    simp only
    refine (builder_index_sim E st enc fel (List.replicate (m * k) 0) (block E.MMAX junk_index)
      (List.replicate E.MMAX 0) nerrs k m (by simp [block])).bind ?_
    rintro d1 d2 ⟨hret, hdm, hst, hdl, hda⟩
    rw [hret]
    by_cases hz : d2.ret ≠ 0
    · rw [if_pos hz, if_pos hz]
      exact rfl
    · rw [if_neg hz, if_neg hz]
      have hpack := forLoop_sim
        (fun i (a b : List (List u8)) => a.length = b.length ∧
          ∀ j, j < i → fragAt a j = fragAt b j)
        (pack_src frags d1.decode_index) (pack_src frags d2.decode_index) k
        ((List.range E.KMAX).map junk_srcs) (List.replicate E.KMAX [])
        ⟨by simp, fun j hj => absurd hj (Nat.not_lt_zero j)⟩
        (fun i a b hi hR => pack_src_sim frags d1.decode_index d2.decode_index k i a b hi hdl hda
          hR.1 hR.2)
      refine hpack.bind ?_
      rintro s1 s2 ⟨hsl, hsa⟩
      rw [hdm]
      refine (SameOutcome.refl _).bind ?_
      rintro g _ rfl
      rw [if_pos (by decide : (1 : Int) ≠ 0)]
      have hupd := forLoop_sim (fun _ (a b : List (List u8)) => a = b)
        (update_step len k nerrs g s1) (update_step len k nerrs g s2) k out out rfl
        (fun i a b hi hR => by
          subst hR
          unfold update_step
          refine (rd_same_frag s1 s2 i hsl (fun _ => hsa i hi)).bind ?_
          rintro src _ rfl
          exact SameOutcome.refl _)
      refine hupd.bind ?_
      rintro o _ rfl
      exact congrArg (fun s => ((0 : Int), o, s)) hst

/-- The sums computed by the encode kernels from the tables of the decode matrix and the
packed survivors are the bytes of the erased fragments, when the fragments are a codeword of
a systematic encode matrix and the decode matrix comes from a left inverse of the survivor
matrix. -/
theorem encoded_byte_recovers {E : Env} {k m p nerrs len : Nat} {enc : List u8}
    {frags : List (List u8)} {fel : List u8} {out : List (List u8)}
    (h : ValidRecovery E k m p nerrs len enc frags fel out) (data : List (List u8))
    (t v' g : List u8) (srcs : List (List u8))
    (hsys : ∀ i, i < k → ∀ c, c < k → byteAt enc (k * i + c) = if i = c then 1 else 0)
    (hfrag : ∀ i, i < m → ∀ b, b < len →
      byteAt (fragAt frags i) b = fragment_byte enc data k i b)
    (ht : k * k ≤ t.length)
    (hI : IsLeftInverse v' (survivor_matrix enc (survivors fel nerrs m) k t) k)
    (hg : ∀ l j, l < nerrs → j < k →
      byteAt g (j * 32 + l * k * 32 + 1) = decode_entry enc v' k (byteAt fel l).val j)
    (hsrcs : ∀ j, j < k → fragAt srcs j = fragAt frags (idxAt (survivors fel nerrs m) j))
    (l b : Nat) (hl : l < nerrs) (hb : b < len) :
    encoded_byte k g srcs l b = byteAt (fragAt frags (byteAt fel l).val) b := by
  have hs := h.sized
  obtain ⟨_, _, _, h4, _, _⟩ := hs.scan
  have hem : (byteAt fel l).val < m :=
    h.in_range _ (mem_erased_of_lt fel l nerrs hl (by have := h.nerrs_le; omega))
  rw [encoded_byte, hfrag _ hem b hb, fragment_byte]
  have e1 : ∀ j, j < k →
      gf_mul (byteAt (fragAt srcs j) b) (byteAt g (j * 32 + l * k * 32 + 1))
      = xor_sum (fun c => gf_mul (byteAt (fragAt data c) b)
          (gf_mul (decode_entry enc v' k (byteAt fel l).val j)
            (byteAt (survivor_matrix enc (survivors fel nerrs m) k t) (k * j + c)))) k := by
    intro j hj
    rw [hsrcs j hj, hg l j hl hj, hfrag _ (h4 j hj) b hb, fragment_byte, xor_sum_mul]
    apply xor_sum_congr
    intro c hc
    rw [byteAt_survivor_matrix enc _ k t j c hj hc ht,
      gf_mul_comm (byteAt enc _) (byteAt (fragAt data c) b), gf_mul_assoc,
      gf_mul_comm (byteAt enc _) (decode_entry enc v' k (byteAt fel l).val j)]
  rw [xor_sum_congr _ _ k e1, xor_sum_swap]
  apply xor_sum_congr
  intro c hc
  rw [← mul_xor_sum, decode_row_times_T enc v' _ k _ hI hsys c hc, gf_mul_comm]

/-- C19 (`recover_fragments_progressive` is the progressive mode of
`recover_data`). For every input, every initial content of the output buffers and
whatever the uninitialised local arrays hold, `recover_fragments_progressive`
stops exactly when and as `recover_data` with `use_progressive = 1` does on the
same arguments, and otherwise returns 0 and leaves the same output buffers (and
statics); and on a valid call with zero-initialised output bytes, a systematic
encode matrix, fragments that are a codeword and an inversion that succeeds with
`invert_matrix * T = 1`, it returns 0 and output row `i` holds the `len` bytes of
the original fragment `frag_err_list[i]`, for every `i < nerrs`. -/
theorem progressive_entry_point (E : Env) (st : Statics) (k m p nerrs len : Nat)
    (enc fel : List u8) (out frags : List (List u8)) (junk_index : Nat → u8)
    (junk_srcs : Nat → List u8) :
    recover_fragments_progressive E st k m p nerrs len enc fel out frags junk_index junk_srcs
      = (recover_data E st k m p nerrs len enc frags fel out 1).map
          (fun r => ((0 : Int), r.1, r.2)) ∧
    ∀ (data : List (List u8)) (t v : List u8) (rc : Int) (t' v' : List u8),
      ValidRecovery E k m p nerrs len enc frags fel out →
      (∀ i, i < k → ∀ c, c < k → byteAt enc (k * i + c) = if i = c then 1 else 0) →
      (∀ i, i < m → ∀ b, b < len → byteAt (fragAt frags i) b = fragment_byte enc data k i b) →
      (∀ l, l < nerrs → ∀ b, b < len → byteAt (fragAt out l) b = 0) →
      alloc_statics E m k st = ⟨false, some t, some v⟩ → k * k ≤ t.length →
      E.gf_invert_matrix (survivor_matrix enc (survivors fel nerrs m) k t) v k
        = .ok (rc, t', v') →
      ¬ rc < 0 → k * k ≤ v'.length →
      IsLeftInverse v' (survivor_matrix enc (survivors fel nerrs m) k t) k →
      ∃ res st', recover_fragments_progressive E st k m p nerrs len enc fel out frags
          junk_index junk_srcs = .ok (0, res, st') ∧
        ∀ l, l < nerrs → ∀ b, b < len →
          byteAt (fragAt res l) b = byteAt (fragAt frags (byteAt fel l).val) b := by
  have hsame := progressive_is_mode_one E st k m p nerrs len enc fel out frags junk_index
    junk_srcs
  refine ⟨hsame, ?_⟩
  intro data t v rc t' v' h hsys hfrag hzero hst ht hinv hrc hv hI
  obtain ⟨g, srcs, hg, hsrcs, hr⟩ := recover_data_run h st t v rc t' v' hst ht hinv hrc hv
  refine ⟨_, _, by rw [hsame, hr 1]; rfl, ?_⟩
  intro l hl b hb
  rw [if_pos (by decide : (1 : Int) ≠ 0),
    byteAt_map2d _ _ _ _ l b hl h.out_rows hb (h.out_size l hl), hzero l hl b hb, u8_zero_xor]
  exact encoded_byte_recovers h data t v' g srcs hsys hfrag ht hI hg hsrcs l b hl hb

/-- Instance of C19: `k = 4`, `m = 6`, a single erasure at the parity index 5, zeroed output
buffers, and the bytes 77 and `9 9 9` in the uninitialised local arrays. -/
theorem progressive_entry_point_witness :
    ∃ res st', recover_fragments_progressive demo_env Statics.initial 4 6 2 1 2
        demo_encode_matrix [5] demo_output demo_frags (fun _ => 77) (fun _ => [9, 9, 9])
        = .ok (0, res, st') ∧
      ∀ l, l < 1 → ∀ b, b < 2 →
        byteAt (fragAt res l) b = byteAt (fragAt demo_frags (byteAt [5] l).val) b :=
  (progressive_entry_point demo_env Statics.initial 4 6 2 1 2 demo_encode_matrix [5]
    demo_output demo_frags (fun _ => 77) (fun _ => [9, 9, 9])).2 demo_data demo_zero24
    demo_zero24 0 demo_reduced demo_reduced demo_recovery_5 (by decide) demo_frags_encoded
    (by decide) demo_statics (by decide) demo_invert_5 (by decide) (by decide)
    demo_left_inverse_5

/-! ## The invocations made by `test_exhaustive` -/

theorem exhaustive_rounds_succ_fault (E : Env) (k m p len : Nat) (enc : List u8)
    (frags : List (List u8)) (n i : Nat) (st : Statics) (fel : List u8) (h : ¬ 0 < fel.length) :
    exhaustive_rounds E k m p len enc frags (n + 1) i st fel = ([], .error Stop.fault) := by
  simp only [exhaustive_rounds, wr, if_neg h]

theorem exhaustive_rounds_succ_stop (E : Env) (k m p len : Nat) (enc : List u8)
    (frags : List (List u8)) (n i : Nat) (st : Statics) (fel : List u8) (h : 0 < fel.length)
    (e : Stop)
    (hh : test_helper E st k m p 1 len enc (fel.set 0 (byte_of_int (i : Int))) frags
      = .error e) :
    exhaustive_rounds E k m p len enc frags (n + 1) i st fel
      = ([(fel.set 0 (byte_of_int (i : Int)), 1)], .error e) := by
  simp only [exhaustive_rounds, wr_ok h, hh]

theorem exhaustive_rounds_succ_ok (E : Env) (k m p len : Nat) (enc : List u8)
    (frags : List (List u8)) (n i : Nat) (st : Statics) (fel : List u8) (h : 0 < fel.length)
    (r : Int × Statics)
    (hh : test_helper E st k m p 1 len enc (fel.set 0 (byte_of_int (i : Int))) frags = .ok r) :
    exhaustive_rounds E k m p len enc frags (n + 1) i st fel
      = ((fel.set 0 (byte_of_int (i : Int)), 1) ::
          (exhaustive_rounds E k m p len enc frags n (i + 1) r.2
            (fel.set 0 (byte_of_int (i : Int)))).1,
        (exhaustive_rounds E k m p len enc frags n (i + 1) r.2
            (fel.set 0 (byte_of_int (i : Int)))).2) := by
  simp only [exhaustive_rounds, wr_ok h, hh]

/-- The invocations logged by the loop of `test_exhaustive`: the first rounds in ascending
order, all of them when the loop returns. -/
theorem exhaustive_rounds_log (E : Env) (k m p len : Nat) (enc : List u8)
    (frags : List (List u8)) (n i : Nat) (st : Statics) (fel : List u8) :
    (exhaustive_rounds E k m p len enc frags n i st fel).1.length ≤ n ∧
    (∀ j, j < (exhaustive_rounds E k m p len enc frags n i st fel).1.length →
      0 < fel.length ∧
      (exhaustive_rounds E k m p len enc frags n i st fel).1[j]?
        = some (fel.set 0 (byte_of_int ((i + j : Nat) : Int)), 1)) ∧
    (∀ st', (exhaustive_rounds E k m p len enc frags n i st fel).2 = .ok st' →
      (exhaustive_rounds E k m p len enc frags n i st fel).1.length = n) ∧
    ((exhaustive_rounds E k m p len enc frags n i st fel).1.length < n →
      ∃ e, (exhaustive_rounds E k m p len enc frags n i st fel).2 = .error e) := by
  induction n generalizing i st fel with
  | zero =>
    refine ⟨Nat.le_refl _, fun j hj => absurd hj (Nat.not_lt_zero j), fun _ _ => rfl,
      fun h => absurd h (Nat.lt_irrefl _)⟩
  | succ n ih =>
    by_cases h0 : 0 < fel.length
    · cases hh : test_helper E st k m p 1 len enc (fel.set 0 (byte_of_int (i : Int))) frags with
      | error e =>
        rw [exhaustive_rounds_succ_stop E k m p len enc frags n i st fel h0 e hh]
        refine ⟨by simp, ?_, fun st' h => (by cases h), fun _ => ⟨e, rfl⟩⟩
        intro j hj
        have : j = 0 := by simpa using hj
        subst this
        exact ⟨h0, by simp only [List.getElem?_cons_zero, Nat.add_zero]⟩
      | ok r =>
        rw [exhaustive_rounds_succ_ok E k m p len enc frags n i st fel h0 r hh]
        obtain ⟨ih1, ih2, ih3, ih4⟩ := ih (i + 1) r.2 (fel.set 0 (byte_of_int (i : Int)))
        refine ⟨by simp only [List.length_cons]; omega, ?_, ?_, ?_⟩
        · intro j hj
          refine ⟨h0, ?_⟩
          cases j with
          | zero => simp only [List.getElem?_cons_zero, Nat.add_zero]
          | succ j =>
            simp only [List.length_cons] at hj
            have := (ih2 j (by omega)).2
            rw [List.set_set] at this
            simp only [List.getElem?_cons_succ]
            rw [this]
            have e : i + 1 + j = i + (j + 1) := by omega
            rw [e]
        · intro st' h
          simp only [List.length_cons]
          rw [ih3 st' h]
        · intro h
          simp only [List.length_cons] at h
          exact ih4 (by omega)
    · rw [exhaustive_rounds_succ_fault E k m p len enc frags n i st fel h0]
      exact ⟨by simp, fun j hj => absurd hj (by simp), fun st' h => (by cases h),
        fun _ => ⟨_, rfl⟩⟩

set_option maxRecDepth 100000 in
/-- C20, counterexample: `k = 2`, `m = 3` with the encode matrix whose parity row repeats
row 0. The invocation for fragment 0 passes; the one for fragment 1 finds a singular survivor
matrix and ends the process with `exit(-1)`: `test_helper` is invoked twice, not `m = 3`
times, and fragment 2 is never visited. -/
theorem exhaustive_stops_at_failure :
    (test_exhaustive demo_env Statics.initial 2 3 1 2 singular_encode_matrix singular_frags).1
      = [([0, 0, 0, 0, 0, 0, 0, 0], 1), ([1, 0, 0, 0, 0, 0, 0, 0], 1)] ∧
    (test_exhaustive demo_env Statics.initial 2 3 1 2 singular_encode_matrix singular_frags).2
      = .error (Stop.exited (-1)) := by
  decide!

/-- C20, amended (the invocations of the exhaustive enumeration). For every `m`
(and all other arguments), `test_exhaustive` invokes `test_helper` at most `m`
times; the `i`-th invocation (counted from 0) is made with `nerrs = 1` and the
erasure list that is zero except for its first entry, which is `i` as a byte
(`i` itself for `i < 256`), so the invocations come in ascending order of `i`
without gaps; when `test_exhaustive` returns there were exactly `m` invocations;
and with fewer than `m` invocations the run was stopped (by the `exit(-1)` of a
failed invocation, or a fault), so that the later fragments were not visited. -/
theorem exhaustive_invocations (E : Env) (st : Statics) (k m p len : Nat) (enc : List u8)
    (frags : List (List u8)) :
    (test_exhaustive E st k m p len enc frags).1.length ≤ m ∧
    (∀ i, i < (test_exhaustive E st k m p len enc frags).1.length →
      (test_exhaustive E st k m p len enc frags).1[i]?
        = some ((List.replicate E.MMAX 0).set 0 (byte_of_int (i : Int)), 1) ∧
      byteAt ((List.replicate E.MMAX (0 : u8)).set 0 (byte_of_int (i : Int))) 0
        = byte_of_int (i : Int) ∧
      (i < 256 → (byte_of_int (i : Int)).val = i)) ∧
    (∀ st', (test_exhaustive E st k m p len enc frags).2 = .ok st' →
      (test_exhaustive E st k m p len enc frags).1.length = m) ∧
    ((test_exhaustive E st k m p len enc frags).1.length < m →
      ∃ e, (test_exhaustive E st k m p len enc frags).2 = .error e) := by
  obtain ⟨h1, h2, h3, h4⟩ := exhaustive_rounds_log E k m p len enc frags m 0 st
    (List.replicate E.MMAX 0)
  refine ⟨h1, ?_, h3, h4⟩
  intro i hi
  obtain ⟨hpos, hget⟩ := h2 i hi
  rw [Nat.zero_add] at hget
  refine ⟨hget, ?_, fun h => byte_of_int_val i h⟩
  rw [byteAt_set, if_pos ⟨rfl, hpos⟩]

set_option maxRecDepth 100000 in
/-- Instance of the amended C20: `k = 2`, `m = 3` with the parity row `1 1`; all three
invocations pass and `test_exhaustive` returns. -/
theorem exhaustive_invocations_witness :
    ((test_exhaustive demo_env Statics.initial 2 3 1 2 small_encode_matrix small_frags).1.length
        ≤ 3 ∧
      (∀ i, i < (test_exhaustive demo_env Statics.initial 2 3 1 2 small_encode_matrix
          small_frags).1.length →
        (test_exhaustive demo_env Statics.initial 2 3 1 2 small_encode_matrix small_frags).1[i]?
          = some ((List.replicate demo_env.MMAX 0).set 0 (byte_of_int (i : Int)), 1) ∧
        byteAt ((List.replicate demo_env.MMAX (0 : u8)).set 0 (byte_of_int (i : Int))) 0
          = byte_of_int (i : Int) ∧
        (i < 256 → (byte_of_int (i : Int)).val = i)) ∧
      (∀ st', (test_exhaustive demo_env Statics.initial 2 3 1 2 small_encode_matrix
          small_frags).2 = .ok st' →
        (test_exhaustive demo_env Statics.initial 2 3 1 2 small_encode_matrix
          small_frags).1.length = 3) ∧
      ((test_exhaustive demo_env Statics.initial 2 3 1 2 small_encode_matrix
          small_frags).1.length < 3 →
        ∃ e, (test_exhaustive demo_env Statics.initial 2 3 1 2 small_encode_matrix
          small_frags).2 = .error e)) ∧
    (test_exhaustive demo_env Statics.initial 2 3 1 2 small_encode_matrix small_frags).1
      = [([0, 0, 0, 0, 0, 0, 0, 0], 1), ([1, 0, 0, 0, 0, 0, 0, 0], 1),
          ([2, 0, 0, 0, 0, 0, 0, 0], 1)] ∧
    (test_exhaustive demo_env Statics.initial 2 3 1 2 small_encode_matrix small_frags).2.isOk
      = true :=
  ⟨exhaustive_invocations demo_env Statics.initial 2 3 1 2 small_encode_matrix small_frags,
    by decide!, by decide!⟩
